import Mathlib

set_option maxRecDepth 10000

/-!
# Verification of the `dawg` package (directed acyclic word graph)

This file gives a shallow embedding, in Lean 4, of the Go sources of the
`dawg` repository (`dawg.go`, `disk.go`, `bits.go`, and the variant sources
shipped in the repository), together with theorems checking the repository's
specification against that embedding.

Modelling conventions:
* Go `string` values that are iterated rune-by-rune are modelled as `List Nat`
  (each element a Unicode code point).  Go's `<`/`<=` on strings is byte-wise
  lexicographic on the UTF-8 encoding, which coincides with code-point-wise
  lexicographic order for valid strings; we use the code-point order.
* Go `map` values are modelled as association lists together with the
  operations the source performs on them (`get` with zero-value default,
  insert-or-replace, delete).  Where the source ranges over a map (an order
  Go does not specify) the model fixes insertion order; every such place is
  marked with a comment.
* Go functions that `panic` or return `error` are modelled with `Option` /
  `Except`.
* Go `int` values that are always non-negative in the source (node ids,
  counts, sizes, bit positions) are modelled as `Nat`; values that can be
  `-1` (`IndexOf` results, search bounds) are modelled as `Int`.
-/

namespace DawgSpec

/-! ## Varint codec (`writeUnsigned`, `readUnsigned`, `unsignedLength` of `src/disk.go`)

`writeUnsigned` emits a sequence of `WriteBits(chunk, 8)` calls; we model the
sequence of 8-bit chunks it produces.  `n >= 0x1fffff` hits
`log.Panic("Not implemented")` in the source, modelled as `none`. -/

/-- The 8-bit chunks emitted by `writeUnsigned` of `src/disk.go`
(each chunk is passed to `WriteBits(·, 8)`); `none` models the
`log.Panic("Not implemented")` branch. -/
def writeUnsignedChunks (n : Nat) : Option (List Nat) :=
  if n < 0x7f then some [n]
  else if n < 0x3fff then some [(n >>> 7) &&& 0x7f ||| 0x80, n &&& 0x7f]
  else if n < 0x1fffff then
    some [(n >>> 14) &&& 0x7f ||| 0x80, (n >>> 7) &&& 0x7f ||| 0x80, n &&& 0x7f]
  else none

/-- The accumulation loop of `readUnsigned` of `src/disk.go`, over the
sequence of 8-bit chunks read from the stream (`result` is the accumulator,
initially 0; the loop stops after the first chunk whose continuation bit
is clear). -/
def readUnsignedChunks : List Nat → Nat → Nat
  | [], acc => acc
  | d :: rest, acc =>
    let acc' := (acc <<< 7) ||| (d &&& 0x7f)
    if d &&& 0x80 = 0 then acc' else readUnsignedChunks rest acc'

/-- `unsignedLength` of `src/disk.go`: number of bytes `writeUnsigned` will
emit; `none` models the `log.Panicf("Not implemented: %d", n)` branch. -/
def unsignedLength? (n : Nat) : Option Nat :=
  if n < 0x7f then some 1
  else if n < 0x3fff then some 2
  else if n < 0x1fffff then some 3
  else none

/-! ## Go maps as association lists -/

/-- Lookup in a Go map (first matching key). -/
def alGet? {α β : Type} [DecidableEq α] : List (α × β) → α → Option β
  | [], _ => none
  | (k', v) :: rest, k => if k' = k then some v else alGet? rest k

/-- Lookup with Go's zero-value default for a missing key. -/
def alGetD {α β : Type} [DecidableEq α] (m : List (α × β)) (k : α) (dflt : β) : β :=
  (alGet? m k).getD dflt

/-- Go map assignment `m[k] = v` (insert or replace). -/
def alSet {α β : Type} [DecidableEq α] : List (α × β) → α → β → List (α × β)
  | [], k, v => [(k, v)]
  | (k', v') :: rest, k, v =>
    if k' = k then (k, v) :: rest else (k', v') :: alSet rest k v

/-- Go `delete(m, k)`. -/
def alDel {α β : Type} [DecidableEq α] : List (α × β) → α → List (α × β)
  | [], _ => []
  | (k', v') :: rest, k => if k' = k then alDel rest k else (k', v') :: alDel rest k

/-! ## Words and Go string order -/

/-- A Go rune (Unicode code point). -/
abbrev Rune := Nat

/-- A word, as the sequence of runes Go iterates over. -/
abbrev Word := List Rune

/-- Go string `<`, as code-point lexicographic order (equal to Go's byte-wise
order on the UTF-8 encodings of valid strings). -/
def wordLt : Word → Word → Bool
  | [], [] => false
  | [], _ :: _ => true
  | _ :: _, [] => false
  | a :: as, b :: bs => if a < b then true else if b < a then false else wordLt as bs

/-- Go string `<=`. -/
def wordLe (a b : Word) : Bool := !(wordLt b a)

/-! ## The builder (`src/dawg.go`) -/

/-- `edgeStart` of `src/dawg.go`. -/
structure EdgeStart where
  node : Nat
  ch : Rune
deriving DecidableEq, Repr

/-- `edgeEnd` of `src/dawg.go`. -/
structure EdgeEnd where
  node : Nat
  count : Nat
deriving DecidableEq, Repr

/-- `uncheckedNode` of `src/dawg.go`. -/
structure UncheckedNode where
  parent : Nat
  ch : Rune
  child : Nat
deriving DecidableEq, Repr

/-- The canonical name built by `nameOf` of `src/dawg.go`: the string
`"_<ch>:<id>" * edges ++ ("!" if final)`.  The rendering to a Go string is
injective in `(edge list, final flag)` — each entry is one `'_'`, exactly one
rune, one `':'` and a decimal id, and `'!'` occurs only as the trailing final
marker — so we model the name by the data itself. -/
abbrev NodeName := List (Rune × Nat) × Bool

/-- `rootNode` of `src/dawg.go`. -/
def rootNode : Nat := 0

/-- The `dawg` struct of `src/dawg.go`.  The `r`/`size` pair models the
`io.ReaderAt` view of the serialized image (`none` = Go `nil`). -/
structure Dawg where
  lastWord : Word := []
  nextID : Nat := 1
  uncheckedNodes : List UncheckedNode := []
  minimizedNodes : List (NodeName × Nat) := []
  names : List (Nat × List EdgeStart) := []
  r : Option (List Nat) := none
  size : Nat := 0
  finished : Bool := false
  numAdded : Nat := 0
  numNodes : Nat := 0
  numEdges : Nat := 0
  hbits : Nat := 0
  cbits : Nat := 0
  abits : Nat := 0
  wbits : Nat := 0
  firstNodeOffset : Nat := 0
  edges : List (EdgeStart × EdgeEnd) := []
  final : List (Nat × Bool) := []
  hasEmptyWord : Bool := false
deriving Repr, DecidableEq

/-- `New()` of `src/dawg.go`. -/
def newDawg : Dawg := {}

/-- `CanAdd` of `src/dawg.go`. -/
def canAdd (d : Dawg) (word : Word) : Bool :=
  !d.finished && (d.numAdded = 0 || wordLt d.lastWord word)

/-- `newNode` of `src/dawg.go` (returns the fresh id and the updated state). -/
def newNode (d : Dawg) : Dawg × Nat :=
  ({ d with nextID := d.nextID + 1 }, d.nextID)

/-- `nameOf` of `src/dawg.go` (see `NodeName` for the string rendering). -/
def nameOf (d : Dawg) (node : Nat) : NodeName :=
  ((alGetD d.names node []).map (fun e => (e.ch, e.node)), alGetD d.final node false)

/-- `setFinal` of `src/dawg.go`. -/
def setFinal (d : Dawg) (node : Nat) : Dawg :=
  let d := { d with final := alSet d.final node true }
  if node = rootNode then { d with hasEmptyWord := true } else d

/-- `addChild` of `src/dawg.go`. -/
def addChild (d : Dawg) (parent : Nat) (ch : Rune) (child : Nat) : Dawg :=
  { d with
    names := alSet d.names parent ((alGetD d.names parent []) ++ [⟨child, ch⟩]),
    edges := alSet d.edges ⟨parent, ch⟩ ⟨child, 0⟩ }

/-- The in-place update loop over `d.names[parent]` in `replaceChild` of
`src/dawg.go` (replace the target of the first entry with character `ch`). -/
def replaceNodeInName : List EdgeStart → Rune → Nat → List EdgeStart
  | [], _, _ => []
  | e :: rest, ch, child =>
    if e.ch = ch then { e with node := child } :: rest
    else e :: replaceNodeInName rest ch child

/-- Modify the value stored under key `k` if present (no-op when `k` is
absent, matching Go's in-place slice mutation through the map). -/
def alUpdate {α β : Type} [DecidableEq α] : List (α × β) → α → (β → β) → List (α × β)
  | [], _, _ => []
  | (k', v) :: rest, k, f =>
    if k' = k then (k, f v) :: rest else (k', v) :: alUpdate rest k f

/-- `replaceChild` of `src/dawg.go`. -/
def replaceChild (d : Dawg) (parent : Nat) (ch : Rune) (child : Nat) : Dawg :=
  let start : EdgeStart := ⟨parent, ch⟩
  let oldChild := (alGetD d.edges start ⟨0, 0⟩).node
  let edges := (alGetD d.names oldChild []).foldl
    (fun es e => alDel es ⟨oldChild, e.ch⟩) d.edges
  let names := alDel d.names oldChild
  let final := alDel d.final oldChild
  let names := alUpdate names parent (fun l => replaceNodeInName l ch child)
  let edges := alSet edges start ⟨child, 0⟩
  { d with edges := edges, names := names, final := final }

/-- One iteration of the `minimize` loop of `src/dawg.go`, for the unchecked
entry `u`. -/
def minimizeStep (d : Dawg) (u : UncheckedNode) : Dawg :=
  let name := nameOf d u.child
  match alGet? d.minimizedNodes name with
  | some node => replaceChild d u.parent u.ch node
  | none => { d with minimizedNodes := alSet d.minimizedNodes name u.child }

/-- The `minimize` loop body applied to a list of unchecked entries (the Go
loop walks indices `len-1` down to `downTo`, so the caller passes the dropped
suffix reversed). -/
def minimizeLoop : Dawg → List UncheckedNode → Dawg
  | d, [] => d
  | d, u :: rest => minimizeLoop (minimizeStep d u) rest

/-- `minimize` of `src/dawg.go`. -/
def minimize (d : Dawg) (downTo : Nat) : Dawg :=
  let d' := minimizeLoop d ((d.uncheckedNodes.drop downTo).reverse)
  { d' with uncheckedNodes := d.uncheckedNodes.take downTo }

/-- The common-prefix loop of `Add` of `src/dawg.go`. -/
def commonPrefixLen : Word → Word → Nat
  | a :: as, b :: bs => if a = b then commonPrefixLen as bs + 1 else 0
  | _, _ => 0

/-- The suffix-insertion loop of `Add` of `src/dawg.go`; returns the state and
the final value of the `node` variable. -/
def addSuffix : Dawg → Nat → List Rune → Dawg × Nat
  | d, node, [] => (d, node)
  | d, node, letter :: rest =>
    let (d, nextNode) := newNode d
    let d := addChild d node letter nextNode
    let d := { d with uncheckedNodes := d.uncheckedNodes ++ [⟨node, letter, nextNode⟩] }
    addSuffix d nextNode rest

/-- The two panics of `Add` of `src/dawg.go`. -/
inductive AddPanic
  | orderViolation
  | afterFinish
deriving DecidableEq, Repr

/-- `Add` of `src/dawg.go` (`.error` models the panics, raised before any
state mutation). -/
def add (d : Dawg) (wordIn : Word) : Except AddPanic Dawg :=
  if d.numAdded > 0 && wordLe wordIn d.lastWord then .error .orderViolation
  else if d.finished then .error .afterFinish
  else
    let word := wordIn
    let commonPrefix := commonPrefixLen word d.lastWord
    let d := minimize d commonPrefix
    let node := match d.uncheckedNodes.getLast? with
      | none => rootNode
      | some u => u.child
    let (d, node) := addSuffix d node (word.drop commonPrefix)
    let d := setFinal d node
    .ok { d with lastWord := word, numAdded := d.numAdded + 1 }

/-! ## Bit reader (`bitSeeker` of `src/bits.go`)

The byte source is a `List Nat` of bytes.  `ReadAt` past the end leaves the
one-byte buffer untouched (initially zero); in-range reads never do that, and
the model returns `0` there. -/

/-- The `maskTop` table of `src/bits.go`. -/
def maskTop (i : Nat) : Nat :=
  [0xff, 0x7f, 0x3f, 0x1f, 0x0f, 0x07, 0x03, 0x01, 0x00].getD i 0

/-- `nextByte` of `src/bits.go` at bit position `p`. -/
def nextByte (bytes : List Nat) (p : Nat) : Nat := bytes.getD (p >>> 3) 0

/-- The whole-byte loop (`for n >= 8`) plus trailing-bits step of `ReadBits`
of `src/bits.go`; returns `(result, new bit position)`. -/
def readBitsLoop (bytes : List Nat) : Nat → Nat → Nat → Nat × Nat
  | p, n + 8, result =>
    readBitsLoop bytes (p + 8) n ((result <<< 8) ||| nextByte bytes p)
  | p, n, result =>
    if 0 < n then
      ((result <<< n) ||| (nextByte bytes (p + n) >>> (8 - n)), p + n)
    else (result, p)

/-- `ReadBits` of `src/bits.go`: read `n` bits starting at bit position `p`,
most significant bit first; returns `(value, new bit position)`. -/
def readBits (bytes : List Nat) (p n : Nat) : Nat × Nat :=
  if p % 8 + n ≤ 8 then
    (((nextByte bytes p) &&& maskTop (p % 8)) >>> (8 - p % 8 - n), p + n)
  else
    let result := (nextByte bytes p) &&& maskTop (p % 8)
    let l := 8 - p % 8
    readBitsLoop bytes (p + l) (n - l) result

/-- `readUnsigned` of `src/disk.go` over the bit reader; returns
`(value, new bit position)`.  The Go loop terminates on any in-range data
(reads past the end yield a zero byte, clearing the continuation bit); the
fuel parameter is given by callers as `bytes.length + 1`, enough for any
terminating run. -/
def readUnsignedSeek (bytes : List Nat) : Nat → Nat → Nat → Nat × Nat
  | 0, p, result => (result, p)
  | fuel + 1, p, result =>
    let (d, p') := readBits bytes p 8
    let result' := (result <<< 7) ||| (d &&& 0x7f)
    if d &&& 0x80 = 0 then (result', p') else readUnsignedSeek bytes fuel p' result'

/-- `bsearch` of `src/disk.go`.  `low`/`high`/`probe` are the Go `int`
variables (`low` starts at `-1`).  Returns the probe at which `cmp` returned
`0` (if any) and the Go return value.  The interval shrinks strictly each
iteration, so `count + 2` fuel (supplied by `bsearchGo`) can never run out. -/
def bsearchLoop (cmp : Nat → Int) : Int → Int → Nat → Option Nat × Int
  | _, high, 0 => (none, high)
  | low, high, fuel + 1 =>
    if low + 1 < high then
      let probe := ((high + low) / 2).toNat
      let m := cmp probe
      if m = 0 then (some probe, probe)
      else if m < 0 then bsearchLoop cmp probe high fuel
      else bsearchLoop cmp low probe fuel
    else (none, high)

/-- `bsearch(count, cmp)` of `src/disk.go`. -/
def bsearchGo (count : Nat) (cmp : Nat → Int) : Option Nat × Int :=
  bsearchLoop cmp (-1) count (count + 2)

/-! ## In-place node access (`src/disk.go`) -/

/-- Decoded header of a node record: `(final bit, number of edges, bit
position of the first edge record)` — the reads shared by `getEdge` and
`getNode` of `src/disk.go`. -/
def readNodeHeader (d : Dawg) (bytes : List Nat) (node : Nat) : Nat × Nat × Nat :=
  let pos := if node = 0 then d.firstNodeOffset else node
  let (nodeFinal, p1) := readBits bytes pos 1
  let (singleEdge, p2) := readBits bytes p1 1
  if singleEdge ≠ 1 then
    let (numEdges, p3) := readUnsignedSeek bytes (bytes.length + 1) p2 0
    (nodeFinal, numEdges, p3)
  else (nodeFinal, 1, p2)

/-- The edge-record reads performed inside the `bsearch` closure of `getEdge`
of `src/disk.go` for probe `i`: seek to the record, read `ch`, then (on a
character match) the count, target address and the target's final bit.
Returns `(ch, edgeEnd, final)`. -/
def readEdgeRecord (d : Dawg) (bytes : List Nat) (pos nodeFinal i : Nat) :
    Rune × EdgeEnd × Bool :=
  let seekTo := pos + i * (d.cbits + d.wbits + d.abits) - (if 0 < i then d.wbits else 0)
  let (ch, q1) := readBits bytes seekTo d.cbits
  let (count, q2) :=
    if 0 < i then readBits bytes q1 d.wbits else (nodeFinal, q1)
  let (node, _) := readBits bytes q2 d.abits
  let (fbit, _) := readBits bytes node 1
  (ch, ⟨node, count⟩, fbit = 1)

/-- `getEdge` of `src/disk.go` (all three branches).  Result is
`(edgeEnd, final, ok)`. -/
def getEdge (d : Dawg) (eStart : EdgeStart) : EdgeEnd × Bool × Bool :=
  if d.numEdges = 0 then (⟨0, 0⟩, false, false)
  else match d.r with
  | none =>
    -- in-memory branch: `edgeEnd, ok = d.edges[eStart]; final = d.final[edgeEnd.node]`
    match alGet? d.edges eStart with
    | some ee => (ee, alGetD d.final ee.node false, true)
    | none => (⟨0, 0⟩, alGetD d.final 0 false, false)
  | some bytes =>
    let (nodeFinal, numEdges, pos) := readNodeHeader d bytes eStart.node
    let cmp : Nat → Int := fun i =>
      ((readEdgeRecord d bytes pos nodeFinal i).1 : Int) - (eStart.ch : Int)
    match (bsearchGo numEdges cmp).1 with
    | some i =>
      let (_, ee, fin) := readEdgeRecord d bytes pos nodeFinal i
      (ee, fin, true)
    | none => (⟨0, 0⟩, false, false)

/-- `edgeResult` of `src/disk.go` (`nodeResult` is modelled as the pair of
its `final` flag and its `edges` list; the `node` field is the argument). -/
structure EdgeResult where
  ch : Rune
  count : Nat
  node : Nat
deriving DecidableEq, Repr

/-- The edge-reading loop of `getNode` of `src/disk.go`. -/
def getNodeEdges (d : Dawg) (bytes : List Nat) (nodeFinal : Nat) :
    Nat → Nat → Nat → List EdgeResult
  | _, 0, _ => []
  | p, k + 1, i =>
    let (ch, q1) := readBits bytes p d.cbits
    let (count, q2) :=
      if 0 < i then readBits bytes q1 d.wbits else (nodeFinal, q1)
    let (address, q3) := readBits bytes q2 d.abits
    ⟨ch, count, address⟩ :: getNodeEdges d bytes nodeFinal q3 k (i + 1)

/-- `getNode` of `src/disk.go` (reads from the serialized image `bytes`,
which is `d.r`; on a builder that was never finished `d.r` is `nil` and Go
panics with a nil dereference). -/
def getNode (d : Dawg) (bytes : List Nat) (node : Nat) : Bool × List EdgeResult :=
  let (nodeFinal, numEdges, pos) := readNodeHeader d bytes node
  (nodeFinal = 1, getNodeEdges d bytes nodeFinal pos numEdges 0)

/-! ## Queries (`src/dawg.go`) -/

/-- The Go panics the query path can raise: `checkFinished`'s
`dawg was not Finished()`, the nil-pointer dereference of using a nil
`io.ReaderAt`, and index-out-of-range slice accesses. -/
inductive GoPanic
  | notFinished
  | nilDeref
  | indexRange
deriving DecidableEq, Repr

/-- `checkFinished` of `src/dawg.go`. -/
def checkFinished (d : Dawg) : Except GoPanic Unit :=
  if !d.finished then .error .notFinished else .ok ()

/-- `FindResult` of `src/dawg.go`. -/
structure FindResult where
  word : Word
  index : Nat
deriving DecidableEq, Repr

/-- The character loop of `IndexOf` of `src/dawg.go`. -/
def indexOfLoop (d : Dawg) : List Rune → Nat → Nat → Bool → Int
  | [], _, skipped, final => if final then skipped else -1
  | letter :: rest, node, skipped, _ =>
    let (ee, final, ok) := getEdge d ⟨node, letter⟩
    if !ok then -1
    else indexOfLoop d rest ee.node (skipped + ee.count) final

/-- `IndexOf` of `src/dawg.go`.  Note: unlike `FindAllPrefixesOf`, the source
of `IndexOf` never calls `checkFinished`, despite its doc comment. -/
def indexOf (d : Dawg) (input : Word) : Int :=
  indexOfLoop d input rootNode 0 d.hasEmptyWord

/-- The character loop of `FindAllPrefixesOf` of `src/dawg.go` (`k` is the
number of runes consumed, so `input.take k` is Go's `input[:pos]`). -/
def findAllPrefixesOfLoop (d : Dawg) (input : Word) :
    List Rune → Nat → Nat → Nat → Bool → List FindResult → List FindResult
  | [], _, _, skipped, final, results =>
    if final then results ++ [⟨input, skipped⟩] else results
  | letter :: rest, k, node, skipped, final, results =>
    let results := if final then results ++ [⟨input.take k, skipped⟩] else results
    let (ee, final', ok) := getEdge d ⟨node, letter⟩
    if !ok then results
    else findAllPrefixesOfLoop d input rest (k + 1) ee.node (skipped + ee.count)
      final' results

/-- `FindAllPrefixesOf` of `src/dawg.go` (panics via `checkFinished` on an
unfinished builder). -/
def findAllPrefixesOf (d : Dawg) (input : Word) : Except GoPanic (List FindResult) :=
  match checkFinished d with
  | .error e => .error e
  | .ok _ => .ok (findAllPrefixesOfLoop d input input 0 rootNode 0 d.hasEmptyWord [])

/-- The scan loop at the end of `atIndex` of `src/dawg.go`
(`for i := next; i < len(node.edges); i++ { ... }`). -/
def atIndexScan (d : Dawg) (bytes : List Nat)
    (rec : Nat → Nat → Word → Except GoPanic (Word × Bool))
    (atIdx targetIndex : Nat) (runes : Word) :
    List EdgeResult → Except GoPanic (Word × Bool)
  | [] => .ok ([], false)
  | e :: rest =>
    match rec e.node (atIdx + e.count) (runes ++ [e.ch]) with
    | .error p => .error p
    | .ok (result, true) => .ok (result, true)
    | .ok (_, false) => atIndexScan d bytes rec atIdx targetIndex runes rest

/-- `atIndex` (the recursive helper) of `src/dawg.go`, with explicit fuel for
the recursion (the Go recursion terminates on any acyclic image; fuel
exhaustion is modelled as a `nilDeref`-style panic and is unreachable in the
uses below). -/
def atIndexRec (d : Dawg) (bytes : List Nat) :
    Nat → Nat → Nat → Nat → Word → Except GoPanic (Word × Bool)
  | 0, _, _, _, _ => .error .nilDeref
  | fuel + 1, nodeNumber, atIdx, targetIndex, runes =>
    let (final, edges) := getNode d bytes nodeNumber
    if final ∧ atIdx = targetIndex then .ok (runes, true)
    else
      let cmp : Nat → Int := fun i =>
        (atIdx : Int) + ((edges.getD i ⟨0, 0, 0⟩).count : Int) - (targetIndex : Int)
      let next : Int := (bsearchGo edges.length cmp).2
      let next : Int :=
        if next = edges.length ∨
            atIdx + (edges.getD next.toNat ⟨0, 0, 0⟩).count > targetIndex then
          next - 1
        else next
      if next < 0 then .error .indexRange
      else
        atIndexScan d bytes
          (fun nd at' rs => atIndexRec d bytes fuel nd at' targetIndex rs)
          atIdx targetIndex runes (edges.drop next.toNat)

/-- `AtIndex` of `src/dawg.go`.  The Go method returns `("", error)` for an
out-of-range index; the in-range path is the recursive search over the
serialized image (on a never-finished builder `d.r` is nil and Go panics). -/
def atIndex (d : Dawg) (index : Int) : Except GoPanic (Option Word) :=
  if index < 0 ∨ index ≥ d.numAdded then .ok none
  else
    match d.r with
    | none => .error .nilDeref
    | some bytes =>
      match atIndexRec d bytes (d.numNodes + 1) rootNode 0 index.toNat [] with
      | .error p => .error p
      | .ok (result, _) => .ok (some result)

/-- `EnumerationResult` of `src/dawg.go` (`Continue`, `Skip`, `Stop`). -/
inductive EnumerationResult
  | Continue
  | Skip
  | Stop
deriving DecidableEq, Repr

/-- `EnumFn` of `src/dawg.go`.  A Go callback is a closure over mutable
captured state; the model threads that state (`σ`) explicitly. -/
abbrev EnumFn (σ : Type) := σ → Nat → Word → Bool → σ × EnumerationResult

/-- `enumerate` (the recursive helper) of `src/dawg.go`, with explicit fuel
(the Go recursion terminates on any acyclic image; the uses below supply
enough fuel that exhaustion, modelled as `Stop`, is unreachable).  The Go
edge loop with its `break` on `Stop` is expressed as a fold whose state
remembers whether the loop was broken. -/
def enumerateRec {σ : Type} (d : Dawg) (bytes : List Nat) (fn : EnumFn σ) :
    Nat → Nat → Nat → Word → σ → σ × EnumerationResult
  | 0, _, _, _, s => (s, .Stop)
  | fuel + 1, index, address, runes, s =>
    let (final, edges) := getNode d bytes address
    let (s, result) := fn s index runes final
    if result ≠ .Continue then (s, result)
    else
      let step := fun (acc : σ × EnumerationResult × Bool) (e : EdgeResult) =>
        match acc with
        | (s, result, true) => (s, result, true)
        | (s, _, false) =>
          let (s, r) :=
            enumerateRec d bytes fn fuel (index + e.count) e.node
              (runes ++ [e.ch]) s
          (s, r, r = .Stop)
      let (s, result, _) := edges.foldl step (s, result, false)
      (s, result)

/-- `Enumerate` of `src/dawg.go` (on a never-finished builder `d.r` is nil
and `getNode` panics); returns the callback's final state. -/
def enumerate {σ : Type} (d : Dawg) (fn : EnumFn σ) (s : σ) : Except GoPanic σ :=
  match d.r with
  | none => .error .nilDeref
  | some bytes =>
    .ok (enumerateRec d bytes fn (d.numNodes + 1) 0 rootNode [] s).1

/-! ## Bit writer (`bitWriter` of `src/bits.go`) -/

/-- `bitWriter` of `src/bits.go` (`out` is the byte sink). -/
structure BitWriter where
  out : List Nat := []
  cache : Nat := 0
  used : Nat := 0
deriving DecidableEq, Repr

/-- The body of the `WriteBits` loop of `src/bits.go`, with a fuel argument
for structural recursion: each iteration writes at least one bit (the writer
maintains `used ≤ 7`, and on the unreachable `used ≥ 8` states the Go loop
would never terminate while the model stops), so `fuel = n` runs the loop to
completion. -/
def writeBitsF (fuel : Nat) (w : BitWriter) (data : Nat) (n : Nat) : BitWriter :=
  match fuel with
  | 0 => w
  | fuel + 1 =>
    if n = 0 then w
    else if 8 ≤ w.used then w
    else
      let written := if 8 < n + w.used then 8 - w.used else n
      let mask := (1 <<< written) - 1
      let used := w.used + written
      let cache := ((w.cache <<< written) % 256) |||
        (((data >>> (n - written)) % 256) &&& mask)
      let w' : BitWriter :=
        if used = 8 then { out := w.out ++ [cache], cache := cache, used := 0 }
        else { out := w.out, cache := cache, used := used }
      writeBitsF fuel w' data (n - written)

/-- `WriteBits` of `src/bits.go`. -/
def writeBitsW (w : BitWriter) (data : Nat) (n : Nat) : BitWriter :=
  writeBitsF n w data n

/-- `Flush` of `src/bits.go`. -/
def flushW (w : BitWriter) : BitWriter :=
  if 0 < w.used then
    { w with out := w.out ++ [(w.cache <<< (8 - w.used)) % 256] }
  else w

/-- Total number of bits a writer has accumulated (whole bytes emitted plus
the bits pending in the cache). -/
def bitLenW (w : BitWriter) : Nat := 8 * w.out.length + w.used

/-- `writeUnsigned` of `src/disk.go` over the bit writer: each chunk is one
`WriteBits(chunk, 8)` call; `none` models the panic. -/
def writeUnsignedW (w : BitWriter) (n : Nat) : Option BitWriter :=
  (writeUnsignedChunks n).map (List.foldl (fun w c => writeBitsW w c 8) w)

/-! ## The serializer (`Write` of `src/disk.go`) -/

/-- Fuel-driven helper for `bitsLen` (each step halves `n`, so `fuel = n`
suffices). -/
def bitsLenF : Nat → Nat → Nat
  | 0, _ => 0
  | fuel + 1, n => if n = 0 then 0 else bitsLenF fuel (n / 2) + 1

/-- `bits.Len` of Go's `math/bits` on a `Nat` (number of bits needed to
represent `n`; `bits.Len 0 = 0`). -/
def bitsLen (n : Nat) : Nat := bitsLenF n n

/-- The strict order used by `sort.Slice` in `getEdges` of `src/disk.go`. -/
def edgeStartLess (a b : EdgeStart) : Bool :=
  if a.node ≠ b.node then decide (a.node < b.node) else decide (a.ch < b.ch)

/-- Insert into a list sorted by `edgeStartLess`. -/
def insertEdgeStart (x : EdgeStart) : List EdgeStart → List EdgeStart
  | [] => [x]
  | y :: rest =>
    if edgeStartLess x y then x :: y :: rest else y :: insertEdgeStart x rest

/-- Sort by `edgeStartLess` (insertion sort). -/
def sortEdgeStarts : List EdgeStart → List EdgeStart
  | [] => []
  | x :: rest => insertEdgeStart x (sortEdgeStarts rest)

/-- `getEdges` of `src/disk.go`: all edge keys sorted by `(node, ch)`.  The
Go code collects the map's keys (unspecified order) and sorts with
`sort.Slice`; since keys are distinct and the order is total, the sorted
result is the same list whatever the collection order and whatever (possibly
unstable) sort is used, so a concrete insertion sort is a faithful model. -/
def getEdges (d : Dawg) : List EdgeStart :=
  sortEdgeStarts (d.edges.map Prod.fst)

/-- The `nodes[start.node].edgeCount++` pass of `Write` of `src/disk.go`
(`none` models the index-out-of-range panic when an edge names a node id
`≥ NumNodes()`). -/
def edgeCounts (numNodes : Nat) : List EdgeStart → Option (List Nat)
  | [] => some (List.replicate numNodes 0)
  | s :: rest =>
    match edgeCounts numNodes rest with
    | none => none
    | some l =>
      if s.node < l.length then some (l.set s.node (l.getD s.node 0 + 1))
      else none

/-- The `maxChar` pass of `Write` of `src/disk.go`. -/
def maxCharOf (edges : List EdgeStart) : Rune :=
  edges.foldl (fun m s => if m < s.ch then s.ch else m) 0

/-- The fixed part of the layout: `32 + 8 + 8` plus the varint lengths of the
word, node and edge counts (×8), as computed by `Write` of `src/disk.go`. -/
def headerBits (numAdded numNodes numEdges : Nat) : Option Nat := do
  let a ← unsignedLength? numAdded
  let b ← unsignedLength? numNodes
  let c ← unsignedLength? numEdges
  pure (32 + 8 + 8 + a * 8 + b * 8 + c * 8)

/-- The per-node layout walk of `Write` of `src/disk.go`: returns the bit
address recorded for each node and the final bit position. -/
def layoutNodes (cbits wbits abits : Nat) : List Nat → Nat → Option (List Nat × Nat)
  | [], pos => some ([], pos)
  | ec :: rest, pos =>
    let addr := pos
    let pos := pos + 1 + 1
    match (if ec ≠ 1 then (unsignedLength? ec).map (pos + · * 8) else some pos) with
    | none => none
    | some pos =>
      let pos := if 0 < ec then pos + ec * (cbits + wbits + abits) - wbits else pos
      match layoutNodes cbits wbits abits rest pos with
      | none => none
      | some (addrs, p) => some (addr :: addrs, p)

/-- The `abits` fixed-point loop of `Write` of `src/disk.go`.  The Go loop
terminates for every input whose positions fit in an `int64`; 64 rounds of
fuel cover every such run. -/
def abitsLoop (counts : List Nat) (cbits wbits hdr : Nat) :
    Nat → Nat → Option (Nat × List Nat × Nat)
  | 0, _ => none
  | fuel + 1, abits =>
    match layoutNodes cbits wbits abits counts hdr with
    | none => none
    | some (addrs, pos) =>
      if bitsLen pos ≤ abits then some (abits, addrs, pos)
      else abitsLoop counts cbits wbits hdr fuel (bitsLen pos)

/-- One node-record header emission (`final` bit, `single edge?` bit, and the
edge count varint when not single) from the emission loop of `Write` of
`src/disk.go`. -/
def nodeHeaderW (d : Dawg) (counts : List Nat) (w : BitWriter) (j : Nat) :
    Option BitWriter :=
  let w := writeBitsW w (if alGetD d.final j false then 1 else 0) 1
  if counts.getD j 0 = 1 then some (writeBitsW w 1 1)
  else writeUnsignedW (writeBitsW w 0 1) (counts.getD j 0)

/-- Emit the headers of the `k` nodes `lo, lo+1, …, lo+k-1` (the catch-up
loop `for i < start.node { i++; ... }` of `Write` of `src/disk.go`, with the
iteration count made explicit for structural recursion). -/
def emitHeaders (d : Dawg) (counts : List Nat) : BitWriter → Nat → Nat → Option BitWriter
  | w, _, 0 => some w
  | w, lo, k + 1 =>
    match nodeHeaderW d counts w lo with
    | none => none
    | some w => emitHeaders d counts w (lo + 1) k

/-- The edge emission loop of `Write` of `src/disk.go`.  `iNext` is `i + 1`
for the Go loop variable `i` (which starts at `-1`). -/
def emitEdges (d : Dawg) (counts addrs : List Nat) (cbits wbits abits : Nat) :
    List EdgeStart → BitWriter → Nat → Bool → Option (BitWriter × Nat)
  | [], w, iNext, _ => some (w, iNext)
  | start :: rest, w, iNext, firstEdge =>
    let (ee, _, _) := getEdge d start
    let needHeaders := iNext ≤ start.node
    let firstEdge := if needHeaders then true else firstEdge
    match (if needHeaders then emitHeaders d counts w iNext (start.node + 1 - iNext)
           else some w) with
    | none => none
    | some w =>
      let iNext := if needHeaders then start.node + 1 else iNext
      let w := writeBitsW w start.ch cbits
      let w := if !firstEdge then writeBitsW w ee.count wbits else w
      let w := writeBitsW w (addrs.getD ee.node 0) abits
      emitEdges d counts addrs cbits wbits abits rest w iNext false

/-- Failure modes of `Write` of `src/disk.go`: the `dawg not finished` error,
and the panics (varint overflow / out-of-range node id). -/
inductive WriteFailure
  | notFinished
  | panicked
deriving DecidableEq, Repr

/-- The fixed-header emission of `Write` of `src/disk.go`: the 32-bit size,
the `cbits` and `abits` bytes, and the three varints. -/
def headerW (size numAdded numNodes numEdges cbits abits : Nat) : Option BitWriter :=
  let w : BitWriter := {}
  let w := writeBitsW w size 32
  let w := writeBitsW w cbits 8
  let w := writeBitsW w abits 8
  match writeUnsignedW w numAdded with
  | none => none
  | some w =>
  match writeUnsignedW w numNodes with
  | none => none
  | some w => writeUnsignedW w numEdges

/-- `Write` of `src/disk.go`.  Returns the bytes delivered to the sink and
the `int64` return value of the Go method. -/
def writeDawg (d : Dawg) : Except WriteFailure (List Nat × Nat) :=
  match d.r with
  | some bytes =>
    -- io.Copy(wIn, io.NewSectionReader(d.r, 0, d.size))
    .ok (bytes.take d.size, (bytes.take d.size).length)
  | none =>
    if !d.finished then .error .notFinished
    else
      let edges := getEdges d
      match edgeCounts d.numNodes edges with
      | none => .error .panicked
      | some counts =>
        let cbits := bitsLen (maxCharOf edges)
        let wbits := bitsLen d.numAdded
        match headerBits d.numAdded d.numNodes d.numEdges with
        | none => .error .panicked
        | some hdr =>
          match abitsLoop counts cbits wbits hdr 64 1 with
          | none => .error .panicked
          | some (abits, addrs, pos) =>
            let size := (pos + 7) / 8
            match headerW size d.numAdded d.numNodes d.numEdges cbits abits with
            | none => .error .panicked
            | some w =>
            match emitEdges d counts addrs cbits wbits abits edges w 0 false with
            | none => .error .panicked
            | some (w, iNext) =>
              -- `i++; if i < len(nodes) { ... }`
              match (if iNext < d.numNodes then
                  (writeUnsignedW
                    (writeBitsW
                      (writeBitsW w (if alGetD d.final iNext false then 1 else 0) 1)
                      0 1) 0)
                else some w) with
              | none => .error .panicked
              | some w => .ok ((flushW w).out, size)

/-! ## `Read` (`src/disk.go`) and `Finish` (`src/dawg.go`) -/

/-- `readUint32` of `src/disk.go` at offset 0. -/
def readUint32 (bytes : List Nat) : Nat :=
  (bytes.getD 0 0 <<< 24) ||| (bytes.getD 1 0 <<< 16) |||
  (bytes.getD 2 0 <<< 8) ||| (bytes.getD 3 0)

/-- `Read(f, 0)` of `src/disk.go`: parse the header through a section reader
of `size` bytes; the resulting finder keeps the full source `f` as its
reader. -/
def readDawg (f : List Nat) : Dawg :=
  let size := readUint32 f
  let bytes := f.take size
  let (cbits, p1) := readBits bytes 32 8
  let (abits, p2) := readBits bytes p1 8
  let (numAdded, p3) := readUnsignedSeek bytes (bytes.length + 1) p2 0
  let (numNodes, p4) := readUnsignedSeek bytes (bytes.length + 1) p3 0
  let (numEdges, p5) := readUnsignedSeek bytes (bytes.length + 1) p4 0
  let firstNodeOffset := p5
  let (he, _) := readBits bytes p5 1
  { finished := true, numAdded := numAdded, numNodes := numNodes,
    numEdges := numEdges, abits := abits, cbits := cbits,
    wbits := bitsLen numAdded, hasEmptyWord := he = 1,
    firstNodeOffset := firstNodeOffset, r := some f, size := size }

/-- `setCount` of `src/dawg.go`. -/
def setCount (d : Dawg) (node : Nat) (ch : Rune) (count : Nat) : Dawg :=
  let start : EdgeStart := ⟨node, ch⟩
  let e := alGetD d.edges start ⟨0, 0⟩
  { d with edges := alSet d.edges start { e with count := count } }

/-- `calculateSkipped` of `src/dawg.go` (fuel bounds the recursion depth;
the Go recursion terminates on the acyclic graphs the builder constructs,
and callers supply fuel larger than any path length).  The edge loop is a
fold threading the mutated state. -/
def calculateSkipped : Nat → Dawg → List (Nat × Nat) → Nat →
    Dawg × List (Nat × Nat) × Nat
  | 0, d, cache, _ => (d, cache, 0)
  | fuel + 1, d, cache, node =>
    match alGet? cache node with
    | some count => (d, cache, count)
    | none =>
      let edges := alGetD d.names node []
      let start := if alGetD d.final node false then 1 else 0
      let step := fun (acc : Dawg × List (Nat × Nat) × Nat) (e : EdgeStart) =>
        let (d, cache, k) := acc
        let d := setCount d node e.ch k
        let (d, cache, c) := calculateSkipped fuel d cache e.node
        (d, cache, k + c)
      let (d, cache, numReachable) := edges.foldl step (d, cache, start)
      (d, alSet cache node numReachable, numReachable)

/-- `renumber` of `src/dawg.go`.  The Go code ranges over the `edges` map in
unspecified order; the model fixes the association-list (insertion) order,
one deterministic resolution of that nondeterminism. -/
def renumber (d : Dawg) : Dawg :=
  let remap : List (Nat × Nat) := [(rootNode, rootNode)]
  let remap := d.edges.foldl (fun m p =>
    let m := if (alGet? m p.1.node).isSome then m else alSet m p.1.node m.length
    if (alGet? m p.2.node).isSome then m else alSet m p.2.node m.length) remap
  let edges := d.edges.map (fun p =>
    ((⟨alGetD remap p.1.node 0, p.1.ch⟩ : EdgeStart),
     (⟨alGetD remap p.2.node 0, p.2.count⟩ : EdgeEnd)))
  let final := d.final.map (fun p => (alGetD remap p.1 0, p.2))
  { d with edges := edges, final := final }

/-- The preparation phase of `Finish` of `src/dawg.go`: minimize, fill in
the skip counts, clear the auxiliary maps and renumber -- the state of the
builder right before it serializes itself. -/
def serializerInput (d : Dawg) : Dawg :=
  let d := { d with finished := true }
  let d := minimize d 0
  let d := { d with numNodes := d.minimizedNodes.length + 1,
                    numEdges := d.edges.length }
  let (d, _, _) := calculateSkipped (d.nextID + 1) d [] rootNode
  let d := { d with names := [], uncheckedNodes := [], minimizedNodes := [],
                    lastWord := [] }
  renumber d

/-- `Finish` of `src/dawg.go`, continued: serialize the prepared builder into
an owned buffer and return (the mutated builder, the finder obtained by
`Read` over the buffer). -/
def finishDawg (d : Dawg) : Except WriteFailure (Dawg × Dawg) :=
  if d.finished then
    match d.r with
    | some f => .ok (d, readDawg f)
    | none => .error .panicked   -- unreachable: finished implies r ≠ nil
  else
    let d := serializerInput d
    match writeDawg d with
    | .error e => .error e
    | .ok (buffer, size) =>
      let d := { d with size := size, r := some buffer, edges := [], final := [] }
      .ok (d, readDawg buffer)

/-! ### Arithmetic helpers for the codec proofs -/

theorem and_127_eq_mod (x : Nat) : x &&& 0x7f = x % 128 := by
  have h := Nat.and_pow_two_sub_one_eq_mod x 7
  norm_num at h
  exact h

theorem byte_lo_clear : ∀ x < 128, x &&& 0x80 = 0 ∧ x &&& 0x7f = x := by decide

theorem byte_hi_set : ∀ x < 128,
    (x ||| 0x80) &&& 0x80 ≠ 0 ∧ (x ||| 0x80) &&& 0x7f = x := by decide

theorem shiftLeft7_or_eq (a b : Nat) (hb : b < 128) : (a <<< 7) ||| b = a * 128 + b := by
  have h2 := Nat.mul_add_lt_is_or (i := 7) (b := b) (by norm_num [hb]) a
  have e1 : a <<< 7 = 2 ^ 7 * a := by rw [Nat.shiftLeft_eq, Nat.mul_comm]
  rw [e1, ← h2]
  simp only [show (2 : Nat) ^ 7 = 128 by norm_num]
  omega

theorem shiftRight7_eq (a : Nat) : a >>> 7 = a / 128 := by
  rw [Nat.shiftRight_eq_div_pow]

theorem shiftRight14_eq (a : Nat) : a >>> 14 = a / 16384 := by
  rw [Nat.shiftRight_eq_div_pow]

/-- Round-trip of the varint codec for every value the encoder supports,
together with the emitted length agreeing with `unsignedLength`. -/
theorem readUnsigned_writeUnsigned (n : Nat) (h : n < 0x1fffff) :
    ∃ bs, writeUnsignedChunks n = some bs ∧ readUnsignedChunks bs 0 = n ∧
      unsignedLength? n = some bs.length := by
  by_cases h1 : n < 0x7f
  · refine ⟨[n], by simp [writeUnsignedChunks, h1], ?_,
      by simp [unsignedLength?, h1]⟩
    have hc := byte_lo_clear n (by omega)
    simp [readUnsignedChunks, hc.1, hc.2]
  · by_cases h2 : n < 0x3fff
    · have ha : (n >>> 7) &&& 0x7f = n / 128 := by
        rw [shiftRight7_eq, and_127_eq_mod]; omega
      have hc : n &&& 0x7f = n % 128 := and_127_eq_mod n
      have hhi := byte_hi_set (n / 128) (by omega)
      have hlo := byte_lo_clear (n % 128) (by omega)
      refine ⟨[n / 128 ||| 0x80, n % 128], ?_, ?_,
        by simp [unsignedLength?, h1, h2]⟩
      · simp [writeUnsignedChunks, h1, h2, ha, hc]
      · have e1 : readUnsignedChunks [n / 128 ||| 0x80, n % 128] 0
            = (n / 128) <<< 7 ||| n % 128 := by
          simp [readUnsignedChunks, hhi.1, hhi.2, hlo.1, hlo.2]
        rw [e1, shiftLeft7_or_eq _ _ (by omega)]
        omega
    · have ha : (n >>> 14) &&& 0x7f = n / 16384 := by
        rw [shiftRight14_eq, and_127_eq_mod]; omega
      have hb : (n >>> 7) &&& 0x7f = (n / 128) % 128 := by
        rw [shiftRight7_eq, and_127_eq_mod]
      have hc : n &&& 0x7f = n % 128 := and_127_eq_mod n
      have hhia := byte_hi_set (n / 16384) (by omega)
      have hhib := byte_hi_set ((n / 128) % 128) (by omega)
      have hlo := byte_lo_clear (n % 128) (by omega)
      refine ⟨[n / 16384 ||| 0x80, (n / 128) % 128 ||| 0x80, n % 128], ?_, ?_,
        by simp [unsignedLength?, h1, h2, h]⟩
      · simp [writeUnsignedChunks, h1, h2, h, ha, hb, hc]
      · have e1 : readUnsignedChunks
            [n / 16384 ||| 0x80, (n / 128) % 128 ||| 0x80, n % 128] 0
            = ((n / 16384) <<< 7 ||| (n / 128) % 128) <<< 7 ||| n % 128 := by
          simp [readUnsignedChunks, hhia.1, hhia.2, hhib.1, hhib.2, hlo.1, hlo.2]
        rw [e1, shiftLeft7_or_eq _ _ (by omega), shiftLeft7_or_eq _ _ (by omega)]
        omega

/-- The encoder (and `unsignedLength`) fail with the `Not implemented` panic
exactly on values `>= 0x1fffff`. -/
theorem writeUnsigned_fails (n : Nat) (h : 0x1fffff ≤ n) :
    writeUnsignedChunks n = none ∧ unsignedLength? n = none := by
  have h1 : ¬ n < 0x7f := by omega
  have h2 : ¬ n < 0x3fff := by omega
  have h3 : ¬ n < 0x1fffff := by omega
  exact ⟨by simp [writeUnsignedChunks, h1, h2, h3],
    by simp [unsignedLength?, h1, h2, h3]⟩

/-! ## `FindByPrefix` (the `src/unnamed/part_002` variant)

The repository ships a second version of the package (`src/unnamed/part_002`,
whose reader primitives are those of `src/dawg-dict/disk.go`); its `Finder`
interface offers `FindByPrefix` in addition (the `Finder` interface of
`src/dawg.go` does not).  The body of `FindByPrefix` interacts with the
serialized image only through `getEdge` (does this node have an edge labelled
`ch`, and where does it lead?) and `getNode` (final flag and ordered edge
list); we model these primitives by the node view `g : Nat → Bool × List
EdgeResult` they decode (for a well-formed image the edges are sorted with
distinct characters, so `getEdge`'s binary search agrees with `find?`), and
translate the body over it. -/

/-- The per-letter walk loop of `FindByPrefix` of `src/unnamed/part_002`
(`.inl` = some letter had no edge and the function returns the accumulated
`wordSl` immediately; `.inr` = the full input was consumed at this node). -/
def findByPrefixWalk (g : Nat → Bool × List EdgeResult) :
    List Rune → Nat → Word → Word ⊕ (Nat × Word)
  | [], node, acc => .inr (node, acc)
  | letter :: rest, node, acc =>
    match (g node).2.find? (fun e => e.ch = letter) with
    | none => .inl acc
    | some e => findByPrefixWalk g rest e.node (acc ++ [letter])

/-- The `for { ... }` extension loop of `FindByPrefix` of
`src/unnamed/part_002`: repeatedly follow `edges[0]`, append its character,
and stop once the node just reached is final.  `edges[0]` of an edgeless node
is an index-out-of-range panic.  On a view with a reachable cycle of
non-final nodes the Go loop never terminates; fuel exhaustion is modelled as
a `nilDeref`. -/
def findByPrefixExtend (g : Nat → Bool × List EdgeResult) :
    Nat → Nat → Word → Except GoPanic Word
  | 0, _, _ => .error .nilDeref
  | fuel + 1, node, acc =>
    match (g node).2 with
    | [] => .error .indexRange
    | e :: _ =>
      if (g e.node).1 then .ok (acc ++ [e.ch])
      else findByPrefixExtend g fuel e.node (acc ++ [e.ch])

/-- `FindByPrefix` of `src/unnamed/part_002` over the node view `g`. -/
def findByPrefixFn (g : Nat → Bool × List EdgeResult) (fuel : Nat)
    (input : Word) : Except GoPanic Word :=
  match findByPrefixWalk g input rootNode [] with
  | .inl acc => .ok acc
  | .inr (node, acc) => findByPrefixExtend g fuel node acc

/-- Deterministic walk through the node view: following the letters of `w`
from `n` (each through the `find?` lookup `getEdge` implements) reaches `m`. -/
inductive WalkPath (g : Nat → Bool × List EdgeResult) : Nat → List Rune → Nat → Prop
  | nil (n : Nat) : WalkPath g n [] n
  | cons {n m : Nat} {letter : Rune} {e : EdgeResult} {rest : List Rune} :
      (g n).2.find? (fun e' => e'.ch = letter) = some e →
      WalkPath g e.node rest m → WalkPath g n (letter :: rest) m

/-- Leftmost descent: from `n`, repeatedly taking the FIRST edge spells
`ext` (nonempty) and stops at `m`, the first final node so reached; every
intermediate node is non-final. -/
inductive FirstEdgeSteps (g : Nat → Bool × List EdgeResult) :
    Nat → List Rune → Nat → Prop
  | single {n : Nat} {e : EdgeResult} {tail : List EdgeResult} :
      (g n).2 = e :: tail → (g e.node).1 = true →
      FirstEdgeSteps g n [e.ch] e.node
  | step {n m : Nat} {e : EdgeResult} {tail : List EdgeResult} {rest : List Rune} :
      (g n).2 = e :: tail → (g e.node).1 = false →
      FirstEdgeSteps g e.node rest m →
      FirstEdgeSteps g n (e.ch :: rest) m

/-- The node view of the DAWG of `{"ab"}`: root `0` –a→ `1` –b→ `2` (final). -/
def abView : Nat → Bool × List EdgeResult := fun n =>
  if n = 0 then (false, [⟨97, 0, 1⟩])
  else if n = 1 then (false, [⟨98, 0, 2⟩])
  else if n = 2 then (true, [])
  else (false, [])

/-- The builder state after `Add("a")` on a fresh builder (never finished);
used to evaluate the query panics on it. -/
def dawgA : Dawg :=
  match add newDawg [97] with
  | .ok d => d
  | .error _ => newDawg

/-- Decidable equality for `Except` (used to evaluate concrete runs). -/
instance {ε α : Type} [DecidableEq ε] [DecidableEq α] :
    DecidableEq (Except ε α) := fun a b =>
  match a, b with
  | .ok x, .ok y =>
    if h : x = y then isTrue (by rw [h])
    else isFalse (fun hc => h (by cases hc; rfl))
  | .error x, .error y =>
    if h : x = y then isTrue (by rw [h])
    else isFalse (fun hc => h (by cases hc; rfl))
  | .ok _, .error _ => isFalse (fun hc => by cases hc)
  | .error _, .ok _ => isFalse (fun hc => by cases hc)

/-! ## Layout bookkeeping for the serializer proofs -/

/-- Bits of a node-record header beyond the two flag bits: `0` when the node
has exactly one edge, otherwise 8 bits per varint byte of the edge count. -/
def recHdrBits (ec : Nat) : Option Nat :=
  if ec = 1 then some 0 else (unsignedLength? ec).map (8 * ·)

/-- Total bits of one node record as the layout walk of `Write` accounts
them: two flag bits, the edge-count varint when present, and
`ec * (cbits + wbits + abits) - wbits` for the edge records. -/
def recBits (cbits wbits abits ec : Nat) : Option Nat :=
  (recHdrBits ec).map
    (fun h => 2 + h + (if 0 < ec then ec * (cbits + wbits + abits) - wbits else 0))

/-- `NodeGroups base cs es`: the edge list `es` is grouped by ascending
source node starting at `base`, and `cs` lists the group sizes (one entry
per node, empty groups allowed). -/
inductive NodeGroups : Nat → List Nat → List EdgeStart → Prop
  | nil (base : Nat) : NodeGroups base [] []
  | cons {base : Nat} {c : Nat} {cs : List Nat} {g es : List EdgeStart} :
      g.length = c → (∀ e ∈ g, e.node = base) →
      NodeGroups (base + 1) cs es →
      NodeGroups base (c :: cs) (g ++ es)

/-- Decidable checker for `NodeGroups`: split `es` into consecutive groups of
the sizes listed in `cs`, each group owned by the expected source node. -/
def groupsOk (base : Nat) : List Nat → List EdgeStart → Bool
  | [], es => es.isEmpty
  | c :: cs, es =>
    decide ((es.take c).length = c) &&
    (es.take c).all (fun e => e.node = base) &&
    groupsOk (base + 1) cs (es.drop c)

/-- `emitHeaders` instrumented with a trace of `(node, bit offset)` pairs
recording where each node record begins.  `emitHeaders` is its first
projection (proved below); the trace is the formal reading of "the bit
offset at which the node record is actually emitted". -/
def emitHeadersT (d : Dawg) (counts : List Nat) :
    BitWriter → Nat → Nat → Option (BitWriter × List (Nat × Nat))
  | w, _, 0 => some (w, [])
  | w, lo, k + 1 =>
    match nodeHeaderW d counts w lo with
    | none => none
    | some w' =>
      (emitHeadersT d counts w' (lo + 1) k).map
        (fun p => (p.1, (lo, bitLenW w) :: p.2))

/-- `emitEdges` instrumented with the same trace (see `emitHeadersT`). -/
def emitEdgesT (d : Dawg) (counts addrs : List Nat) (cbits wbits abits : Nat) :
    List EdgeStart → BitWriter → Nat → Bool →
      Option (BitWriter × Nat × List (Nat × Nat))
  | [], w, iNext, _ => some (w, iNext, [])
  | start :: rest, w, iNext, firstEdge =>
    let (ee, _, _) := getEdge d start
    let needHeaders := iNext ≤ start.node
    let firstEdge := if needHeaders then true else firstEdge
    match (if needHeaders then emitHeadersT d counts w iNext (start.node + 1 - iNext)
           else some (w, [])) with
    | none => none
    | some (w, tr1) =>
      let iNext := if needHeaders then start.node + 1 else iNext
      let w := writeBitsW w start.ch cbits
      let w := if !firstEdge then writeBitsW w ee.count wbits else w
      let w := writeBitsW w (addrs.getD ee.node 0) abits
      (emitEdgesT d counts addrs cbits wbits abits rest w iNext false).map
        (fun p => (p.1, p.2.1, tr1 ++ p.2.2))

/-- Ignore the error case of `add` for building concrete example DAWGs
(the inputs below are added in alphabetical order, so no panic occurs). -/
def addW (d : Dawg) (w : Word) : Dawg :=
  match add d w with
  | .ok d' => d'
  | .error _ => d

/-- The five-word example of the package documentation:
`["", "blip", "cat", "catnip", "cats"]`. -/
def dawg5b : Dawg :=
  addW (addW (addW (addW (addW newDawg []) [98, 108, 105, 112]) [99, 97, 116])
    [99, 97, 116, 110, 105, 112]) [99, 97, 116, 115]

/-- The serializer input of `Finish` on the five-word example: the state of
the builder right before `Write` is called (finished, minimized, counts
filled in, renumbered, in-memory maps still present). -/
def dawg5pre : Dawg := serializerInput dawg5b

/-- The (builder, finder) pair `Finish` returns on the five-word example. -/
def fin5 : Dawg × Dawg :=
  match finishDawg dawg5b with
  | .ok p => p
  | .error _ => (newDawg, newDawg)

/-- The finished five-word builder. -/
def dB5 : Dawg := fin5.1

/-- The finder `Finish` returned for the five-word example. -/
def fin5F : Dawg := fin5.2

/-- The serialized buffer owned by the finished five-word builder. -/
def buf5 : List Nat :=
  match dB5.r with
  | some b => b
  | none => []

/-! ### Specification-side notions for the minimization claim -/

/-- The `node` the suffix loop of `Add` starts from: the child of the last
unchecked entry, or the root for an empty stack (matches the
`getLast?` match in `add`). -/
def chainEnd (uc : List UncheckedNode) : Nat :=
  match uc.getLast? with
  | none => rootNode
  | some u => u.child

/-- The unchecked stack is a path: each entry hangs off the previous child. -/
def chainFrom : Nat → List UncheckedNode → Prop
  | _, [] => True
  | p, u :: us => u.parent = p ∧ chainFrom u.child us

/-- Builder states reachable by a sequence of successful `Add` calls. -/
inductive Built : Dawg → Prop
  | base : Built newDawg
  | step {d : Dawg} {w : Word} {d' : Dawg} :
      Built d → add d w = .ok d' → Built d'

/-- Graph reachability along the builder's `names` adjacency lists. -/
inductive Reach (d : Dawg) : Nat → Nat → Prop
  | refl (n : Nat) : Reach d n n
  | head {a b c : Nat} : (∃ e ∈ alGetD d.names a [], e.node = b) →
      Reach d b c → Reach d a c

/-- The builder invariant for the minimization claim, stated for an explicit
unchecked stack `uc` and the word `lw` the stack spells (the minimize loop
shrinks the stack while `d` still carries the full one, and `Add` switches
the word mid-flight).  It tracks everything `nameOf` and `minimizeStep`
depend on: the chain shape, the registry of minimized nodes, and the
structure of the `names` adjacency lists. -/
structure BInv (d : Dawg) (uc : List UncheckedNode) (lw : Word) : Prop where
  chain : chainFrom rootNode uc
  spell : uc.map (fun u => u.ch) = lw.take uc.length
  uclen : uc.length ≤ lw.length
  reg : ∀ p ∈ d.minimizedNodes, nameOf d p.2 = p.1
  keysnd : (d.minimizedNodes.map (fun p => p.1)).Nodup
  nodesnd : (rootNode :: (uc.map (fun u => u.child) ++
      d.minimizedNodes.map (fun p => p.2))).Nodup
  mclosed : ∀ i, i < d.minimizedNodes.length →
      ∀ e ∈ alGetD d.names (d.minimizedNodes.getD i (([], false), 0)).2 [],
      ∃ j, j < i ∧ (d.minimizedNodes.getD j (([], false), 0)).2 = e.node
  gstruct : ∀ i, i < uc.length → ∃ pre,
      alGetD d.names (uc.getD i ⟨0, 0, 0⟩).parent [] =
        pre ++ [⟨(uc.getD i ⟨0, 0, 0⟩).child, (uc.getD i ⟨0, 0, 0⟩).ch⟩] ∧
      (∀ e ∈ pre, e.node ∈ d.minimizedNodes.map (fun p => p.2)) ∧
      (∀ e ∈ pre, e.ch < (uc.getD i ⟨0, 0, 0⟩).ch)
  hend : ∀ e ∈ alGetD d.names (chainEnd uc) [],
      e.node ∈ d.minimizedNodes.map (fun p => p.2) ∧
      uc.length < lw.length ∧ e.ch ≤ lw.getD uc.length 0
  euc : ∀ i, i < uc.length →
      (alGetD d.edges ⟨(uc.getD i ⟨0, 0, 0⟩).parent, (uc.getD i ⟨0, 0, 0⟩).ch⟩
        ⟨0, 0⟩).node = (uc.getD i ⟨0, 0, 0⟩).child
  fresh : ∀ x ∈ rootNode :: (uc.map (fun u => u.child) ++
      d.minimizedNodes.map (fun p => p.2)), x < d.nextID
  nkeys : ∀ k ∈ d.names.map (fun p => p.1), k < d.nextID

/-! ## Field-preservation lemmas for the builder operations -/

theorem minimizeStep_spine (d : Dawg) (u : UncheckedNode) :
    (minimizeStep d u).numAdded = d.numAdded ∧
    (minimizeStep d u).finished = d.finished ∧
    (minimizeStep d u).lastWord = d.lastWord ∧
    (minimizeStep d u).uncheckedNodes = d.uncheckedNodes ∧
    (minimizeStep d u).hasEmptyWord = d.hasEmptyWord ∧
    (minimizeStep d u).nextID = d.nextID := by
  cases h : alGet? d.minimizedNodes (nameOf d u.child) <;>
    simp [minimizeStep, replaceChild, h]

theorem minimizeLoop_spine (l : List UncheckedNode) (d : Dawg) :
    (minimizeLoop d l).numAdded = d.numAdded ∧
    (minimizeLoop d l).finished = d.finished ∧
    (minimizeLoop d l).lastWord = d.lastWord ∧
    (minimizeLoop d l).uncheckedNodes = d.uncheckedNodes ∧
    (minimizeLoop d l).hasEmptyWord = d.hasEmptyWord ∧
    (minimizeLoop d l).nextID = d.nextID := by
  induction l generalizing d with
  | nil => simp [minimizeLoop]
  | cons u rest ih =>
    have h1 := minimizeStep_spine d u
    have h2 := ih (minimizeStep d u)
    simp only [minimizeLoop]
    exact ⟨h2.1.trans h1.1, h2.2.1.trans h1.2.1, h2.2.2.1.trans h1.2.2.1,
      h2.2.2.2.1.trans h1.2.2.2.1, h2.2.2.2.2.1.trans h1.2.2.2.2.1,
      h2.2.2.2.2.2.trans h1.2.2.2.2.2⟩

theorem minimize_spine (d : Dawg) (k : Nat) :
    (minimize d k).numAdded = d.numAdded ∧
    (minimize d k).finished = d.finished ∧
    (minimize d k).lastWord = d.lastWord ∧
    (minimize d k).hasEmptyWord = d.hasEmptyWord ∧
    (minimize d k).nextID = d.nextID := by
  have h := minimizeLoop_spine ((d.uncheckedNodes.drop k).reverse) d
  simp only [minimize]
  exact ⟨h.1, h.2.1, h.2.2.1, h.2.2.2.2.1, h.2.2.2.2.2⟩

theorem addSuffix_spine (ls : List Rune) (d : Dawg) (node : Nat) :
    (addSuffix d node ls).1.numAdded = d.numAdded ∧
    (addSuffix d node ls).1.finished = d.finished ∧
    (addSuffix d node ls).1.lastWord = d.lastWord := by
  induction ls generalizing d node with
  | nil => simp [addSuffix]
  | cons letter rest ih =>
    simp only [addSuffix, newNode, addChild]
    exact ih _ _

theorem setFinal_spine (d : Dawg) (n : Nat) :
    (setFinal d n).numAdded = d.numAdded ∧
    (setFinal d n).finished = d.finished ∧
    (setFinal d n).lastWord = d.lastWord := by
  unfold setFinal
  split <;> simp

/-! ## Claim C7: `CanAdd` / `Add` error behaviour -/

theorem add_error_order (d : Dawg) (w : Word) (h0 : 0 < d.numAdded)
    (hlt : wordLt d.lastWord w = false) : add d w = .error .orderViolation := by
  unfold add
  have hc : (decide (d.numAdded > 0) && wordLe w d.lastWord) = true := by
    simp [wordLe, hlt, h0]
  simp [hc]

theorem add_error_finished (d : Dawg) (w : Word)
    (h : d.numAdded = 0 ∨ wordLt d.lastWord w = true) (hfin : d.finished = true) :
    add d w = .error .afterFinish := by
  unfold add
  have hc : (decide (d.numAdded > 0) && wordLe w d.lastWord) = false := by
    rcases h with h | h <;> simp [wordLe, h]
  simp [hc, hfin]

theorem add_ok_of_canAdd (d : Dawg) (w : Word) (hc : canAdd d w = true) :
    ∃ d', add d w = .ok d' ∧ d'.numAdded = d.numAdded + 1 ∧ d'.lastWord = w ∧
      d'.finished = false := by
  simp only [canAdd, Bool.and_eq_true, Bool.or_eq_true, Bool.not_eq_true',
    decide_eq_true_eq] at hc
  have hfin : d.finished = false := hc.1
  have h2 : d.numAdded = 0 ∨ wordLt d.lastWord w = true := hc.2
  have hcnd : (decide (d.numAdded > 0) && wordLe w d.lastWord) = false := by
    rcases h2 with h | h <;> simp [wordLe, h]
  unfold add
  simp only [gt_iff_lt, hcnd, Bool.false_eq_true, if_false, hfin]
  set cp := commonPrefixLen w d.lastWord with hcp
  set d1 := minimize d cp with hd1
  set nd := (match d1.uncheckedNodes.getLast? with
    | none => rootNode | some u => u.child) with hnd
  obtain ⟨d2, n2, hA⟩ : ∃ d2 n2, addSuffix d1 nd (w.drop cp) = (d2, n2) :=
    ⟨_, _, rfl⟩
  rw [hA]
  have hsp := addSuffix_spine (w.drop cp) d1 nd
  rw [hA] at hsp
  have hs := setFinal_spine d2 n2
  have hm := minimize_spine d cp
  refine ⟨_, rfl, ?_, rfl, ?_⟩
  · show (setFinal d2 n2).numAdded + 1 = d.numAdded + 1
    rw [hs.1, hsp.1, hd1, hm.1]
  · show (setFinal d2 n2).finished = false
    rw [hs.2.1, hsp.2.1, hd1, hm.2.1, hfin]

/-- C7: `CanAdd(w)` is true iff the builder is not finished and either no
word has been added or `w` is lexicographically greater than the last added
word; `Add(w)` fails iff `CanAdd(w)` is false, with `OrderViolation` for a
non-increasing word (checked first) and `AfterFinish` otherwise; a failed
`Add` performs its checks before any mutation, so the builder state is
unchanged (the model's `.error` carries no new state); a successful `Add`
increments `numAdded` by one and records `w` as the last word. -/
theorem C7_canAdd_add (d : Dawg) (w : Word) :
    (canAdd d w = true ↔
      (d.finished = false ∧ (d.numAdded = 0 ∨ wordLt d.lastWord w = true))) ∧
    ((∃ e, add d w = .error e) ↔ canAdd d w = false) ∧
    (0 < d.numAdded → wordLt d.lastWord w = false →
      add d w = .error .orderViolation) ∧
    ((d.numAdded = 0 ∨ wordLt d.lastWord w = true) → d.finished = true →
      add d w = .error .afterFinish) ∧
    (canAdd d w = true →
      ∃ d', add d w = .ok d' ∧ d'.numAdded = d.numAdded + 1 ∧ d'.lastWord = w ∧
        d'.finished = false) := by
  refine ⟨?_, ?_, add_error_order d w, add_error_finished d w, add_ok_of_canAdd d w⟩
  · simp [canAdd, Bool.and_eq_true, Bool.or_eq_true]
  · constructor
    · rintro ⟨e, he⟩
      cases hca : canAdd d w
      · rfl
      · obtain ⟨d', hok, -⟩ := add_ok_of_canAdd d w hca
        rw [hok] at he
        exact absurd he (by simp)
    · intro hca
      simp only [canAdd, Bool.and_eq_false_iff, Bool.not_eq_false',
        Bool.or_eq_false_iff, decide_eq_false_iff_not] at hca
      rcases hca with hfin | ⟨h0, hlt⟩
      · by_cases hord : 0 < d.numAdded ∧ wordLt d.lastWord w = false
        · exact ⟨_, add_error_order d w hord.1 hord.2⟩
        · refine ⟨_, add_error_finished d w ?_ hfin⟩
          rcases Nat.eq_zero_or_pos d.numAdded with h | h
          · exact Or.inl h
          · cases hlt : wordLt d.lastWord w
            · exact absurd ⟨h, hlt⟩ hord
            · exact Or.inr rfl
      · exact ⟨_, add_error_order d w (Nat.pos_of_ne_zero h0) hlt⟩

/-- Witness for C7 at a concrete builder: adding `"a"` to a fresh builder
succeeds with the advertised state changes. -/
theorem C7_canAdd_add_witness :
    ∃ d', add newDawg [97] = .ok d' ∧ d'.numAdded = 0 + 1 ∧ d'.lastWord = [97] ∧
      d'.finished = false :=
  (C7_canAdd_add newDawg [97]).2.2.2.2 (by decide)

/-! ## Claim C8: varint codec limits and round-trip -/

/-- C8 counterexample: `0x1fffff` is within the claimed supported range
(`≤ 2^28 − 1`), yet the encoder of `src/disk.go` hits the
`log.Panic("Not implemented")` branch on it instead of encoding it (the
encoder also never emits a 4-byte width). -/
theorem C8_varint_counterexample :
    0x1fffff ≤ 2 ^ 28 - 1 ∧ writeUnsignedChunks 0x1fffff = none ∧
      unsignedLength? 0x1fffff = none := by
  refine ⟨by norm_num, by decide, by decide⟩

/-- C8 (amended): the varint codec of `src/disk.go` supports exactly the
values below `0x1fffff = 2^21 − 1` (encoded widths of at most 3 bytes);
every supported value round-trips through encode/decode, with the length
`unsignedLength` predicts, and every value `≥ 0x1fffff` fails with the
`Not implemented` panic. -/
theorem C8_varint_roundtrip (n : Nat) :
    (n < 0x1fffff → ∃ bs, writeUnsignedChunks n = some bs ∧
      readUnsignedChunks bs 0 = n ∧ unsignedLength? n = some bs.length) ∧
    (0x1fffff ≤ n → writeUnsignedChunks n = none ∧ unsignedLength? n = none) :=
  ⟨readUnsigned_writeUnsigned n, writeUnsigned_fails n⟩

/-- Witness for C8 at concrete values on both sides of the limit. -/
theorem C8_varint_roundtrip_witness :
    (∃ bs, writeUnsignedChunks 300 = some bs ∧ readUnsignedChunks bs 0 = 300 ∧
      unsignedLength? 300 = some bs.length) ∧
    (writeUnsignedChunks 0x200000 = none ∧ unsignedLength? 0x200000 = none) :=
  ⟨(C8_varint_roundtrip 300).1 (by norm_num),
   (C8_varint_roundtrip 0x200000).2 (by norm_num)⟩

/-! ## Claim C9: queries on an unfinished builder -/

/-- C9: on a builder holding `"a"` on which `Finish` has never been called,
`FindAllPrefixesOf` panics with `NotFinished` as claimed, but `IndexOf`
returns `-1` normally (its source has no `checkFinished` call, contradicting
its own doc comment “It will panic if the dawg is not finished”), and
`AtIndex`/`Enumerate` dereference the nil reader (a nil-pointer panic, not
the `NotFinished` one). -/
theorem C9_unfinished_queries :
    add newDawg [97] = .ok dawgA ∧
    dawgA.finished = false ∧
    findAllPrefixesOf dawgA [97] = .error .notFinished ∧
    indexOf dawgA [97] = -1 ∧
    atIndex dawgA 0 = .error .nilDeref ∧
    enumerate dawgA (fun (s : Unit) _ _ _ => (s, .Continue)) () = .error .nilDeref := by
  refine ⟨by decide, by decide, by decide, by decide, by decide, rfl⟩

/-! ## Claim C10: `FindByPrefix` -/

theorem findByPrefixWalk_inr {g : Nat → Bool × List EdgeResult}
    (input : List Rune) :
    ∀ node acc m acc', findByPrefixWalk g input node acc = .inr (m, acc') →
      acc' = acc ++ input ∧ WalkPath g node input m := by
  induction input with
  | nil =>
    intro node acc m acc' h
    simp [findByPrefixWalk] at h
    exact ⟨by simp [h.2], h.1 ▸ WalkPath.nil node⟩
  | cons letter rest ih =>
    intro node acc m acc' h
    simp only [findByPrefixWalk] at h
    cases hf : (g node).2.find? (fun e => e.ch = letter) with
    | none => rw [hf] at h; exact absurd h (by simp)
    | some e =>
      rw [hf] at h
      obtain ⟨h1, h2⟩ := ih e.node (acc ++ [letter]) m acc' h
      exact ⟨by simpa using h1, WalkPath.cons hf h2⟩

theorem findByPrefixWalk_inl {g : Nat → Bool × List EdgeResult}
    (input : List Rune) :
    ∀ node acc out, findByPrefixWalk g input node acc = .inl out →
      ∃ k m, k < input.length ∧ out = acc ++ input.take k ∧
        WalkPath g node (input.take k) m ∧
        (g m).2.find? (fun e => e.ch = input.getD k 0) = none := by
  induction input with
  | nil =>
    intro node acc out h
    simp [findByPrefixWalk] at h
  | cons letter rest ih =>
    intro node acc out h
    simp only [findByPrefixWalk] at h
    cases hf : (g node).2.find? (fun e => e.ch = letter) with
    | none =>
      rw [hf] at h
      refine ⟨0, node, by simp, by simpa using h.symm, WalkPath.nil node, by simpa using hf⟩
    | some e =>
      rw [hf] at h
      obtain ⟨k, m, hk, hout, hwalk, hnone⟩ := ih e.node (acc ++ [letter]) out h
      exact ⟨k + 1, m, by simpa using hk, by simpa using hout,
        WalkPath.cons hf hwalk, by simpa using hnone⟩

theorem findByPrefixExtend_ok {g : Nat → Bool × List EdgeResult}
    (fuel : Nat) :
    ∀ node acc out, findByPrefixExtend g fuel node acc = .ok out →
      ∃ ext m, out = acc ++ ext ∧ FirstEdgeSteps g node ext m := by
  induction fuel with
  | zero => intro node acc out h; exact absurd h (by simp [findByPrefixExtend])
  | succ fuel ih =>
    intro node acc out h
    simp only [findByPrefixExtend] at h
    split at h
    · exact absurd h (by simp)
    · rename_i e tail he
      split at h
      · rename_i hfin
        cases h
        exact ⟨[e.ch], e.node, rfl, FirstEdgeSteps.single he hfin⟩
      · rename_i hfin
        obtain ⟨ext, m, hout, hsteps⟩ := ih e.node (acc ++ [e.ch]) out h
        exact ⟨e.ch :: ext, m, by simpa using hout,
          FirstEdgeSteps.step he (by simpa using hfin) hsteps⟩

/-- C10 (amended): when `FindByPrefix` (of `src/unnamed/part_002`) returns a
string, either (a) the whole query was matched, and the result is the query
extended along the lexicographically first edges — at least one edge, even
when the query's own node is already final — up to the first final node so
reached; or (b) some query character had no edge, and the result is exactly
the prefix of the query matched so far, NOT extended to any terminal
descendant (and hence not necessarily a stored word). -/
theorem C10_findByPrefix_amended (g : Nat → Bool × List EdgeResult)
    (fuel : Nat) (input out : Word)
    (h : findByPrefixFn g fuel input = .ok out) :
    (∃ node, WalkPath g rootNode input node ∧
      ∃ ext m, out = input ++ ext ∧ FirstEdgeSteps g node ext m) ∨
    (∃ k node, k < input.length ∧ out = input.take k ∧
      WalkPath g rootNode (input.take k) node ∧
      (g node).2.find? (fun e => e.ch = input.getD k 0) = none) := by
  unfold findByPrefixFn at h
  split at h
  · rename_i acc hw
    injection h with h
    subst h
    obtain ⟨k, m, hk, hout, hwalk, hnone⟩ :=
      findByPrefixWalk_inl input rootNode [] _ hw
    exact Or.inr ⟨k, m, hk, by simpa using hout, hwalk, hnone⟩
  · rename_i node acc hw
    obtain ⟨hacc, hwalk⟩ := findByPrefixWalk_inr input rootNode [] node acc hw
    obtain ⟨ext, m, hout, hsteps⟩ := findByPrefixExtend_ok fuel node acc out h
    exact Or.inl ⟨node, hwalk, ext, m, by simp [hout, hacc], hsteps⟩

/-- Witness for C10 (amended) on the `{"ab"}` view with query `"a"`:
the result is `"ab"`, i.e. the query extended leftmost to the final node. -/
theorem C10_findByPrefix_amended_witness :
    (∃ node, WalkPath abView rootNode [97] node ∧
      ∃ ext m, ([97, 98] : Word) = [97] ++ ext ∧ FirstEdgeSteps abView node ext m) ∨
    (∃ k node, k < ([97] : Word).length ∧ ([97, 98] : Word) = ([97] : Word).take k ∧
      WalkPath abView rootNode (([97] : Word).take k) node ∧
      (abView node).2.find? (fun e => e.ch = ([97] : Word).getD k 0) = none) :=
  C10_findByPrefix_amended abView 9 [97] [97, 98] (by decide)

/-- C10 counterexample: on the `{"ab"}` view, `FindByPrefix("ax")` returns
`"a"` — whose node is not final, so `"a"` is not a stored word and is not an
extension to any terminal descendant; extending from the matched point (as
the claim describes) would instead give `"ab"`. -/
theorem C10_findByPrefix_counterexample :
    findByPrefixFn abView 9 [97, 120] = .ok [97] ∧
    (abView 1).1 = false ∧
    findByPrefixExtend abView 9 1 [97] = .ok [97, 98] := by
  refine ⟨by decide, rfl, by decide⟩

/-! ## Bit-writer length lemmas -/

theorem writeBitsF_len : ∀ fuel (w : BitWriter) data n, n ≤ fuel → w.used ≤ 7 →
    bitLenW (writeBitsF fuel w data n) = bitLenW w + n ∧
    (writeBitsF fuel w data n).used ≤ 7 := by
  intro fuel
  induction fuel with
  | zero =>
    intro w data n hn hu
    have : n = 0 := by omega
    subst this
    exact ⟨rfl, hu⟩
  | succ fuel ih =>
    intro w data n hn hu
    by_cases h0 : n = 0
    · subst h0
      have he : writeBitsF (fuel + 1) w data 0 = w := by rw [writeBitsF]; simp
      rw [he]
      exact ⟨by omega, hu⟩
    · have h8 : ¬ 8 ≤ w.used := by omega
      rw [writeBitsF, if_neg h0, if_neg h8]
      simp only
      set written := if 8 < n + w.used then 8 - w.used else n with hwr
      have hw1 : 1 ≤ written ∧ written ≤ n ∧ w.used + written ≤ 8 := by
        rw [hwr]; split <;> omega
      have key : ∀ w' : BitWriter, w'.used ≤ 7 → bitLenW w' = bitLenW w + written →
          bitLenW (writeBitsF fuel w' data (n - written)) = bitLenW w + n ∧
          (writeBitsF fuel w' data (n - written)).used ≤ 7 := by
        intro w' h1 h2
        have h3 := ih w' data (n - written) (by omega) h1
        exact ⟨by omega, h3.2⟩
      split
      · rename_i hfull
        exact key _ (by simp) (by simp [bitLenW]; omega)
      · rename_i hfull
        exact key _ (by simp; omega) (by simp [bitLenW]; omega)

theorem writeBitsW_len (w : BitWriter) (data n : Nat) (hu : w.used ≤ 7) :
    bitLenW (writeBitsW w data n) = bitLenW w + n ∧
    (writeBitsW w data n).used ≤ 7 :=
  writeBitsF_len n w data n (Nat.le_refl n) hu

theorem flushW_len (w : BitWriter) (hu : w.used ≤ 7) :
    (flushW w).out.length = (bitLenW w + 7) / 8 := by
  unfold flushW bitLenW
  split
  · simp only [List.length_append, List.length_cons, List.length_nil]
    omega
  · omega

theorem writeUnsignedChunks_length (n : Nat) (bs : List Nat)
    (h : writeUnsignedChunks n = some bs) :
    unsignedLength? n = some bs.length := by
  unfold writeUnsignedChunks at h
  unfold unsignedLength?
  by_cases h1 : n < 0x7f
  · simp only [if_pos h1] at h ⊢
    simp only [Option.some.injEq] at h
    simp [← h]
  · by_cases h2 : n < 0x3fff
    · simp only [if_neg h1, if_pos h2] at h ⊢
      simp only [Option.some.injEq] at h
      simp [← h]
    · by_cases h3 : n < 0x1fffff
      · simp only [if_neg h1, if_neg h2, if_pos h3] at h ⊢
        simp only [Option.some.injEq] at h
        simp [← h]
      · rw [if_neg h1, if_neg h2, if_neg h3] at h; cases h

theorem foldl_writeBits8_len (cs : List Nat) :
    ∀ (w : BitWriter), w.used ≤ 7 →
    bitLenW (cs.foldl (fun w c => writeBitsW w c 8) w) = bitLenW w + 8 * cs.length ∧
    (cs.foldl (fun w c => writeBitsW w c 8) w).used ≤ 7 := by
  induction cs with
  | nil => intro w hu; exact ⟨by simp, hu⟩
  | cons c rest ih =>
    intro w hu
    simp only [List.foldl_cons, List.length_cons]
    have h1 := writeBitsW_len w c 8 hu
    have h2 := ih (writeBitsW w c 8) h1.2
    exact ⟨by rw [h2.1, h1.1]; ring, h2.2⟩

theorem writeUnsignedW_len (w : BitWriter) (n : Nat) (w' : BitWriter)
    (hu : w.used ≤ 7) (h : writeUnsignedW w n = some w') :
    ∃ L, unsignedLength? n = some L ∧ bitLenW w' = bitLenW w + 8 * L ∧
      w'.used ≤ 7 := by
  unfold writeUnsignedW at h
  cases hc : writeUnsignedChunks n with
  | none => rw [hc] at h; cases h
  | some cs =>
    rw [hc] at h
    simp only [Option.map_some'] at h
    injection h with h
    have hl := writeUnsignedChunks_length n cs hc
    have hf := foldl_writeBits8_len cs w hu
    exact ⟨cs.length, hl, by rw [← h]; exact hf.1, by rw [← h]; exact hf.2⟩

/-! ## Layout lemmas -/

theorem layoutNodes_cons_some (cbits wbits abits ec : Nat) (rest : List Nat)
    (pos rb : Nat) (hrb : recBits cbits wbits abits ec = some rb) :
    layoutNodes cbits wbits abits (ec :: rest) pos =
      match layoutNodes cbits wbits abits rest (pos + rb) with
      | none => none
      | some (as, p) => some (pos :: as, p) := by
  unfold recBits recHdrBits at hrb
  by_cases h1 : ec = 1
  · subst h1
    simp only [if_pos rfl, Option.map_some', Option.some.injEq] at hrb
    norm_num at hrb
    simp only [layoutNodes, ne_eq, not_true_eq_false, if_false, ite_false,
      Nat.lt_irrefl, if_true, Nat.zero_lt_one, ite_true]
    rw [show pos + 1 + 1 + 1 * (cbits + wbits + abits) - wbits = pos + rb from by
      omega]
  · cases hul : unsignedLength? ec with
    | none => rw [if_neg h1, hul] at hrb; simp at hrb
    | some L =>
      rw [if_neg h1, hul] at hrb
      simp only [Option.map_some', Option.some.injEq] at hrb
      simp only [layoutNodes, ne_eq, h1, not_false_eq_true, if_true, ite_true,
        hul, Option.map_some']
      by_cases h0 : 0 < ec
      · have hX : wbits ≤ ec * (cbits + wbits + abits) :=
          le_trans (by omega) (Nat.le_mul_of_pos_left _ h0)
        rw [if_pos h0] at hrb
        simp only [if_pos h0]
        rw [show pos + 1 + 1 + L * 8 + ec * (cbits + wbits + abits) - wbits
            = pos + rb from by omega]
      · rw [if_neg h0] at hrb
        simp only [if_neg h0]
        rw [show pos + 1 + 1 + L * 8 = pos + rb from by omega]

theorem layoutNodes_cons_none (cbits wbits abits ec : Nat) (rest : List Nat)
    (pos : Nat) (hrb : recBits cbits wbits abits ec = none) :
    layoutNodes cbits wbits abits (ec :: rest) pos = none := by
  unfold recBits recHdrBits at hrb
  by_cases h1 : ec = 1
  · simp [h1] at hrb
  · cases hul : unsignedLength? ec with
    | none =>
      simp only [layoutNodes, ne_eq, h1, not_false_eq_true, if_true, ite_true,
        hul, Option.map_none']
    | some L => rw [if_neg h1, hul] at hrb; simp at hrb

theorem recBits_zero (cbits wbits abits : Nat) :
    recBits cbits wbits abits 0 = some 10 := by
  unfold recBits recHdrBits unsignedLength?
  norm_num

theorem layoutNodes_zero (cbits wbits abits : Nat) (rest : List Nat) (pos : Nat) :
    layoutNodes cbits wbits abits (0 :: rest) pos =
      match layoutNodes cbits wbits abits rest (pos + 10) with
      | none => none
      | some (as, p) => some (pos :: as, p) :=
  layoutNodes_cons_some cbits wbits abits 0 rest pos 10 (recBits_zero _ _ _)

theorem layoutNodes_replicate_zero_inv (cbits wbits abits : Nat) :
    ∀ (z : Nat) (cs : List Nat) (pos : Nat) (ads : List Nat) (p : Nat),
    layoutNodes cbits wbits abits (List.replicate z 0 ++ cs) pos = some (ads, p) →
    ∃ ads', layoutNodes cbits wbits abits cs (pos + 10 * z) = some (ads', p) := by
  intro z
  induction z with
  | zero =>
    intro cs pos ads p h
    exact ⟨ads, by simpa using h⟩
  | succ z ih =>
    intro cs pos ads p h
    rw [List.replicate_succ, List.cons_append, layoutNodes_zero] at h
    cases hl : layoutNodes cbits wbits abits (List.replicate z 0 ++ cs) (pos + 10) with
    | none => rw [hl] at h; cases h
    | some v =>
      obtain ⟨as2, p2⟩ := v
      rw [hl] at h
      simp only [Option.some.injEq, Prod.mk.injEq] at h
      obtain ⟨as3, h3⟩ := ih cs (pos + 10) as2 p2 hl
      refine ⟨as3, ?_⟩
      rw [show pos + 10 * (z + 1) = pos + 10 + 10 * z from by ring, h3, h.2]

theorem NodeGroups_nil_edges : ∀ {base : Nat} {cs : List Nat} {es : List EdgeStart},
    NodeGroups base cs es → es = [] → ∀ x ∈ cs, x = 0 := by
  intro base cs es h
  induction h with
  | nil => intro _ x hx; cases hx
  | cons hlen hnode hrec ih =>
    intro hese x hx
    rename_i base' c cs' g es'
    have hg : g = [] := by cases g <;> simp_all
    have hes : es' = [] := by cases es' <;> simp_all
    cases hx with
    | head => subst hg; simpa using hlen.symm
    | tail _ hx' => exact ih hes x hx'

/-! ## Header emission lemmas -/

theorem recHdrBits_zero : recHdrBits 0 = some 8 := by
  unfold recHdrBits unsignedLength?
  norm_num

theorem writeUnsignedChunks_of_length (n L : Nat)
    (h : unsignedLength? n = some L) :
    ∃ bs, writeUnsignedChunks n = some bs ∧ bs.length = L := by
  unfold unsignedLength? at h
  unfold writeUnsignedChunks
  by_cases h1 : n < 0x7f
  · rw [if_pos h1] at h ⊢
    refine ⟨_, rfl, ?_⟩
    simp at h
    simp [← h]
  · by_cases h2 : n < 0x3fff
    · rw [if_neg h1, if_pos h2] at h ⊢
      refine ⟨_, rfl, ?_⟩
      simp at h
      simp [← h]
    · by_cases h3 : n < 0x1fffff
      · rw [if_neg h1, if_neg h2, if_pos h3] at h ⊢
        refine ⟨_, rfl, ?_⟩
        simp at h
        simp [← h]
      · rw [if_neg h1, if_neg h2, if_neg h3] at h; cases h

theorem writeUnsignedW_of_length (w : BitWriter) (n L : Nat) (hu : w.used ≤ 7)
    (h : unsignedLength? n = some L) :
    ∃ w', writeUnsignedW w n = some w' ∧ bitLenW w' = bitLenW w + 8 * L ∧
      w'.used ≤ 7 := by
  obtain ⟨bs, hbs, hlen⟩ := writeUnsignedChunks_of_length n L h
  refine ⟨_, by unfold writeUnsignedW; rw [hbs]; rfl, ?_, ?_⟩
  · have := foldl_writeBits8_len bs w hu
    rw [this.1, hlen]
  · exact (foldl_writeBits8_len bs w hu).2

theorem nodeHeaderW_spec (d : Dawg) (counts : List Nat) (j : Nat) (w : BitWriter)
    (hu : w.used ≤ 7) (H : Nat) (hH : recHdrBits (counts.getD j 0) = some H) :
    ∃ w', nodeHeaderW d counts w j = some w' ∧
      bitLenW w' = bitLenW w + 2 + H ∧ w'.used ≤ 7 := by
  unfold nodeHeaderW
  unfold recHdrBits at hH
  have h1 := writeBitsW_len w (if alGetD d.final j false then 1 else 0) 1 hu
  by_cases hec : counts.getD j 0 = 1
  · rw [if_pos hec] at hH ⊢
    simp only [Option.some.injEq] at hH
    have h2 := writeBitsW_len (writeBitsW w (if alGetD d.final j false then 1 else 0) 1) 1 1 h1.2
    exact ⟨_, rfl, by rw [h2.1, h1.1, ← hH], h2.2⟩
  · rw [if_neg hec] at hH ⊢
    cases hul : unsignedLength? (counts.getD j 0) with
    | none => rw [hul] at hH; cases hH
    | some L =>
      rw [hul] at hH
      simp only [Option.map_some', Option.some.injEq] at hH
      have h2 := writeBitsW_len (writeBitsW w (if alGetD d.final j false then 1 else 0) 1) 0 1 h1.2
      obtain ⟨w', hw', hlen', hu'⟩ :=
        writeUnsignedW_of_length _ (counts.getD j 0) L h2.2 hul
      exact ⟨w', hw', by rw [hlen', h2.1, h1.1]; omega, hu'⟩

theorem emitHeaders_append (d : Dawg) (counts : List Nat) :
    ∀ (k1 k2 : Nat) (w : BitWriter) (lo : Nat),
    emitHeaders d counts w lo (k1 + k2) =
      match emitHeaders d counts w lo k1 with
      | none => none
      | some w' => emitHeaders d counts w' (lo + k1) k2 := by
  intro k1
  induction k1 with
  | zero =>
    intro k2 w lo
    simp [emitHeaders]
  | succ k1 ih =>
    intro k2 w lo
    rw [show k1 + 1 + k2 = (k1 + k2) + 1 from by ring]
    simp only [emitHeaders]
    cases nodeHeaderW d counts w lo with
    | none => rfl
    | some w1 =>
      dsimp only
      rw [ih k2 w1 (lo + 1)]
      rw [show lo + (k1 + 1) = lo + 1 + k1 from by ring]

theorem emitHeaders_zeros (d : Dawg) (counts : List Nat) :
    ∀ (k : Nat) (lo : Nat) (w : BitWriter), w.used ≤ 7 →
    (∀ i, lo ≤ i → i < lo + k → counts.getD i 0 = 0) →
    ∃ w', emitHeaders d counts w lo k = some w' ∧
      bitLenW w' = bitLenW w + 10 * k ∧ w'.used ≤ 7 := by
  intro k
  induction k with
  | zero => exact fun lo w hu _ => ⟨w, rfl, by omega, hu⟩
  | succ k ih =>
    intro lo w hu hz
    have hec : counts.getD lo 0 = 0 := hz lo le_rfl (by omega)
    obtain ⟨w1, hw1, hlen1, hu1⟩ :=
      nodeHeaderW_spec d counts lo w hu 8 (by rw [hec]; exact recHdrBits_zero)
    obtain ⟨w2, hw2, hlen2, hu2⟩ :=
      ih (lo + 1) w1 hu1 (fun i h1 h2 => hz i (by omega) (by omega))
    refine ⟨w2, ?_, by omega, hu2⟩
    simp only [emitHeaders, hw1, hw2]

/-! ## Group structure lemmas -/

theorem groupsOk_sound : ∀ (cs : List Nat) (base : Nat) (es : List EdgeStart),
    groupsOk base cs es = true → NodeGroups base cs es := by
  intro cs
  induction cs with
  | nil =>
    intro base es h
    unfold groupsOk at h
    rw [List.isEmpty_iff] at h
    rw [h]
    exact .nil base
  | cons c cs ih =>
    intro base es h
    unfold groupsOk at h
    simp only [Bool.and_eq_true, decide_eq_true_eq, List.all_eq_true] at h
    obtain ⟨⟨hlen, hnode⟩, hrec⟩ := h
    have hsplit : es = es.take c ++ es.drop c := (List.take_append_drop c es).symm
    rw [hsplit]
    exact .cons hlen hnode (ih (base + 1) (es.drop c) hrec)

theorem NodeGroups_cons_edge : ∀ {base : Nat} {cs : List Nat} {esAll : List EdgeStart},
    NodeGroups base cs esAll → ∀ {e : EdgeStart} {es0 : List EdgeStart},
    esAll = e :: es0 →
    ∃ z c cs' g es', cs = List.replicate z 0 ++ c :: cs' ∧
      e.node = base + z ∧ c = g.length + 1 ∧ (∀ x ∈ g, x.node = base + z) ∧
      es0 = g ++ es' ∧ NodeGroups (base + z + 1) cs' es' := by
  intro base cs esAll h
  induction h with
  | nil => intro e es0 heq; cases heq
  | cons hlen hnode hrec ih =>
    intro e es0 heq
    rename_i base' c' cs' g' es'
    cases g' with
    | nil =>
      simp only [List.nil_append] at heq
      simp only [List.length_nil] at hlen
      obtain ⟨z, c, cs'', g, es'', hcs, hen, hc, hg, hes, hng⟩ := ih heq
      refine ⟨z + 1, c, cs'', g, es'', ?_, by omega, hc, ?_, hes, ?_⟩
      · rw [List.replicate_succ, List.cons_append, ← hcs, ← hlen]
      · intro x hx
        have := hg x hx
        omega
      · have h : base' + (z + 1) + 1 = base' + 1 + z + 1 := by ring
        rw [h]
        exact hng
    | cons a g'' =>
      simp only [List.cons_append, List.cons.injEq] at heq
      obtain ⟨hae, hes0⟩ := heq
      refine ⟨0, c', cs', g'', es', by simp, ?_, ?_, ?_, hes0.symm, hrec⟩
      · rw [← hae]
        have := hnode a (by simp)
        omega
      · have := hlen
        simp only [List.length_cons] at this
        omega
      · intro x hx
        have := hnode x (by simp [hx])
        omega

theorem edgeCounts_length : ∀ (es : List EdgeStart) (numNodes : Nat) (l : List Nat),
    edgeCounts numNodes es = some l → l.length = numNodes := by
  intro es
  induction es with
  | nil =>
    intro numNodes l h
    unfold edgeCounts at h
    simp only [Option.some.injEq] at h
    rw [← h, List.length_replicate]
  | cons s rest ih =>
    intro numNodes l h
    unfold edgeCounts at h
    cases hr : edgeCounts numNodes rest with
    | none => rw [hr] at h; cases h
    | some l0 =>
      rw [hr] at h
      dsimp only at h
      by_cases hlt : s.node < l0.length
      · rw [if_pos hlt] at h
        simp only [Option.some.injEq] at h
        rw [← h, List.length_set]
        exact ih numNodes l0 hr
      · rw [if_neg hlt] at h; cases h

theorem abitsLoop_spec : ∀ (fuel : Nat) (counts : List Nat) (cbits wbits hdr ab0 : Nat)
    (abits : Nat) (addrs : List Nat) (pos : Nat),
    abitsLoop counts cbits wbits hdr fuel ab0 = some (abits, addrs, pos) →
    layoutNodes cbits wbits abits counts hdr = some (addrs, pos) ∧
      bitsLen pos ≤ abits := by
  intro fuel
  induction fuel with
  | zero => intro _ _ _ _ _ _ _ _ h; cases h
  | succ fuel ih =>
    intro counts cbits wbits hdr ab0 abits addrs pos h
    unfold abitsLoop at h
    cases hl : layoutNodes cbits wbits ab0 counts hdr with
    | none => rw [hl] at h; cases h
    | some p =>
      rw [hl] at h
      obtain ⟨addrs0, pos0⟩ := p
      dsimp only at h
      by_cases hle : bitsLen pos0 ≤ ab0
      · rw [if_pos hle] at h
        simp only [Option.some.injEq, Prod.mk.injEq] at h
        obtain ⟨h1, h2, h3⟩ := h
        subst h1; subst h2; subst h3
        exact ⟨hl, hle⟩
      · rw [if_neg hle] at h
        exact ih counts cbits wbits hdr (bitsLen pos0) abits addrs pos h

/-! ## The traced emission agrees with the plain one -/

theorem map_proj_hdr (lo b : Nat) (E : Option (BitWriter × List (Nat × Nat))) :
    Option.map (fun p => p.1) (E.map (fun p => (p.1, (lo, b) :: p.2))) =
    Option.map (fun p => p.1) E := by
  cases E with
  | none => rfl
  | some q => rfl

theorem map_proj_tr (tr1 : List (Nat × Nat))
    (E : Option (BitWriter × Nat × List (Nat × Nat))) :
    Option.map (fun p => (p.1, p.2.1))
      (E.map (fun p => (p.1, p.2.1, tr1 ++ p.2.2))) =
    Option.map (fun p => (p.1, p.2.1)) E := by
  cases E with
  | none => rfl
  | some q => rfl

theorem emitHeadersT_proj (d : Dawg) (counts : List Nat) :
    ∀ (k : Nat) (w : BitWriter) (lo : Nat),
    emitHeaders d counts w lo k =
      (emitHeadersT d counts w lo k).map (fun p => p.1) := by
  intro k
  induction k with
  | zero => intro w lo; rfl
  | succ k ih =>
    intro w lo
    simp only [emitHeaders, emitHeadersT]
    cases nodeHeaderW d counts w lo with
    | none => rfl
    | some w' =>
      dsimp only
      rw [ih w' (lo + 1), map_proj_hdr]

theorem emitEdgesT_proj (d : Dawg) (counts addrs : List Nat)
    (cbits wbits abits : Nat) :
    ∀ (es : List EdgeStart) (w : BitWriter) (iNext : Nat) (fe : Bool),
    emitEdges d counts addrs cbits wbits abits es w iNext fe =
      (emitEdgesT d counts addrs cbits wbits abits es w iNext fe).map
        (fun p => (p.1, p.2.1)) := by
  intro es
  induction es with
  | nil => intro w iNext fe; rfl
  | cons start rest ih =>
    intro w iNext fe
    simp only [emitEdges, emitEdgesT]
    by_cases hn : iNext ≤ start.node
    · simp only [if_pos hn, emitHeadersT_proj]
      cases emitHeadersT d counts w iNext (start.node + 1 - iNext) with
      | none => rfl
      | some p =>
        obtain ⟨w1, tr1⟩ := p
        simp only [Option.map_some']
        rw [ih, map_proj_tr]
    · simp only [if_neg hn]
      rw [ih, map_proj_tr]

/-! ## Traced header runs and layout address splitting -/

theorem range_map_getD {α : Type} (f : Nat → α) (d : α) :
    ∀ (n k : Nat), k < n → ((List.range n).map f).getD k d = f k := by
  intro n k hk
  rw [List.getD_eq_getElem?_getD, List.getElem?_map]
  rw [List.getElem?_range hk]
  rfl

theorem layoutNodes_replicate_zero_split (cbits wbits abits : Nat) :
    ∀ (z : Nat) (cs : List Nat) (pos : Nat) (ads : List Nat) (p : Nat),
    layoutNodes cbits wbits abits (List.replicate z 0 ++ cs) pos = some (ads, p) →
    ∃ ads', ads = (List.range z).map (fun t => pos + 10 * t) ++ ads' ∧
      layoutNodes cbits wbits abits cs (pos + 10 * z) = some (ads', p) := by
  intro z
  induction z with
  | zero =>
    intro cs pos ads p h
    exact ⟨ads, by simp, by simpa using h⟩
  | succ z ih =>
    intro cs pos ads p h
    rw [List.replicate_succ, List.cons_append, layoutNodes_zero] at h
    cases hl : layoutNodes cbits wbits abits (List.replicate z 0 ++ cs) (pos + 10) with
    | none => rw [hl] at h; cases h
    | some q =>
      rw [hl] at h
      obtain ⟨as0, p0⟩ := q
      dsimp only at h
      injection h with h
      obtain ⟨ads', hads, hlay⟩ := ih cs (pos + 10) as0 p0 hl
      have hppar : (pos :: as0, p0) = (ads, p) := h
      have hads0 : ads = pos :: as0 := by
        have := congrArg Prod.fst hppar
        simpa using this.symm
      have hp0 : p0 = p := by
        have := congrArg Prod.snd hppar
        simpa using this
      refine ⟨ads', ?_, ?_⟩
      · rw [hads0, hads, List.range_succ_eq_map]
        simp only [List.map_cons, List.map_map, List.cons_append]
        refine congrArg₂ List.cons (by show pos = pos + 10 * 0; omega) ?_
        refine congrArg₂ (fun a b => a ++ b) ?_ rfl
        refine List.map_congr_left ?_
        intro t ht
        simp only [Function.comp_apply]
        omega
      · rw [show pos + 10 * (z + 1) = pos + 10 + 10 * z from by ring, ← hp0]
        exact hlay

theorem emitHeadersT_run (d : Dawg) (counts : List Nat) :
    ∀ (z : Nat) (lo : Nat) (w : BitWriter) (H : Nat), w.used ≤ 7 →
    (∀ i, lo ≤ i → i < lo + z → counts.getD i 0 = 0) →
    recHdrBits (counts.getD (lo + z) 0) = some H →
    ∃ w', emitHeadersT d counts w lo (z + 1) = some (w',
        (List.range (z + 1)).map (fun t => (lo + t, bitLenW w + 10 * t))) ∧
      bitLenW w' = bitLenW w + 10 * z + 2 + H ∧ w'.used ≤ 7 := by
  intro z
  induction z with
  | zero =>
    intro lo w H hu hz hH
    obtain ⟨w1, hw1, hlen1, hu1⟩ := nodeHeaderW_spec d counts lo w hu H
      (by rw [show lo = lo + 0 from rfl] at hH; exact hH)
    refine ⟨w1, ?_, by omega, hu1⟩
    simp only [emitHeadersT, hw1]
    rfl
  | succ z ih =>
    intro lo w H hu hz hH
    have hec : counts.getD lo 0 = 0 := hz lo le_rfl (by omega)
    obtain ⟨w1, hw1, hlen1, hu1⟩ :=
      nodeHeaderW_spec d counts lo w hu 8 (by rw [hec]; exact recHdrBits_zero)
    obtain ⟨w', hw', hlen', hu'⟩ := ih (lo + 1) w1 H hu1
      (fun i h1 h2 => hz i (by omega) (by omega))
      (by rw [show lo + 1 + z = lo + (z + 1) from by ring]; exact hH)
    refine ⟨w', ?_, by omega, hu'⟩
    have hstep : emitHeadersT d counts w lo (z + 1 + 1) =
        match nodeHeaderW d counts w lo with
        | none => none
        | some w1 =>
          (emitHeadersT d counts w1 (lo + 1) (z + 1)).map
            (fun p => (p.1, (lo, bitLenW w) :: p.2)) := rfl
    rw [hstep, hw1]
    dsimp only
    rw [hw', Option.map_some']
    have htr : ((lo, bitLenW w) ::
          (List.range (z + 1)).map (fun t => (lo + 1 + t, bitLenW w1 + 10 * t))) =
        (List.range (z + 1 + 1)).map (fun t => (lo + t, bitLenW w + 10 * t)) := by
      conv_rhs => rw [List.range_succ_eq_map]
      conv_rhs => simp only [List.map_cons, List.map_map]
      refine congrArg₂ List.cons
        (by show (lo, bitLenW w) = (lo + 0, bitLenW w + 10 * 0); rw [Prod.mk.injEq]
            constructor <;> omega) ?_
      refine List.map_congr_left ?_
      intro t ht
      simp only [Function.comp_apply]
      rw [Prod.mk.injEq]
      constructor
      · omega
      · omega
    rw [htr]

/-! ## Small list and layout inversion helpers -/

theorem replicate_zero_getD (z k : Nat) (h : k < z) :
    (List.replicate z 0).getD k 0 = 0 := by
  rw [List.getD_eq_getElem?_getD, List.getElem?_replicate]
  rw [if_pos h]
  rfl

theorem drop_append_len {α : Type} :
    ∀ (l1 l2 : List α) (t : Nat), (l1 ++ l2).drop (l1.length + t) = l2.drop t := by
  intro l1
  induction l1 with
  | nil => intro l2 t; simp
  | cons a l ih =>
    intro l2 t
    simp only [List.cons_append, List.length_cons]
    rw [show l.length + 1 + t = (l.length + t) + 1 from by ring]
    rw [List.drop_succ_cons]
    exact ih l2 t

theorem getD_append_lt {α : Type} (l1 l2 : List α) (d : α) (n : Nat)
    (h : n < l1.length) : (l1 ++ l2).getD n d = l1.getD n d := by
  rw [List.getD_eq_getElem?_getD, List.getD_eq_getElem?_getD,
    List.getElem?_append, if_pos h]

theorem getD_append_ge {α : Type} (l1 l2 : List α) (d : α) (n : Nat)
    (h : l1.length ≤ n) : (l1 ++ l2).getD n d = l2.getD (n - l1.length) d := by
  rw [List.getD_eq_getElem?_getD, List.getD_eq_getElem?_getD,
    List.getElem?_append, if_neg (not_lt.mpr h)]

theorem layoutNodes_cons_inv (cbits wbits abits c : Nat) (rest : List Nat)
    (pos : Nat) (ads : List Nat) (p : Nat)
    (h : layoutNodes cbits wbits abits (c :: rest) pos = some (ads, p)) :
    ∃ rb ads', recBits cbits wbits abits c = some rb ∧
      layoutNodes cbits wbits abits rest (pos + rb) = some (ads', p) ∧
      ads = pos :: ads' := by
  cases hrb : recBits cbits wbits abits c with
  | none => rw [layoutNodes_cons_none cbits wbits abits c rest pos hrb] at h; cases h
  | some rb =>
    rw [layoutNodes_cons_some cbits wbits abits c rest pos rb hrb] at h
    cases hl : layoutNodes cbits wbits abits rest (pos + rb) with
    | none => rw [hl] at h; cases h
    | some q =>
      rw [hl] at h
      obtain ⟨as0, p0⟩ := q
      dsimp only at h
      injection h with h
      have h1 : pos :: as0 = ads := congrArg Prod.fst h
      have h2 : p0 = p := congrArg Prod.snd h
      exact ⟨rb, as0, rfl, by rw [h2] at hl; exact hl, h1.symm⟩

theorem recBits_hdr (cbits wbits abits c rb : Nat)
    (h : recBits cbits wbits abits c = some rb) (hc : 0 < c) :
    ∃ H, recHdrBits c = some H ∧
      rb = 2 + H + (c * (cbits + wbits + abits) - wbits) := by
  unfold recBits at h
  cases hH : recHdrBits c with
  | none => rw [hH] at h; cases h
  | some H =>
    rw [hH] at h
    simp only [Option.map_some', Option.some.injEq] at h
    rw [if_pos hc] at h
    exact ⟨H, rfl, h.symm⟩

/-! ## The emission loop realizes the layout walk

The central invariant for the serializer: starting from writer state `w`
with the pending edges `front` of the node `iNext - 1` still to be written
and the remaining edges `es` grouped by source node with group sizes `cs`,
if the layout walk of the remaining counts starting at the writer's current
bit position (plus the pending edge records) succeeds, then the emission
loop succeeds, emits every node record exactly at the address the layout
walk assigned to it (the trace), and ends with the writer at the position
the layout of the consumed groups predicts. -/

theorem emitEdgesT_run (d : Dawg) (counts addrs : List Nat) (cbits wbits abits : Nat) :
    ∀ (n : Nat) (front es : List EdgeStart) (cs : List Nat) (w : BitWriter)
      (iNext : Nat) (fe : Bool) (ads : List Nat) (posFin : Nat),
      (front ++ es).length ≤ n →
      (∀ e ∈ front, e.node + 1 = iNext) →
      (front = [] ∨ fe = false) →
      NodeGroups iNext cs es →
      (∀ k, k < cs.length → counts.getD (iNext + k) 0 = cs.getD k 0) →
      layoutNodes cbits wbits abits cs
        (bitLenW w + front.length * (cbits + wbits + abits)) = some (ads, posFin) →
      w.used ≤ 7 →
      ∃ w' iFin tr,
        emitEdgesT d counts addrs cbits wbits abits (front ++ es) w iNext fe =
          some (w', iFin, tr) ∧
        w'.used ≤ 7 ∧ iNext ≤ iFin ∧ iFin - iNext ≤ cs.length ∧
        tr.length = iFin - iNext ∧
        (∀ k, k < iFin - iNext → tr.getD k (0, 0) = (iNext + k, ads.getD k 0)) ∧
        (∀ x ∈ cs.drop (iFin - iNext), x = 0) ∧
        ∃ adsR, layoutNodes cbits wbits abits (cs.drop (iFin - iNext)) (bitLenW w') =
          some (adsR, posFin) ∧ ads.drop (iFin - iNext) = adsR := by
  intro n
  induction n with
  | zero =>
    intro front es cs w iNext fe ads posFin hlen hfront hfe hgroups hcounts hlayout hu
    have h1 : front = [] := by
      cases front with
      | nil => rfl
      | cons a l => simp at hlen
    have h2 : es = [] := by
      cases es with
      | nil => rfl
      | cons a l => rw [h1] at hlen; simp at hlen
    subst h1; subst h2
    refine ⟨w, iNext, [], rfl, hu, le_rfl, by simp, by simp, ?_, ?_, ads, ?_, by simp⟩
    · intro k hk; omega
    · intro x hx
      exact NodeGroups_nil_edges hgroups rfl x (by simpa using hx)
    · simpa using hlayout
  | succ n ih =>
    intro front es cs w iNext fe ads posFin hlen hfront hfe hgroups hcounts hlayout hu
    cases front with
    | cons e front' =>
      have hfe' : fe = false := by
        cases hfe with
        | inl h => cases h
        | inr h => exact h
      subst hfe'
      have hen : e.node + 1 = iNext := hfront e (by simp)
      have hne : ¬ iNext ≤ e.node := by omega
      rcases hEE : getEdge d e with ⟨ee, efin, eok⟩
      have l1 := writeBitsW_len w e.ch cbits hu
      have l2 := writeBitsW_len (writeBitsW w e.ch cbits) ee.count wbits l1.2
      have l3 := writeBitsW_len (writeBitsW (writeBitsW w e.ch cbits) ee.count wbits)
        (addrs.getD ee.node 0) abits l2.2
      have hml : (e :: front').length * (cbits + wbits + abits) =
          front'.length * (cbits + wbits + abits) + (cbits + wbits + abits) := by
        rw [List.length_cons, Nat.succ_mul]
      have hlay' : layoutNodes cbits wbits abits cs
          (bitLenW (writeBitsW (writeBitsW (writeBitsW w e.ch cbits) ee.count wbits)
            (addrs.getD ee.node 0) abits) +
           front'.length * (cbits + wbits + abits)) = some (ads, posFin) := by
        rw [show bitLenW (writeBitsW (writeBitsW (writeBitsW w e.ch cbits) ee.count wbits)
            (addrs.getD ee.node 0) abits) + front'.length * (cbits + wbits + abits) =
            bitLenW w + (e :: front').length * (cbits + wbits + abits) from by
          rw [hml]
          omega]
        exact hlayout
      obtain ⟨w', iFin, trR, hrec, hu', hgeF, hleF, htrlen, htr2, hzeroR, adsR, hlayR, hdropR⟩ :=
        ih front' es cs
          (writeBitsW (writeBitsW (writeBitsW w e.ch cbits) ee.count wbits)
            (addrs.getD ee.node 0) abits)
          iNext false ads posFin
          (by simp at hlen ⊢; omega)
          (fun x hx => hfront x (by simp [hx]))
          (Or.inr rfl) hgroups hcounts hlay' l3.2
      refine ⟨w', iFin, trR, ?_, hu', hgeF, hleF, htrlen, htr2, hzeroR, adsR, hlayR, hdropR⟩
      simp only [List.cons_append, emitEdgesT, hEE, if_neg hne, Bool.not_false,
        eq_self_iff_true, ite_true, if_true, List.append_eq]
      rw [hrec]
      simp only [Option.map_some', List.nil_append]
    | nil =>
      cases es with
      | nil =>
        refine ⟨w, iNext, [], rfl, hu, le_rfl, by simp, by simp, ?_, ?_, ads, ?_, by simp⟩
        · intro k hk; omega
        · intro x hx
          exact NodeGroups_nil_edges hgroups rfl x (by simpa using hx)
        · simpa using hlayout
      | cons e es0 =>
        obtain ⟨z, c, cs'', g, es', hcs, hzn, hc, hg, hes0, hng⟩ :=
          NodeGroups_cons_edge hgroups rfl
        subst hcs
        have hlay0 : layoutNodes cbits wbits abits
            (List.replicate z 0 ++ c :: cs'') (bitLenW w) = some (ads, posFin) := by
          simpa using hlayout
        obtain ⟨ads1, hads, hlay1⟩ := layoutNodes_replicate_zero_split cbits wbits abits
          z (c :: cs'') (bitLenW w) ads posFin hlay0
        obtain ⟨rb, ads'', hrb, hlay2, hads1⟩ := layoutNodes_cons_inv cbits wbits abits
          c cs'' (bitLenW w + 10 * z) ads1 posFin hlay1
        obtain ⟨H, hH, hrbval⟩ := recBits_hdr cbits wbits abits c rb hrb (by omega)
        have hcz : counts.getD (iNext + z) 0 = c := by
          have hx := hcounts z (by simp)
          rw [hx, getD_append_ge _ _ _ _ (by simp)]
          simp
        have hzeros : ∀ i, iNext ≤ i → i < iNext + z → counts.getD i 0 = 0 := by
          intro i hi1 hi2
          have hk := hcounts (i - iNext) (by simp; omega)
          rw [show iNext + (i - iNext) = i from by omega] at hk
          rw [hk, getD_append_lt _ _ _ _ (by simp; omega),
            replicate_zero_getD _ _ (by omega)]
        obtain ⟨wH, hwH, hbH, huH⟩ := emitHeadersT_run d counts z iNext w H hu hzeros
          (by rw [hcz]; exact hH)
        rcases hEE : getEdge d e with ⟨ee, efin, eok⟩
        have hle : iNext ≤ e.node := by omega
        have l1 := writeBitsW_len wH e.ch cbits huH
        have l2 := writeBitsW_len (writeBitsW wH e.ch cbits) (addrs.getD ee.node 0) abits l1.2
        have hrbval' : rb = 2 + H +
            (g.length * (cbits + wbits + abits) + (cbits + wbits + abits) - wbits) := by
          rw [hrbval, hc, Nat.succ_mul]
        have hlayE : layoutNodes cbits wbits abits cs''
            (bitLenW (writeBitsW (writeBitsW wH e.ch cbits) (addrs.getD ee.node 0) abits) +
             g.length * (cbits + wbits + abits)) = some (ads'', posFin) := by
          rw [show bitLenW (writeBitsW (writeBitsW wH e.ch cbits)
              (addrs.getD ee.node 0) abits) + g.length * (cbits + wbits + abits) =
              bitLenW w + 10 * z + rb from by omega]
          exact hlay2
        have hng' : NodeGroups (e.node + 1) cs'' es' := by
          rw [show e.node + 1 = iNext + z + 1 from by omega]
          exact hng
        have hcounts' : ∀ k, k < cs''.length →
            counts.getD (e.node + 1 + k) 0 = cs''.getD k 0 := by
          intro k hk
          have hx := hcounts (z + 1 + k) (by simp; omega)
          rw [show iNext + (z + 1 + k) = e.node + 1 + k from by omega] at hx
          rw [hx, getD_append_ge _ _ _ _ (by simp; omega)]
          rw [show z + 1 + k - (List.replicate z (0 : Nat)).length = k + 1 from by
            simp only [List.length_replicate]; omega]
          simp
        obtain ⟨w', iFin, trR, hrec, hu', hgeF, hleF, htrlen, htr2, hzeroR, adsR, hlayR, hdropR⟩ :=
          ih g es' cs''
            (writeBitsW (writeBitsW wH e.ch cbits) (addrs.getD ee.node 0) abits)
            (e.node + 1) false ads'' posFin
            (by simp at hlen; rw [hes0] at hlen; simp at hlen ⊢; omega)
            (fun x hx => by have := hg x hx; omega)
            (Or.inr rfl) hng' hcounts' hlayE l2.2
        have hadsk : ∀ k, k ≤ z → ads.getD k 0 = bitLenW w + 10 * k := by
          intro k hkz
          rw [hads]
          rcases Nat.lt_or_ge k z with hlt | hge
          · rw [getD_append_lt _ _ _ _ (by simp; omega), range_map_getD _ _ _ _ hlt]
          · have hkz3 : k = z := by omega
            subst hkz3
            rw [getD_append_ge _ _ _ _ (by simp), hads1]
            simp
        have hadsk2 : ∀ k', ads.getD (z + 1 + k') 0 = ads''.getD k' 0 := by
          intro k'
          rw [hads, getD_append_ge _ _ _ _ (by simp; omega), hads1]
          rw [show z + 1 + k' -
              ((List.range z).map (fun t => bitLenW w + 10 * t)).length = k' + 1 from by
            simp only [List.length_map, List.length_range]; omega]
          simp
        refine ⟨w', iFin,
          ((List.range (z + 1)).map (fun t => (iNext + t, bitLenW w + 10 * t))) ++ trR,
          ?_, hu', by omega, ?_, ?_, ?_, ?_, adsR, ?_, ?_⟩
        · simp only [List.nil_append, emitEdgesT, hEE, if_pos hle, Bool.not_true,
            Bool.false_eq_true, ite_false, if_false]
          rw [show e.node + 1 - iNext = z + 1 from by omega]
          rw [hwH]
          dsimp only
          rw [hes0, hrec]
          simp only [Option.map_some']
        · simp only [List.length_append, List.length_replicate, List.length_cons]
          omega
        · simp only [List.length_append, List.length_map, List.length_range, htrlen]
          omega
        · intro k hk
          by_cases hkz : k < z + 1
          · rw [getD_append_lt _ _ _ _ (by simp; omega), range_map_getD _ _ _ _ hkz,
              Prod.mk.injEq]
            exact ⟨rfl, (hadsk k (by omega)).symm⟩
          · have hk' : k - (z + 1) < iFin - (e.node + 1) := by omega
            rw [getD_append_ge _ _ _ _ (by simp; omega)]
            rw [show k -
                ((List.range (z + 1)).map
                  (fun t => (iNext + t, bitLenW w + 10 * t))).length = k - (z + 1) from by
              simp]
            rw [htr2 _ hk', Prod.mk.injEq]
            constructor
            · omega
            · conv_rhs => rw [show k = z + 1 + (k - (z + 1)) from by omega]
              exact (hadsk2 _).symm
        · intro x hx
          rw [show iFin - iNext = (z + 1) + (iFin - (e.node + 1)) from by omega] at hx
          rw [show (List.replicate z (0 : Nat) ++ c :: cs'') =
              (List.replicate z (0 : Nat) ++ [c]) ++ cs'' from by simp] at hx
          rw [show z + 1 + (iFin - (e.node + 1)) =
              (List.replicate z (0 : Nat) ++ [c]).length + (iFin - (e.node + 1)) from by
            simp] at hx
          rw [drop_append_len] at hx
          exact hzeroR x hx
        · rw [show iFin - iNext = (z + 1) + (iFin - (e.node + 1)) from by omega]
          rw [show (List.replicate z (0 : Nat) ++ c :: cs'') =
              (List.replicate z (0 : Nat) ++ [c]) ++ cs'' from by simp]
          rw [show z + 1 + (iFin - (e.node + 1)) =
              (List.replicate z (0 : Nat) ++ [c]).length + (iFin - (e.node + 1)) from by
            simp]
          rw [drop_append_len]
          exact hlayR
        · rw [show iFin - iNext = (z + 1) + (iFin - (e.node + 1)) from by omega]
          rw [hads, hads1]
          rw [show ((List.range z).map (fun t => bitLenW w + 10 * t)) ++
              (bitLenW w + 10 * z) :: ads'' =
              (((List.range z).map (fun t => bitLenW w + 10 * t)) ++
                [bitLenW w + 10 * z]) ++ ads'' from by simp]
          rw [show z + 1 + (iFin - (e.node + 1)) =
              (((List.range z).map (fun t => bitLenW w + 10 * t)) ++
                [bitLenW w + 10 * z]).length + (iFin - (e.node + 1)) from by simp]
          rw [drop_append_len]
          exact hdropR

/-! ## Header writer specification -/

theorem headerBits_inv (na nn ne hdr : Nat) (h : headerBits na nn ne = some hdr) :
    ∃ a b c, unsignedLength? na = some a ∧ unsignedLength? nn = some b ∧
      unsignedLength? ne = some c ∧ hdr = 32 + 8 + 8 + a * 8 + b * 8 + c * 8 := by
  unfold headerBits at h
  cases ha : unsignedLength? na with
  | none => rw [ha] at h; cases h
  | some a =>
    rw [ha] at h
    cases hb : unsignedLength? nn with
    | none => rw [hb] at h; cases h
    | some b =>
      rw [hb] at h
      cases hc : unsignedLength? ne with
      | none => rw [hc] at h; cases h
      | some c =>
        rw [hc] at h
        simp only [Option.bind_eq_bind, Option.some_bind, Option.pure_def, Option.some.injEq] at h
        exact ⟨a, b, c, rfl, rfl, rfl, h.symm⟩

theorem headerW_spec (size na nn ne cbits abits hdr : Nat)
    (h : headerBits na nn ne = some hdr) :
    ∃ w, headerW size na nn ne cbits abits = some w ∧ bitLenW w = hdr ∧
      w.used ≤ 7 := by
  obtain ⟨a, b, c, ha, hb, hc, hhdr⟩ := headerBits_inv na nn ne hdr h
  have l0 : bitLenW ({} : BitWriter) = 0 := rfl
  have hu0 : ({} : BitWriter).used ≤ 7 := by norm_num [BitWriter.used]
  have l1 := writeBitsW_len {} size 32 hu0
  have l2 := writeBitsW_len (writeBitsW {} size 32) cbits 8 l1.2
  have l3 := writeBitsW_len (writeBitsW (writeBitsW {} size 32) cbits 8) abits 8 l2.2
  obtain ⟨w4, hw4, hl4, hu4⟩ := writeUnsignedW_of_length
    (writeBitsW (writeBitsW (writeBitsW {} size 32) cbits 8) abits 8) na a l3.2 ha
  obtain ⟨w5, hw5, hl5, hu5⟩ := writeUnsignedW_of_length w4 nn b hu4 hb
  obtain ⟨w6, hw6, hl6, hu6⟩ := writeUnsignedW_of_length w5 ne c hu5 hc
  refine ⟨w6, ?_, by omega, hu6⟩
  simp only [headerW]
  rw [hw4]
  dsimp only
  rw [hw5]
  dsimp only
  exact hw6

theorem getD_drop_zero {α : Type} (l : List α) (t : Nat) (d : α) :
    (l.drop t).getD 0 d = l.getD t d := by
  rw [List.getD_eq_getElem?_getD, List.getD_eq_getElem?_getD, List.getElem?_drop]
  simp

/-- **C6.**  For every finished DAWG (serializer input: `r = nil`, edges
grouped by ascending source node, at most one trailing edge-less node), the
bit address recorded for each node during the final iteration of `Write`'s
layout walk (`addrs`) equals the bit offset at which that node's record is
actually emitted (the trace of `emitEdgesT`, including the trailing node),
the total number of bits emitted before the final flush equals the layout
walk's final `pos`, and the emitted file is exactly `(pos + 7) / 8` bytes.
Every edge record stores `addrs.getD target 0` as its target address
(definition of `emitEdgesT`), so each stored address points at the start of
its target node's record. -/
theorem C6_write_realizes_layout (d : Dawg) (counts addrs : List Nat)
    (hdr abits pos : Nat)
    (hr : d.r = none) (hf : d.finished = true)
    (hcounts : edgeCounts d.numNodes (getEdges d) = some counts)
    (hhdr : headerBits d.numAdded d.numNodes d.numEdges = some hdr)
    (hab : abitsLoop counts (bitsLen (maxCharOf (getEdges d))) (bitsLen d.numAdded)
      hdr 64 1 = some (abits, addrs, pos))
    (hng : NodeGroups 0 counts (getEdges d))
    (htrail : ∀ t, t < counts.length → (∀ x ∈ counts.drop t, x = 0) →
      counts.length ≤ t + 1) :
    ∃ wHdr w' iFin tr wF,
      headerW ((pos + 7) / 8) d.numAdded d.numNodes d.numEdges
        (bitsLen (maxCharOf (getEdges d))) abits = some wHdr ∧
      bitLenW wHdr = hdr ∧
      emitEdgesT d counts addrs (bitsLen (maxCharOf (getEdges d)))
        (bitsLen d.numAdded) abits (getEdges d) wHdr 0 false =
        some (w', iFin, tr) ∧
      tr.length = iFin ∧
      (∀ j, j < iFin → tr.getD j (0, 0) = (j, addrs.getD j 0)) ∧
      d.numNodes ≤ iFin + 1 ∧ iFin ≤ d.numNodes ∧
      (iFin < d.numNodes → bitLenW w' = addrs.getD iFin 0) ∧
      (if iFin < d.numNodes then
          writeUnsignedW (writeBitsW (writeBitsW w'
            (if alGetD d.final iFin false then 1 else 0) 1) 0 1) 0
        else some w') = some wF ∧
      bitLenW wF = pos ∧
      writeDawg d = .ok ((flushW wF).out, (pos + 7) / 8) ∧
      (flushW wF).out.length = (pos + 7) / 8 := by
  obtain ⟨hlay, hble⟩ := abitsLoop_spec 64 counts (bitsLen (maxCharOf (getEdges d)))
    (bitsLen d.numAdded) hdr 1 abits addrs pos hab
  obtain ⟨wHdr, hwHdr, hbHdr, huHdr⟩ := headerW_spec ((pos + 7) / 8) d.numAdded
    d.numNodes d.numEdges (bitsLen (maxCharOf (getEdges d))) abits hdr hhdr
  have hlay' : layoutNodes (bitsLen (maxCharOf (getEdges d))) (bitsLen d.numAdded)
      abits counts (bitLenW wHdr + ([] : List EdgeStart).length *
        (bitsLen (maxCharOf (getEdges d)) + bitsLen d.numAdded + abits)) =
      some (addrs, pos) := by
    rw [hbHdr]
    simpa using hlay
  obtain ⟨w', iFin, tr, hrun, hu', hge, hleF, htrlen, htr2, hzeroR, adsR, hlayR, hdropR⟩ :=
    emitEdgesT_run d counts addrs (bitsLen (maxCharOf (getEdges d)))
      (bitsLen d.numAdded) abits (getEdges d).length [] (getEdges d) counts wHdr
      0 false addrs pos (by simp) (by simp) (Or.inl rfl) hng
      (fun k hk => by rw [Nat.zero_add]) hlay' huHdr
  rw [Nat.sub_zero] at hleF htrlen htr2 hzeroR hlayR hdropR
  simp only [Nat.zero_add] at htr2
  rw [List.nil_append] at hrun
  have hnn : counts.length = d.numNodes := edgeCounts_length _ _ _ hcounts
  have hbound : d.numNodes ≤ iFin + 1 := by
    by_cases hlt : iFin < counts.length
    · have := htrail iFin hlt hzeroR
      omega
    · omega
  have hle2 : iFin ≤ d.numNodes := by omega
  by_cases hc : iFin < d.numNodes
  · -- one trailing edge-less node remains
    have hlen1 : (counts.drop iFin).length = 1 := by
      rw [List.length_drop]
      omega
    obtain ⟨a, hA⟩ := List.length_eq_one.mp hlen1
    have ha0 : a = 0 := hzeroR a (by rw [hA]; simp)
    subst ha0
    rw [hA, layoutNodes_zero] at hlayR
    simp only [layoutNodes] at hlayR
    injection hlayR with hlayR
    have hads1 : adsR = [bitLenW w'] := (congrArg Prod.fst hlayR).symm
    have hpos1 : pos = bitLenW w' + 10 := (congrArg Prod.snd hlayR).symm
    have hul0 : unsignedLength? 0 = some 1 := by decide
    have t1 := writeBitsW_len w' (if alGetD d.final iFin false then 1 else 0) 1 hu'
    have t2 := writeBitsW_len
      (writeBitsW w' (if alGetD d.final iFin false then 1 else 0) 1) 0 1 t1.2
    obtain ⟨wF, hwF, hlF, huF⟩ := writeUnsignedW_of_length
      (writeBitsW (writeBitsW w' (if alGetD d.final iFin false then 1 else 0) 1) 0 1)
      0 1 t2.2 hul0
    have hoff : bitLenW w' = addrs.getD iFin 0 := by
      rw [← getD_drop_zero, hdropR, hads1]
      rfl
    have hbF : bitLenW wF = pos := by omega
    refine ⟨wHdr, w', iFin, tr, wF, hwHdr, hbHdr, hrun, by omega, htr2, hbound, hle2,
      fun _ => hoff, by rw [if_pos hc]; exact hwF, hbF, ?_, ?_⟩
    · simp only [writeDawg, hr, hf, Bool.not_true, Bool.false_eq_true, ite_false,
        if_false, hcounts, hhdr, hab, hwHdr, emitEdgesT_proj, hrun, Option.map_some',
        if_pos hc, hwF]
    · rw [flushW_len wF huF, hbF]
  · -- every node was covered by the emission loop
    have hFn : iFin = d.numNodes := by omega
    have hnil : counts.drop iFin = [] := by
      apply List.drop_eq_nil_of_le
      omega
    rw [hnil] at hlayR
    simp only [layoutNodes, Option.some.injEq, Prod.mk.injEq] at hlayR
    have hbF : bitLenW w' = pos := hlayR.2
    refine ⟨wHdr, w', iFin, tr, w', hwHdr, hbHdr, hrun, by omega, htr2, hbound, hle2,
      fun h => absurd h hc, by rw [if_neg hc], hbF, ?_, ?_⟩
    · simp only [writeDawg, hr, hf, Bool.not_true, Bool.false_eq_true, ite_false,
        if_false, hcounts, hhdr, hab, hwHdr, emitEdgesT_proj, hrun, Option.map_some',
        if_neg hc]
    · rw [flushW_len w' hu', hbF]

/-- Witness for C6: the five-word example.  Its eight nodes (node 4 has no
outgoing edges, exercising the catch-up header path) are laid out at bit
addresses `[72, 115, 132, 149, 166, 176, 193, 210]` with final position 253,
and the 32-byte file realizes that layout. -/
theorem C6_write_realizes_layout_witness :
    ∃ wHdr w' iFin tr wF,
      headerW ((253 + 7) / 8) dawg5pre.numAdded dawg5pre.numNodes dawg5pre.numEdges
        (bitsLen (maxCharOf (getEdges dawg5pre))) 8 = some wHdr ∧
      bitLenW wHdr = 72 ∧
      emitEdgesT dawg5pre [2, 1, 1, 1, 0, 1, 1, 2]
        [72, 115, 132, 149, 166, 176, 193, 210]
        (bitsLen (maxCharOf (getEdges dawg5pre))) (bitsLen dawg5pre.numAdded) 8
        (getEdges dawg5pre) wHdr 0 false = some (w', iFin, tr) ∧
      tr.length = iFin ∧
      (∀ j, j < iFin → tr.getD j (0, 0) =
        (j, [72, 115, 132, 149, 166, 176, 193, 210].getD j 0)) ∧
      dawg5pre.numNodes ≤ iFin + 1 ∧ iFin ≤ dawg5pre.numNodes ∧
      (iFin < dawg5pre.numNodes →
        bitLenW w' = [72, 115, 132, 149, 166, 176, 193, 210].getD iFin 0) ∧
      (if iFin < dawg5pre.numNodes then
          writeUnsignedW (writeBitsW (writeBitsW w'
            (if alGetD dawg5pre.final iFin false then 1 else 0) 1) 0 1) 0
        else some w') = some wF ∧
      bitLenW wF = 253 ∧
      writeDawg dawg5pre = .ok ((flushW wF).out, (253 + 7) / 8) ∧
      (flushW wF).out.length = (253 + 7) / 8 :=
  C6_write_realizes_layout dawg5pre [2, 1, 1, 1, 0, 1, 1, 2]
    [72, 115, 132, 149, 166, 176, 193, 210] 72 8 253
    (by decide) (by decide) (by decide) (by decide) (by decide)
    (groupsOk_sound _ _ _ (by decide)) (by decide)

/-! ## Serialization round-trip -/

theorem finishDawg_inv (d0 dB F : Dawg) (h : finishDawg d0 = .ok (dB, F)) :
    ∃ buf, dB.r = some buf ∧ F = readDawg buf := by
  unfold finishDawg at h
  by_cases hf : d0.finished = true
  · rw [if_pos hf] at h
    cases hr0 : d0.r with
    | none => rw [hr0] at h; cases h
    | some f =>
      rw [hr0] at h
      injection h with h
      have h1 : d0 = dB := congrArg Prod.fst h
      have h2 : readDawg f = F := congrArg Prod.snd h
      exact ⟨f, by rw [← h1]; exact hr0, h2.symm⟩
  · rw [if_neg hf] at h
    dsimp only at h
    cases hw : writeDawg (serializerInput d0) with
    | error e => rw [hw] at h; cases h
    | ok p =>
      obtain ⟨buffer, size⟩ := p
      rw [hw] at h
      dsimp only at h
      injection h with h
      rw [Prod.mk.injEq] at h
      obtain ⟨h1, h2⟩ := h
      exact ⟨buffer, by rw [← h1], h2.symm⟩

/-- **C2.**  Serialization round-trip: for a finished builder (any success of
`Finish`, whose owned buffer `Write` would copy in full because the buffer is
exactly `size` bytes), writing the image and reading it back yields a finder
whose results agree with the `Finish`-returned finder on every query:
`IndexOf`, `FindAllPrefixesOf`, `AtIndex`, `Enumerate`, `NumAdded`,
`NumNodes` and `NumEdges`. -/
theorem C2_serialization_roundtrip (d0 dB F : Dawg) (buffer : List Nat)
    (hfin : finishDawg d0 = .ok (dB, F))
    (hrB : dB.r = some buffer)
    (hlen : buffer.length = dB.size) :
    writeDawg dB = .ok (buffer, buffer.length) ∧
    readDawg buffer = F ∧
    (∀ w, indexOf (readDawg buffer) w = indexOf F w) ∧
    (∀ w, findAllPrefixesOf (readDawg buffer) w = findAllPrefixesOf F w) ∧
    (∀ i, atIndex (readDawg buffer) i = atIndex F i) ∧
    (∀ (σ : Type) (fn : EnumFn σ) (s : σ),
      enumerate (readDawg buffer) fn s = enumerate F fn s) ∧
    (readDawg buffer).numAdded = F.numAdded ∧
    (readDawg buffer).numNodes = F.numNodes ∧
    (readDawg buffer).numEdges = F.numEdges := by
  obtain ⟨buf0, hrB0, hF⟩ := finishDawg_inv d0 dB F hfin
  rw [hrB0] at hrB
  injection hrB with hrB
  subst hrB
  subst hF
  refine ⟨?_, rfl, fun _ => rfl, fun _ => rfl, fun _ => rfl,
    fun _ _ _ => rfl, rfl, rfl, rfl⟩
  simp only [writeDawg, hrB0]
  rw [← hlen, List.take_length]

/-- Witness for C2: the five-word example; its 32-byte buffer is copied
verbatim by `Write`, and `Read` of that copy is the very finder `Finish`
returned. -/
theorem C2_serialization_roundtrip_witness :
    finishDawg dawg5b = .ok (dB5, fin5F) ∧
    (writeDawg dB5 = .ok (buf5, buf5.length) ∧
     readDawg buf5 = fin5F ∧
     (∀ w, indexOf (readDawg buf5) w = indexOf fin5F w) ∧
     (∀ w, findAllPrefixesOf (readDawg buf5) w = findAllPrefixesOf fin5F w) ∧
     (∀ i, atIndex (readDawg buf5) i = atIndex fin5F i) ∧
     (∀ (σ : Type) (fn : EnumFn σ) (s : σ),
       enumerate (readDawg buf5) fn s = enumerate fin5F fn s) ∧
     (readDawg buf5).numAdded = fin5F.numAdded ∧
     (readDawg buf5).numNodes = fin5F.numNodes ∧
     (readDawg buf5).numEdges = fin5F.numEdges) :=
  ⟨by decide, C2_serialization_roundtrip dawg5b dB5 fin5F buf5 (by decide)
    (by decide) (by decide)⟩

/-! ## Association list lemmas for the minimization invariant -/

theorem alGet?_set_self {α β : Type} [DecidableEq α] :
    ∀ (m : List (α × β)) (k : α) (v : β), alGet? (alSet m k v) k = some v := by
  intro m k v
  induction m with
  | nil => simp [alSet, alGet?]
  | cons p rest ih =>
    obtain ⟨k', v'⟩ := p
    by_cases h : k' = k
    · simp [alSet, alGet?, h]
    · simp only [alSet, if_neg h, alGet?]
      exact ih

theorem alGet?_set_ne {α β : Type} [DecidableEq α] :
    ∀ (m : List (α × β)) (k k' : α) (v : β), k' ≠ k →
    alGet? (alSet m k v) k' = alGet? m k' := by
  intro m k k' v hne
  induction m with
  | nil => simp [alSet, alGet?, Ne.symm hne]
  | cons p rest ih =>
    obtain ⟨k0, v0⟩ := p
    by_cases h : k0 = k
    · subst h
      simp only [alSet, if_pos rfl, alGet?]
      rw [if_neg (Ne.symm hne), if_neg (Ne.symm hne)]
    · simp only [alSet, if_neg h, alGet?]
      by_cases h2 : k0 = k'
      · rw [if_pos h2, if_pos h2]
      · rw [if_neg h2, if_neg h2]
        exact ih

theorem alGet?_del_ne {α β : Type} [DecidableEq α] :
    ∀ (m : List (α × β)) (k k' : α), k' ≠ k →
    alGet? (alDel m k) k' = alGet? m k' := by
  intro m k k' hne
  induction m with
  | nil => rfl
  | cons p rest ih =>
    obtain ⟨k0, v0⟩ := p
    by_cases h : k0 = k
    · subst h
      simp only [alDel, if_pos rfl, alGet?]
      rw [if_neg (Ne.symm hne)]
      exact ih
    · simp only [alDel, if_neg h, alGet?]
      by_cases h2 : k0 = k'
      · rw [if_pos h2, if_pos h2]
      · rw [if_neg h2, if_neg h2]
        exact ih

theorem alGet?_update_ne {α β : Type} [DecidableEq α] :
    ∀ (m : List (α × β)) (k k' : α) (f : β → β), k' ≠ k →
    alGet? (alUpdate m k f) k' = alGet? m k' := by
  intro m k k' f hne
  induction m with
  | nil => rfl
  | cons p rest ih =>
    obtain ⟨k0, v0⟩ := p
    by_cases h : k0 = k
    · subst h
      simp only [alUpdate, if_pos rfl, alGet?]
      rw [if_neg (Ne.symm hne), if_neg (Ne.symm hne)]
    · simp only [alUpdate, if_neg h, alGet?]
      by_cases h2 : k0 = k'
      · rw [if_pos h2, if_pos h2]
      · rw [if_neg h2, if_neg h2]
        exact ih

theorem alGet?_update_self {α β : Type} [DecidableEq α] :
    ∀ (m : List (α × β)) (k : α) (f : β → β) (v : β), alGet? m k = some v →
    alGet? (alUpdate m k f) k = some (f v) := by
  intro m k f v h
  induction m with
  | nil => cases h
  | cons p rest ih =>
    obtain ⟨k0, v0⟩ := p
    by_cases hk : k0 = k
    · subst hk
      simp only [alGet?, if_pos rfl] at h
      injection h with h
      subst h
      simp [alUpdate, alGet?]
    · simp only [alGet?, if_neg hk] at h
      simp only [alUpdate, if_neg hk, alGet?, if_neg hk]
      exact ih h

theorem alSet_absent {α β : Type} [DecidableEq α] :
    ∀ (m : List (α × β)) (k : α) (v : β), alGet? m k = none →
    alSet m k v = m ++ [(k, v)] := by
  intro m k v h
  induction m with
  | nil => rfl
  | cons p rest ih =>
    obtain ⟨k0, v0⟩ := p
    by_cases hk : k0 = k
    · subst hk
      simp [alGet?] at h
    · simp only [alGet?, if_neg hk] at h
      simp only [alSet, if_neg hk, List.cons_append]
      rw [ih h]

theorem alGet?_none_not_key {α β : Type} [DecidableEq α] :
    ∀ (m : List (α × β)) (k : α), alGet? m k = none →
    k ∉ m.map (fun p => p.1) := by
  intro m k h
  induction m with
  | nil => simp
  | cons p rest ih =>
    obtain ⟨k0, v0⟩ := p
    by_cases hk : k0 = k
    · subst hk; simp [alGet?] at h
    · simp only [alGet?, if_neg hk] at h
      simp only [List.map_cons, List.mem_cons]
      rintro (h1 | h2)
      · exact hk h1.symm
      · exact ih h h2

theorem alGet?_foldl_del_ne {β : Type} :
    ∀ (l : List EdgeStart) (m : List (EdgeStart × β)) (bad : Nat) (p : Nat)
      (c : Rune), p ≠ bad →
    alGet? (l.foldl (fun es e => alDel es (⟨bad, e.ch⟩ : EdgeStart)) m)
      ⟨p, c⟩ = alGet? m ⟨p, c⟩ := by
  intro l
  induction l with
  | nil => intro m bad p c h; rfl
  | cons e rest ih =>
    intro m bad p c h
    simp only [List.foldl_cons]
    rw [ih _ bad p c h]
    exact alGet?_del_ne m ⟨bad, e.ch⟩ ⟨p, c⟩ (by intro hx; injection hx; omega)

/-! ## Chain lemmas -/

theorem chainEndP_eq_getD : ∀ (uc : List UncheckedNode) (p : Nat),
    (match uc.getLast? with | none => p | some u => u.child) =
      (p :: uc.map (fun u => u.child)).getD uc.length 0 := by
  intro uc
  induction uc with
  | nil => intro p; rfl
  | cons a l ih =>
    intro p
    cases l with
    | nil => rfl
    | cons b l2 =>
      have := ih a.child
      simp only [List.getLast?_cons_cons] at this ⊢
      simpa using this

theorem chainEnd_eq_getD (uc : List UncheckedNode) :
    chainEnd uc = (rootNode :: uc.map (fun u => u.child)).getD uc.length 0 :=
  chainEndP_eq_getD uc rootNode

theorem chainEnd_append_one (us : List UncheckedNode) (u : UncheckedNode) :
    chainEnd (us ++ [u]) = u.child := by
  simp [chainEnd, List.getLast?_concat]

theorem chainFrom_parent_at : ∀ (uc : List UncheckedNode) (p : Nat),
    chainFrom p uc → ∀ i, i < uc.length →
    (uc.getD i ⟨0, 0, 0⟩).parent = (p :: uc.map (fun u => u.child)).getD i 0 := by
  intro uc
  induction uc with
  | nil => intro p _ i hi; cases hi
  | cons a l ih =>
    intro p h i hi
    cases i with
    | zero => exact h.1
    | succ i =>
      have := ih a.child h.2 i (by simpa using hi)
      simpa using this

theorem chainFrom_take : ∀ (uc : List UncheckedNode) (p : Nat) (n : Nat),
    chainFrom p uc → chainFrom p (uc.take n) := by
  intro uc
  induction uc with
  | nil => intro p n _; simp [chainFrom]
  | cons a l ih =>
    intro p n h
    cases n with
    | zero => trivial
    | succ n => exact ⟨h.1, ih a.child n h.2⟩

theorem chainFrom_last_parent : ∀ (us : List UncheckedNode) (u : UncheckedNode)
    (p : Nat), chainFrom p (us ++ [u]) →
    u.parent = (p :: us.map (fun x => x.child)).getD us.length 0 := by
  intro us
  induction us with
  | nil => intro u p h; exact h.1
  | cons a l ih =>
    intro u p h
    have := ih u a.child h.2
    simpa using this

theorem chainFrom_snoc : ∀ (us : List UncheckedNode) (u : UncheckedNode)
    (p : Nat), chainFrom p us →
    u.parent = (p :: us.map (fun x => x.child)).getD us.length 0 →
    chainFrom p (us ++ [u]) := by
  intro us
  induction us with
  | nil => intro u p _ hp; exact ⟨hp, trivial⟩
  | cons a l ih =>
    intro u p h hp
    exact ⟨h.1, ih u a.child h.2 (by simpa using hp)⟩

/-! ## Word order and name helper lemmas -/

theorem commonPrefixLen_le_left : ∀ (a b : Word), commonPrefixLen a b ≤ a.length := by
  intro a
  induction a with
  | nil => intro b; cases b <;> simp [commonPrefixLen]
  | cons x as ih =>
    intro b
    cases b with
    | nil => simp [commonPrefixLen]
    | cons y bs =>
      simp only [commonPrefixLen, List.length_cons]
      split
      · exact Nat.succ_le_succ (ih bs)
      · omega

theorem commonPrefixLen_le_right : ∀ (a b : Word), commonPrefixLen a b ≤ b.length := by
  intro a
  induction a with
  | nil => intro b; cases b <;> simp [commonPrefixLen]
  | cons x as ih =>
    intro b
    cases b with
    | nil => simp [commonPrefixLen]
    | cons y bs =>
      simp only [commonPrefixLen, List.length_cons]
      split
      · exact Nat.succ_le_succ (ih bs)
      · omega

theorem take_commonPrefixLen : ∀ (a b : Word),
    a.take (commonPrefixLen a b) = b.take (commonPrefixLen a b) := by
  intro a
  induction a with
  | nil => intro b; cases b <;> simp [commonPrefixLen]
  | cons x as ih =>
    intro b
    cases b with
    | nil => simp [commonPrefixLen]
    | cons y bs =>
      simp only [commonPrefixLen]
      split
      · rename_i hxy
        subst hxy
        simp only [List.take_succ_cons]
        rw [ih bs]
      · simp

theorem lex_branch : ∀ (a b : Word), wordLt a b = true →
    commonPrefixLen b a < b.length ∧
    (commonPrefixLen b a < a.length →
      a.getD (commonPrefixLen b a) 0 < b.getD (commonPrefixLen b a) 0) := by
  intro a
  induction a with
  | nil =>
    intro b h
    cases b with
    | nil => simp [wordLt] at h
    | cons y bs =>
      constructor
      · simp [commonPrefixLen]
      · intro h2; simp at h2
  | cons x as ih =>
    intro b h
    cases b with
    | nil => simp [wordLt] at h
    | cons y bs =>
      simp only [wordLt] at h
      by_cases hxy : x < y
      · rw [if_pos hxy] at h
        have hne : ¬ y = x := Nat.ne_of_gt hxy
        constructor
        · simp [commonPrefixLen, hne]
        · intro _
          simpa [commonPrefixLen, hne] using hxy
      · rw [if_neg hxy] at h
        by_cases hyx : y < x
        · rw [if_pos hyx] at h; cases h
        · rw [if_neg hyx] at h
          have hxy2 : y = x :=
            Nat.le_antisymm (Nat.le_of_not_lt hxy) (Nat.le_of_not_lt hyx)
          subst hxy2
          obtain ⟨h1, h2⟩ := ih bs h
          constructor
          · simpa [commonPrefixLen] using h1
          · intro hlt
            have hlt' : commonPrefixLen bs as < as.length := by
              simp only [commonPrefixLen, if_pos rfl, List.length_cons] at hlt
              exact Nat.lt_of_succ_lt_succ hlt
            have := h2 hlt'
            simp only [commonPrefixLen, if_pos rfl]
            simpa using this

theorem replaceNodeInName_last : ∀ (pre : List EdgeStart) (c0 : Nat) (ch : Rune)
    (m : Nat), (∀ e ∈ pre, e.ch ≠ ch) →
    replaceNodeInName (pre ++ [⟨c0, ch⟩]) ch m = pre ++ [⟨m, ch⟩] := by
  intro pre
  induction pre with
  | nil =>
    intro c0 ch m _
    simp [replaceNodeInName]
  | cons e rest ih =>
    intro c0 ch m h
    have he : e.ch ≠ ch := h e (by simp)
    rw [List.cons_append]
    rw [show replaceNodeInName (e :: (rest ++ [⟨c0, ch⟩])) ch m =
        if e.ch = ch then { e with node := m } :: (rest ++ [⟨c0, ch⟩])
        else e :: replaceNodeInName (rest ++ [⟨c0, ch⟩]) ch m from rfl]
    rw [if_neg he, ih c0 ch m (fun x hx => h x (by simp [hx]))]
    simp

theorem nameOf_congr (d d' : Dawg) (v : Nat)
    (h1 : alGetD d'.names v [] = alGetD d.names v [])
    (h2 : alGetD d'.final v false = alGetD d.final v false) :
    nameOf d' v = nameOf d v := by
  unfold nameOf
  rw [h1, h2]

theorem chainEnd_mem (uc : List UncheckedNode) :
    chainEnd uc ∈ rootNode :: uc.map (fun u => u.child) := by
  rw [chainEnd_eq_getD]
  have hlt : uc.length < (rootNode :: uc.map (fun u => u.child)).length := by
    simp
  rw [List.getD_eq_getElem?_getD, List.getElem?_eq_getElem hlt]
  exact List.getElem_mem _

theorem BInv_congr (d d' : Dawg) (uc : List UncheckedNode) (lw : Word)
    (h : BInv d uc lw)
    (e1 : d'.minimizedNodes = d.minimizedNodes) (e2 : d'.names = d.names)
    (e3 : d'.final = d.final) (e4 : d'.edges = d.edges)
    (e5 : d'.nextID = d.nextID) : BInv d' uc lw := by
  have hname : ∀ v, nameOf d' v = nameOf d v :=
    fun v => nameOf_congr d d' v (by rw [e2]) (by rw [e3])
  refine ⟨h.chain, h.spell, h.uclen, ?_, ?_, ?_, ?_, ?_, ?_, ?_, ?_, ?_⟩
  · intro p hp
    rw [e1] at hp
    rw [hname]
    exact h.reg p hp
  · rw [e1]; exact h.keysnd
  · rw [e1]; exact h.nodesnd
  · intro i hi e he
    rw [e1] at hi he ⊢
    exact h.mclosed i hi e (by rw [← e2]; exact he)
  · intro i hi
    rw [e1, e2]
    exact h.gstruct i hi
  · intro e he
    rw [e2] at he
    rw [e1]
    exact h.hend e he
  · intro i hi
    rw [e4]
    exact h.euc i hi
  · intro x hx
    rw [e1] at hx
    rw [e5]
    exact h.fresh x hx
  · intro k hk
    rw [e2] at hk
    rw [e5]
    exact h.nkeys k hk

/-! ## Indexing helpers for the invariant proofs -/

theorem alGet?_mem {α β : Type} [DecidableEq α] :
    ∀ (m : List (α × β)) (k : α) (v : β), alGet? m k = some v → (k, v) ∈ m := by
  intro m k v h
  induction m with
  | nil => cases h
  | cons p rest ih =>
    obtain ⟨k0, v0⟩ := p
    by_cases hk : k0 = k
    · subst hk
      simp only [alGet?, if_pos rfl] at h
      injection h with h
      subst h
      simp
    · simp only [alGet?, if_neg hk] at h
      simp [ih h]

theorem alGet?_of_getD_ne_nil {α β : Type} [DecidableEq α]
    (m : List (α × List β)) (k : α) (l : List β)
    (h : alGetD m k [] = l) (hl : l ≠ []) : alGet? m k = some l := by
  unfold alGetD at h
  cases hg : alGet? m k with
  | none => rw [hg] at h; simp at h; exact absurd h.symm (fun hx => hl hx.symm)
  | some v => rw [hg] at h; simp at h; rw [h]

theorem mem_map_getD {α β : Type} (f : α → β) (dflt : α) :
    ∀ (l : List α) (x : β), x ∈ l.map f →
    ∃ j, j < l.length ∧ f (l.getD j dflt) = x := by
  intro l
  induction l with
  | nil => intro x hx; cases hx
  | cons a rest ih =>
    intro x hx
    rcases List.mem_cons.mp hx with h | h
    · exact ⟨0, by simp, h.symm⟩
    · obtain ⟨j, hj, hf⟩ := ih x h
      exact ⟨j + 1, by simp; omega, hf⟩

theorem getD_mem {α : Type} (l : List α) (i : Nat) (d : α) (h : i < l.length) :
    l.getD i d ∈ l := by
  rw [List.getD_eq_getElem?_getD, List.getElem?_eq_getElem h]
  exact List.getElem_mem _

theorem nodup_getD_ne {α : Type} (l : List α) (d : α) (h : l.Nodup)
    (i j : Nat) (hi : i < l.length) (hj : j < l.length) (hij : i ≠ j) :
    l.getD i d ≠ l.getD j d := by
  rw [List.getD_eq_getElem?_getD, List.getD_eq_getElem?_getD,
    List.getElem?_eq_getElem hi, List.getElem?_eq_getElem hj]
  simp only [Option.getD_some]
  intro he
  exact hij (List.Nodup.getElem_inj_iff h |>.mp he)

theorem take_snoc (lw : Word) (n : Nat) (x : Rune) (l1 : List Rune)
    (hlen : l1.length = n) (h : l1 ++ [x] = lw.take (n + 1)) :
    l1 = lw.take n ∧ x = lw.getD n 0 ∧ n < lw.length := by
  have hlen2 : (lw.take (n + 1)).length = n + 1 := by
    rw [← h]
    simp [hlen]
  have hnlt : n < lw.length := by
    rw [List.length_take] at hlen2
    omega
  refine ⟨?_, ?_, hnlt⟩
  · have := congrArg (List.take n) h
    rw [List.take_take] at this
    rw [show min n (n + 1) = n from by omega] at this
    rw [← this, ← hlen, List.take_left]
  · have := congrArg (fun l => List.getD l n 0) h
    simp only at this
    rw [getD_append_ge _ _ _ _ (by omega)] at this
    rw [hlen] at this
    simp only [Nat.sub_self, List.getD_cons_zero] at this
    rw [List.getD_eq_getElem?_getD, List.getElem?_take, if_pos (by omega)] at this
    rw [← List.getD_eq_getElem?_getD] at this
    exact this

theorem nodup_snoc {α : Type} (l : List α) (a : α) (h : l.Nodup) (ha : a ∉ l) :
    (l ++ [a]).Nodup := by
  rw [List.nodup_append]
  exact ⟨h, List.nodup_singleton a, by
    intro x hx hxa
    rw [List.mem_singleton] at hxa
    subst hxa
    exact ha hx⟩

/-! ## Key-set lemmas -/

theorem alDel_keys_subset {α β : Type} [DecidableEq α] :
    ∀ (m : List (α × β)) (k k' : α), k' ∈ (alDel m k).map (fun p => p.1) →
    k' ∈ m.map (fun p => p.1) := by
  intro m k k'
  induction m with
  | nil => intro h; cases h
  | cons p rest ih =>
    intro h
    obtain ⟨k0, v0⟩ := p
    by_cases hk : k0 = k
    · subst hk
      simp only [alDel, eq_self_iff_true, if_true] at h
      exact List.mem_cons_of_mem _ (ih h)
    · simp only [alDel, if_neg hk, List.map_cons, List.mem_cons] at h
      rcases h with h | h
      · simp [h]
      · exact List.mem_cons_of_mem _ (ih h)

theorem alUpdate_keys_subset {α β : Type} [DecidableEq α] :
    ∀ (m : List (α × β)) (k : α) (f : β → β) (k' : α),
    k' ∈ (alUpdate m k f).map (fun p => p.1) → k' ∈ m.map (fun p => p.1) := by
  intro m k f k'
  induction m with
  | nil => intro h; cases h
  | cons p rest ih =>
    intro h
    obtain ⟨k0, v0⟩ := p
    by_cases hk : k0 = k
    · subst hk
      simp only [alUpdate, eq_self_iff_true, if_true, List.map_cons,
        List.mem_cons] at h
      rcases h with h | h
      · simp [h]
      · exact List.mem_cons_of_mem _ h
    · simp only [alUpdate, if_neg hk, List.map_cons, List.mem_cons] at h
      rcases h with h | h
      · simp [h]
      · exact List.mem_cons_of_mem _ (ih h)

theorem alGet?_none_of_not_key {α β : Type} [DecidableEq α] :
    ∀ (m : List (α × β)) (k : α), k ∉ m.map (fun p => p.1) →
    alGet? m k = none := by
  intro m k
  induction m with
  | nil => intro _; rfl
  | cons p rest ih =>
    intro h
    obtain ⟨k0, v0⟩ := p
    simp only [List.map_cons, List.mem_cons] at h
    push_neg at h
    simp only [alGet?]
    rw [if_neg (fun he => h.1 he.symm)]
    exact ih h.2

/-! ## Preservation of the invariant by one minimize step -/

theorem minimizeStep_inv (d : Dawg) (us : List UncheckedNode) (u : UncheckedNode)
    (lw : Word) (h : BInv d (us ++ [u]) lw) :
    BInv (minimizeStep d u) us lw := by
  have hchain_us : chainFrom rootNode us := by
    have := chainFrom_take (us ++ [u]) rootNode us.length h.chain
    rwa [List.take_left] at this
  have hpar : u.parent = chainEnd us := by
    rw [chainEnd_eq_getD]
    exact chainFrom_last_parent us u rootNode h.chain
  have hgetlast : (us ++ [u]).getD us.length ⟨0, 0, 0⟩ = u := by
    rw [getD_append_ge _ _ _ _ le_rfl]
    simp
  have hgetlt : ∀ i, i < us.length →
      (us ++ [u]).getD i ⟨0, 0, 0⟩ = us.getD i ⟨0, 0, 0⟩ :=
    fun i hi => getD_append_lt _ _ _ _ hi
  obtain ⟨pre, hGnm, hGvals, hGch⟩ := h.gstruct us.length (by simp)
  rw [hgetlast] at hGnm
  rw [hgetlast] at hGch
  have hsp := h.spell
  rw [List.map_append] at hsp
  simp only [List.map_cons, List.map_nil, List.length_append, List.length_cons,
    List.length_nil] at hsp
  obtain ⟨hspell_us, hch, hlwlen⟩ := take_snoc lw us.length u.ch
    (us.map (fun x => x.ch)) (by simp) (by simpa using hsp)
  have huclen_us : us.length ≤ lw.length := by omega
  have hnd := h.nodesnd
  rw [List.map_append] at hnd
  simp only [List.map_cons, List.map_nil] at hnd
  have hnd1 := (List.nodup_cons.mp hnd).1
  have hnd2 := (List.nodup_cons.mp hnd).2
  rw [List.nodup_append] at hnd2
  obtain ⟨hndA, hndB, hdisj⟩ := hnd2
  have hcA : u.child ∉ us.map (fun x => x.child) := by
    rw [List.nodup_append] at hndA
    obtain ⟨_, _, hd2⟩ := hndA
    intro hx
    exact hd2 hx (by simp)
  have hcB : u.child ∉ d.minimizedNodes.map (fun p => p.2) := fun hx =>
    hdisj (by simp) hx
  have hcr : u.child ≠ rootNode := by
    intro hx
    exact hnd1 (by rw [← hx]; exact List.mem_append_left _ (by simp))
  have hparent_mem : u.parent ∈ rootNode :: us.map (fun x => x.child) := by
    rw [hpar]
    exact chainEnd_mem us
  have hpB : u.parent ∉ d.minimizedNodes.map (fun p => p.2) := by
    rcases List.mem_cons.mp hparent_mem with hx | hx
    · rw [hx]
      intro hy
      exact hnd1 (List.mem_append_right _ hy)
    · intro hy
      exact hdisj (List.mem_append_left _ hx) hy
  have hpc : u.parent ≠ u.child := by
    rcases List.mem_cons.mp hparent_mem with hx | hx
    · rw [hx]; exact fun he => hcr he.symm
    · intro he; rw [he] at hx; exact hcA hx
  have hndRA : (rootNode :: us.map (fun x => x.child)).Nodup := by
    have hsub : List.Sublist (rootNode :: us.map (fun x => x.child))
        (rootNode :: ((us.map (fun x => x.child) ++ [u.child]) ++
          d.minimizedNodes.map (fun p => p.2))) := by
      refine List.Sublist.cons₂ _ ?_
      rw [List.append_assoc]
      exact List.sublist_append_left _ _
    exact List.Nodup.sublist hsub hnd
  have hparent_at : ∀ i, i < us.length → (us.getD i ⟨0, 0, 0⟩).parent =
      (rootNode :: us.map (fun x => x.child)).getD i 0 :=
    fun i hi => chainFrom_parent_at us rootNode hchain_us i hi
  have hpar_getD : u.parent = (rootNode :: us.map (fun x => x.child)).getD us.length 0 := by
    rw [hpar, chainEnd_eq_getD]
  have hpi_ne_parent : ∀ i, i < us.length →
      (us.getD i ⟨0, 0, 0⟩).parent ≠ u.parent := by
    intro i hi
    rw [hparent_at i hi, hpar_getD]
    exact nodup_getD_ne _ _ hndRA i us.length (by simp; omega) (by simp) (by omega)
  have hpi_ne_child : ∀ i, i < us.length →
      (us.getD i ⟨0, 0, 0⟩).parent ≠ u.child := by
    intro i hi
    rw [hparent_at i hi]
    intro he
    have hm : (rootNode :: us.map (fun x => x.child)).getD i 0 ∈
        rootNode :: us.map (fun x => x.child) := getD_mem _ _ _ (by simp; omega)
    rw [he] at hm
    rcases List.mem_cons.mp hm with hx | hx
    · exact hcr hx
    · exact hcA hx
  have hendc := h.hend
  rw [chainEnd_append_one] at hendc
  unfold minimizeStep
  dsimp only
  cases hreg : alGet? d.minimizedNodes (nameOf d u.child) with
  | none =>
    have key : ∀ (d' : Dawg), d'.names = d.names → d'.final = d.final →
        d'.edges = d.edges → d'.nextID = d.nextID →
        d'.minimizedNodes = d.minimizedNodes ++ [(nameOf d u.child, u.child)] →
        BInv d' us lw := by
      intro d' e2 e3 e4 e5 e1
      have hnameOf : ∀ v, nameOf d' v = nameOf d v :=
        fun v => nameOf_congr d d' v (by rw [e2]) (by rw [e3])
      refine ⟨hchain_us, hspell_us, huclen_us, ?_, ?_, ?_, ?_, ?_, ?_, ?_, ?_, ?_⟩
      · intro p hp
        rw [e1] at hp
        rw [hnameOf]
        rcases List.mem_append.mp hp with hx | hx
        · exact h.reg p hx
        · rw [List.mem_singleton] at hx
          subst hx
          rfl
      · rw [e1, List.map_append]
        exact nodup_snoc _ _ h.keysnd (by
          simpa using alGet?_none_not_key _ _ hreg)
      · rw [e1, List.map_append]
        have hperm : List.Perm (rootNode :: ((us.map (fun x => x.child) ++ [u.child]) ++
            d.minimizedNodes.map (fun p => p.2)))
            (rootNode :: (us.map (fun x => x.child) ++
              (d.minimizedNodes.map (fun p => p.2) ++ [u.child]))) := by
          refine List.Perm.cons _ ?_
          rw [List.append_assoc]
          exact List.Perm.append_left _ List.perm_append_comm
        simpa using hperm.nodup hnd
      · intro i hi e he
        rw [e1] at hi ⊢
        rw [e1, e2] at he
        simp only [List.length_append, List.length_cons, List.length_nil] at hi
        by_cases hilt : i < d.minimizedNodes.length
        · rw [getD_append_lt _ _ _ _ hilt] at he
          obtain ⟨j, hj, hv⟩ := h.mclosed i hilt e he
          exact ⟨j, hj, by rw [getD_append_lt _ _ _ _ (by omega)]; exact hv⟩
        · have hieq : i = d.minimizedNodes.length := by omega
          subst hieq
          rw [getD_append_ge _ _ _ _ le_rfl] at he
          simp only [Nat.sub_self, List.getD_cons_zero] at he
          obtain ⟨hv, _, _⟩ := hendc e he
          obtain ⟨j, hj, hjv⟩ := mem_map_getD _ ((([], false), 0) : NodeName × Nat) _ _ hv
          exact ⟨j, hj, by rw [getD_append_lt _ _ _ _ hj]; exact hjv⟩
      · intro i hi
        obtain ⟨pre', hnm', hvals', hch'⟩ := h.gstruct i (by simp; omega)
        rw [hgetlt i hi] at hnm'
        rw [hgetlt i hi] at hch'
        refine ⟨pre', by rw [e2]; exact hnm', ?_, hch'⟩
        intro e he
        rw [e1, List.map_append]
        exact List.mem_append_left _ (hvals' e he)
      · intro e he
        rw [e2, ← hpar, hGnm] at he
        rcases List.mem_append.mp he with hx | hx
        · refine ⟨?_, by omega, ?_⟩
          · rw [e1, List.map_append]
            exact List.mem_append_left _ (hGvals e hx)
          · rw [← hch]
            exact Nat.le_of_lt (hGch e hx)
        · rw [List.mem_singleton] at hx
          subst hx
          refine ⟨?_, by omega, by rw [← hch]⟩
          rw [e1, List.map_append]
          refine List.mem_append_right _ ?_
          simp
      · intro i hi
        rw [e4]
        have := h.euc i (by simp; omega)
        rwa [hgetlt i hi] at this
      · intro x hx
        rw [e1] at hx
        rw [e5]
        have hfr := h.fresh
        rw [List.map_append] at hfr
        simp only [List.map_cons, List.map_nil] at hfr
        refine hfr x ?_
        rw [List.map_append] at hx
        rcases List.mem_cons.mp hx with hx0 | hx0
        · rw [hx0]; simp
        · rcases List.mem_append.mp hx0 with hx1 | hx1
          · exact List.mem_cons_of_mem _ (List.mem_append_left _
              (List.mem_append_left _ hx1))
          · rcases List.mem_append.mp hx1 with hx2 | hx2
            · exact List.mem_cons_of_mem _ (List.mem_append_right _ hx2)
            · simp only [List.map_cons, List.map_nil, List.mem_singleton] at hx2
              rw [hx2]
              exact List.mem_cons_of_mem _ (List.mem_append_left _
                (List.mem_append_right _ (by simp)))
      · intro k hk
        rw [e2] at hk
        rw [e5]
        exact h.nkeys k hk
    exact key _ rfl rfl rfl rfl (by
      dsimp only
      exact alSet_absent _ _ _ hreg)
  | some node =>
    have hnodeM : (nameOf d u.child, node) ∈ d.minimizedNodes := alGet?_mem _ _ _ hreg
    have hnode_mem : node ∈ d.minimizedNodes.map (fun p => p.2) :=
      List.mem_map_of_mem _ hnodeM
    have holdc : (alGetD d.edges ⟨u.parent, u.ch⟩ ⟨0, 0⟩).node = u.child := by
      have := h.euc us.length (by simp)
      rwa [hgetlast] at this
    have key2 : ∀ (d' : Dawg),
        d'.names = alUpdate (alDel d.names u.child) u.parent
          (fun l => replaceNodeInName l u.ch node) →
        d'.final = alDel d.final u.child →
        (∀ p c, p ≠ u.child → p ≠ u.parent →
          alGet? d'.edges (⟨p, c⟩ : EdgeStart) = alGet? d.edges ⟨p, c⟩) →
        d'.nextID = d.nextID →
        d'.minimizedNodes = d.minimizedNodes →
        BInv d' us lw := by
      intro d' e2 e3 e4 e5 e1
      have hnamesv : ∀ v, v ≠ u.child → v ≠ u.parent →
          alGetD d'.names v [] = alGetD d.names v [] := by
        intro v h1 h2
        rw [e2]
        unfold alGetD
        rw [alGet?_update_ne _ _ _ _ h2, alGet?_del_ne _ _ _ h1]
      have hnamesp : alGetD d'.names u.parent [] = pre ++ [⟨node, u.ch⟩] := by
        rw [e2]
        have hpres : alGet? (alDel d.names u.child) u.parent =
            some (pre ++ [⟨u.child, u.ch⟩]) := by
          rw [alGet?_del_ne _ _ _ hpc]
          exact alGet?_of_getD_ne_nil _ _ _ hGnm (by simp)
        unfold alGetD
        rw [alGet?_update_self _ _ _ _ hpres]
        simp only [Option.getD_some]
        exact replaceNodeInName_last pre u.child u.ch node
          (fun e he => Nat.ne_of_lt (hGch e he))
      have hfinv : ∀ v, v ≠ u.child →
          alGetD d'.final v false = alGetD d.final v false := by
        intro v h1
        rw [e3]
        unfold alGetD
        rw [alGet?_del_ne _ _ _ h1]
      have hnameOfv : ∀ v, v ∈ d.minimizedNodes.map (fun p => p.2) →
          nameOf d' v = nameOf d v := by
        intro v hv
        refine nameOf_congr d d' v ?_ ?_
        · exact hnamesv v (fun he => hcB (he ▸ hv)) (fun he => hpB (he ▸ hv))
        · exact hfinv v (fun he => hcB (he ▸ hv))
      refine ⟨hchain_us, hspell_us, huclen_us, ?_, ?_, ?_, ?_, ?_, ?_, ?_, ?_, ?_⟩
      · intro p hp
        rw [e1] at hp
        rw [hnameOfv p.2 (List.mem_map_of_mem _ hp)]
        exact h.reg p hp
      · rw [e1]; exact h.keysnd
      · rw [e1]
        have hsub : List.Sublist (rootNode :: (us.map (fun x => x.child) ++
            d.minimizedNodes.map (fun p => p.2)))
            (rootNode :: ((us.map (fun x => x.child) ++ [u.child]) ++
              d.minimizedNodes.map (fun p => p.2))) := by
          refine List.Sublist.cons₂ _ ?_
          rw [List.append_assoc]
          refine List.Sublist.append_left ?_ _
          exact List.sublist_cons_self _ _
        exact List.Nodup.sublist hsub hnd
      · intro i hi e he
        rw [e1] at hi ⊢
        have hv : (d.minimizedNodes.getD i (([], false), 0)).2 ∈
            d.minimizedNodes.map (fun p => p.2) :=
          List.mem_map_of_mem _ (getD_mem _ _ _ hi)
        rw [e1] at he
        rw [hnamesv _ (fun he2 => hcB (he2 ▸ hv)) (fun he2 => hpB (he2 ▸ hv))] at he
        exact h.mclosed i hi e he
      · intro i hi
        obtain ⟨pre', hnm', hvals', hch'⟩ := h.gstruct i (by simp; omega)
        rw [hgetlt i hi] at hnm'
        rw [hgetlt i hi] at hch'
        refine ⟨pre', ?_, by rw [e1]; exact hvals', hch'⟩
        rw [hnamesv _ (hpi_ne_child i hi) (hpi_ne_parent i hi)]
        exact hnm'
      · intro e he
        rw [← hpar, hnamesp] at he
        rw [e1]
        rcases List.mem_append.mp he with hx | hx
        · exact ⟨hGvals e hx, by omega, by rw [← hch]; exact Nat.le_of_lt (hGch e hx)⟩
        · rw [List.mem_singleton] at hx
          subst hx
          exact ⟨hnode_mem, by omega, by rw [← hch]⟩
      · intro i hi
        have hold := h.euc i (by simp; omega)
        rw [hgetlt i hi] at hold
        unfold alGetD
        rw [e4 _ _ (hpi_ne_child i hi) (hpi_ne_parent i hi)]
        exact hold
      · intro x hx
        rw [e1] at hx
        rw [e5]
        have hfr := h.fresh
        rw [List.map_append] at hfr
        simp only [List.map_cons, List.map_nil] at hfr
        refine hfr x ?_
        rcases List.mem_cons.mp hx with hx0 | hx0
        · rw [hx0]; simp
        · rcases List.mem_append.mp hx0 with hx1 | hx1
          · exact List.mem_cons_of_mem _ (List.mem_append_left _
              (List.mem_append_left _ hx1))
          · exact List.mem_cons_of_mem _ (List.mem_append_right _ hx1)
      · intro k hk
        rw [e2] at hk
        rw [e5]
        exact h.nkeys k (alDel_keys_subset _ _ _ (alUpdate_keys_subset _ _ _ _ hk))
    refine key2 _ ?_ ?_ ?_ ?_ ?_
    · unfold replaceChild
      dsimp only
      rw [holdc]
    · unfold replaceChild
      dsimp only
      rw [holdc]
    · intro p c hp1 hp2
      show alGet? (alSet ((alGetD d.names
          (alGetD d.edges ⟨u.parent, u.ch⟩ ⟨0, 0⟩).node []).foldl
            (fun es e => alDel es ⟨(alGetD d.edges ⟨u.parent, u.ch⟩ ⟨0, 0⟩).node, e.ch⟩)
            d.edges) ⟨u.parent, u.ch⟩ ⟨node, 0⟩) ⟨p, c⟩ = alGet? d.edges ⟨p, c⟩
      rw [holdc]
      rw [alGet?_set_ne _ _ _ _ (by intro he; injection he with h1 h2; exact hp2 h1)]
      exact alGet?_foldl_del_ne _ _ _ _ _ hp1
    · rfl
    · rfl

/-! ## The minimize loop preserves the invariant -/

theorem minimizeStep_fields (d : Dawg) (u : UncheckedNode) :
    (minimizeStep d u).lastWord = d.lastWord ∧
    (minimizeStep d u).numAdded = d.numAdded ∧
    (minimizeStep d u).nextID = d.nextID ∧
    (minimizeStep d u).uncheckedNodes = d.uncheckedNodes ∧
    (minimizeStep d u).finished = d.finished := by
  unfold minimizeStep
  dsimp only
  cases alGet? d.minimizedNodes (nameOf d u.child) with
  | none => exact ⟨rfl, rfl, rfl, rfl, rfl⟩
  | some node => exact ⟨rfl, rfl, rfl, rfl, rfl⟩

theorem minimizeLoop_fields : ∀ (rs : List UncheckedNode) (d : Dawg),
    (minimizeLoop d rs).lastWord = d.lastWord ∧
    (minimizeLoop d rs).numAdded = d.numAdded ∧
    (minimizeLoop d rs).nextID = d.nextID ∧
    (minimizeLoop d rs).uncheckedNodes = d.uncheckedNodes ∧
    (minimizeLoop d rs).finished = d.finished := by
  intro rs
  induction rs with
  | nil => intro d; exact ⟨rfl, rfl, rfl, rfl, rfl⟩
  | cons u rest ih =>
    intro d
    have h1 := ih (minimizeStep d u)
    have h2 := minimizeStep_fields d u
    exact ⟨h1.1.trans h2.1, h1.2.1.trans h2.2.1, h1.2.2.1.trans h2.2.2.1,
      h1.2.2.2.1.trans h2.2.2.2.1, h1.2.2.2.2.trans h2.2.2.2.2⟩

theorem minimizeLoop_inv : ∀ (rs us : List UncheckedNode) (d : Dawg) (lw : Word),
    BInv d (us ++ rs.reverse) lw → BInv (minimizeLoop d rs) us lw := by
  intro rs
  induction rs with
  | nil => intro us d lw h; simpa using h
  | cons u rest ih =>
    intro us d lw h
    show BInv (minimizeLoop (minimizeStep d u) rest) us lw
    refine ih us (minimizeStep d u) lw ?_
    have hstep := minimizeStep_inv d (us ++ rest.reverse) u lw (by
      rw [List.append_assoc]
      simpa using h)
    exact hstep

theorem minimize_inv (d : Dawg) (downTo : Nat) (lw : Word)
    (h : BInv d d.uncheckedNodes lw) :
    BInv (minimize d downTo) (d.uncheckedNodes.take downTo) lw ∧
    (minimize d downTo).uncheckedNodes = d.uncheckedNodes.take downTo ∧
    (minimize d downTo).lastWord = d.lastWord ∧
    (minimize d downTo).numAdded = d.numAdded ∧
    (minimize d downTo).nextID = d.nextID ∧
    (minimize d downTo).finished = d.finished := by
  have hloop := minimizeLoop_inv ((d.uncheckedNodes.drop downTo).reverse)
    (d.uncheckedNodes.take downTo) d lw (by
      rw [List.reverse_reverse, List.take_append_drop]
      exact h)
  have hf := minimizeLoop_fields ((d.uncheckedNodes.drop downTo).reverse) d
  refine ⟨?_, rfl, hf.1, hf.2.1, hf.2.2.1, hf.2.2.2.2⟩
  exact BInv_congr _ _ _ _ hloop rfl rfl rfl rfl rfl

/-! ## The suffix-insertion loop preserves the invariant -/

theorem drop_eq_cons (w : Word) (n : Nat) (x : Rune) (r : List Rune)
    (h : w.drop n = x :: r) :
    x = w.getD n 0 ∧ r = w.drop (n + 1) ∧ n < w.length := by
  have hnlt : n < w.length := by
    by_contra hge
    rw [List.drop_eq_nil_of_le (by omega)] at h
    cases h
  refine ⟨?_, ?_, hnlt⟩
  · have := getD_drop_zero w n (0 : Rune)
    rw [h] at this
    simpa using this
  · have := congrArg List.tail h
    simp only [List.tail_cons] at this
    rw [← this, ← List.drop_one, List.drop_drop]

theorem take_succ_getD (w : Word) (n : Nat) (h : n < w.length) :
    w.take (n + 1) = w.take n ++ [w.getD n 0] := by
  rw [List.take_succ, List.getElem?_eq_getElem h]
  rw [List.getD_eq_getElem?_getD, List.getElem?_eq_getElem h]
  rfl

theorem alSet_keys_subset {α β : Type} [DecidableEq α] :
    ∀ (m : List (α × β)) (k : α) (v : β) (k' : α),
    k' ∈ (alSet m k v).map (fun p => p.1) → k' ∈ m.map (fun p => p.1) ∨ k' = k := by
  intro m k v k'
  induction m with
  | nil =>
    intro h
    simp only [alSet, List.map_cons, List.map_nil, List.mem_singleton] at h
    exact Or.inr h
  | cons p rest ih =>
    intro h
    obtain ⟨k0, v0⟩ := p
    by_cases hk : k0 = k
    · subst hk
      simp only [alSet, eq_self_iff_true, if_true, List.map_cons,
        List.mem_cons] at h
      rcases h with h | h
      · exact Or.inr h
      · exact Or.inl (List.mem_cons_of_mem _ h)
    · simp only [alSet, if_neg hk, List.map_cons, List.mem_cons] at h
      rcases h with h | h
      · exact Or.inl (by simp [h])
      · rcases ih h with h2 | h2
        · exact Or.inl (List.mem_cons_of_mem _ h2)
        · exact Or.inr h2

theorem addSuffix_inv : ∀ (letters : List Rune) (d : Dawg) (w : Word),
    BInv d d.uncheckedNodes w →
    letters = w.drop d.uncheckedNodes.length →
    (∀ e ∈ alGetD d.names (chainEnd d.uncheckedNodes) [],
      e.ch < w.getD d.uncheckedNodes.length 0) →
    BInv (addSuffix d (chainEnd d.uncheckedNodes) letters).1
      (addSuffix d (chainEnd d.uncheckedNodes) letters).1.uncheckedNodes w ∧
    (addSuffix d (chainEnd d.uncheckedNodes) letters).1.uncheckedNodes.length =
      d.uncheckedNodes.length + letters.length ∧
    (addSuffix d (chainEnd d.uncheckedNodes) letters).2 =
      chainEnd (addSuffix d (chainEnd d.uncheckedNodes) letters).1.uncheckedNodes ∧
    (addSuffix d (chainEnd d.uncheckedNodes) letters).1.numAdded = d.numAdded := by
  intro letters
  induction letters with
  | nil =>
    intro d w hInv _ _
    exact ⟨hInv, by simp [addSuffix], rfl, rfl⟩
  | cons letter rest ih =>
    intro d w hInv hdrop hstrict
    obtain ⟨hx, hr, hnlt⟩ := drop_eq_cons w d.uncheckedNodes.length letter rest
      hdrop.symm
    -- distinctness and freshness facts about the current state
    have hnd := hInv.nodesnd
    have hndRA : (rootNode :: d.uncheckedNodes.map (fun x => x.child)).Nodup := by
      have hsub : List.Sublist (rootNode :: d.uncheckedNodes.map (fun x => x.child))
          (rootNode :: (d.uncheckedNodes.map (fun x => x.child) ++
            d.minimizedNodes.map (fun p => p.2))) := by
        refine List.Sublist.cons₂ _ ?_
        exact List.sublist_append_left _ _
      exact List.Nodup.sublist hsub hnd
    have hn0mem : chainEnd d.uncheckedNodes ∈
        rootNode :: d.uncheckedNodes.map (fun x => x.child) := chainEnd_mem _
    have hn0fresh : chainEnd d.uncheckedNodes < d.nextID := by
      refine hInv.fresh _ ?_
      rcases List.mem_cons.mp hn0mem with hx0 | hx0
      · rw [hx0]; simp
      · exact List.mem_cons_of_mem _ (List.mem_append_left _ hx0)
    have hnames_c : alGetD d.names d.nextID [] = [] := by
      unfold alGetD
      rw [alGet?_none_of_not_key _ _ (fun hk => Nat.lt_irrefl _ (hInv.nkeys _ hk))]
      rfl
    have hparent_at : ∀ i, i < d.uncheckedNodes.length →
        (d.uncheckedNodes.getD i ⟨0, 0, 0⟩).parent =
        (rootNode :: d.uncheckedNodes.map (fun x => x.child)).getD i 0 :=
      fun i hi => chainFrom_parent_at _ rootNode hInv.chain i hi
    have hn0_getD : chainEnd d.uncheckedNodes =
        (rootNode :: d.uncheckedNodes.map (fun x => x.child)).getD
          d.uncheckedNodes.length 0 := chainEnd_eq_getD _
    have hpi_ne_n0 : ∀ i, i < d.uncheckedNodes.length →
        (d.uncheckedNodes.getD i ⟨0, 0, 0⟩).parent ≠ chainEnd d.uncheckedNodes := by
      intro i hi
      rw [hparent_at i hi, hn0_getD]
      exact nodup_getD_ne _ _ hndRA i d.uncheckedNodes.length
        (by simp; omega) (by simp) (by omega)
    have hBInv3 : ∀ (d' : Dawg),
        d'.names = alSet d.names (chainEnd d.uncheckedNodes)
          (alGetD d.names (chainEnd d.uncheckedNodes) [] ++
            [⟨d.nextID, letter⟩]) →
        d'.final = d.final →
        d'.edges = alSet d.edges ⟨chainEnd d.uncheckedNodes, letter⟩
          ⟨d.nextID, 0⟩ →
        d'.nextID = d.nextID + 1 →
        d'.minimizedNodes = d.minimizedNodes →
        BInv d' (d.uncheckedNodes ++
          [⟨chainEnd d.uncheckedNodes, letter, d.nextID⟩]) w := by
      intro d' e2 e3 e4 e5 e1
      have hn0nv : chainEnd d.uncheckedNodes ∉
          d.minimizedNodes.map (fun p => p.2) := by
        intro hv
        rcases List.mem_cons.mp hn0mem with hx0 | hx0
        · exact (List.nodup_cons.mp hnd).1 (by
            rw [hx0] at hv
            exact List.mem_append_right _ hv)
        · have hnd2 := (List.nodup_cons.mp hnd).2
          rw [List.nodup_append] at hnd2
          exact hnd2.2.2 hx0 hv
      have hnamesv : ∀ v, v ≠ chainEnd d.uncheckedNodes →
          alGetD d'.names v [] = alGetD d.names v [] := by
        intro v hv
        rw [e2]
        unfold alGetD
        rw [alGet?_set_ne _ _ _ _ hv]
      have hnamesn0 : alGetD d'.names (chainEnd d.uncheckedNodes) [] =
          alGetD d.names (chainEnd d.uncheckedNodes) [] ++
            [⟨d.nextID, letter⟩] := by
        rw [e2]
        unfold alGetD
        rw [alGet?_set_self]
        rfl
      refine ⟨?_, ?_, ?_, ?_, ?_, ?_, ?_, ?_, ?_, ?_, ?_, ?_⟩
      · exact chainFrom_snoc _ _ _ hInv.chain (by rw [← hn0_getD])
      · rw [List.map_append]
        simp only [List.map_cons, List.map_nil]
        rw [hInv.spell, List.length_append]
        simp only [List.length_cons, List.length_nil]
        rw [take_succ_getD w _ hnlt, hx]
      · simp only [List.length_append, List.length_cons, List.length_nil]
        omega
      · intro p hp
        rw [e1] at hp
        have hstable : nameOf d' p.2 = nameOf d p.2 := by
          refine nameOf_congr _ _ _ ?_ (by rw [e3])
          exact hnamesv p.2 (fun he => hn0nv (he ▸ List.mem_map_of_mem _ hp))
        rw [hstable]
        exact hInv.reg p hp
      · rw [e1]; exact hInv.keysnd
      · rw [e1, List.map_append]
        simp only [List.map_cons, List.map_nil]
        rw [List.nodup_cons]
        have hnd2 := (List.nodup_cons.mp hnd).2
        rw [List.nodup_append] at hnd2
        obtain ⟨hA, hB, hAB⟩ := hnd2
        have hroot := (List.nodup_cons.mp hnd).1
        have hcfresh : ∀ x ∈ rootNode ::
            (d.uncheckedNodes.map (fun u => u.child) ++
              d.minimizedNodes.map (fun p => p.2)), x < d.nextID := hInv.fresh
        constructor
        · intro hmem
          rcases List.mem_append.mp hmem with hm | hm
          · rcases List.mem_append.mp hm with hm2 | hm2
            · exact hroot (List.mem_append_left _ hm2)
            · rw [List.mem_singleton] at hm2
              have := hcfresh rootNode (by simp)
              omega
          · exact hroot (List.mem_append_right _ hm)
        · rw [List.nodup_append]
          refine ⟨?_, hB, ?_⟩
          · refine nodup_snoc _ _ hA ?_
            intro hmem
            have := hcfresh d.nextID
              (List.mem_cons_of_mem _ (List.mem_append_left _ hmem))
            omega
          · intro x hx1 hx2
            rcases List.mem_append.mp hx1 with hm | hm
            · exact hAB hm hx2
            · rw [List.mem_singleton] at hm
              have := hcfresh x (List.mem_cons_of_mem _ (List.mem_append_right _ hx2))
              omega
      · intro i hi e he
        rw [e1] at hi ⊢
        have hvm : (d.minimizedNodes.getD i (([], false), 0)).2 ∈
            d.minimizedNodes.map (fun p => p.2) :=
          List.mem_map_of_mem _ (getD_mem _ _ _ hi)
        rw [e1] at he
        rw [hnamesv _ (fun he2 => hn0nv (he2 ▸ hvm))] at he
        exact hInv.mclosed i hi e he
      · intro i hi
        simp only [List.length_append, List.length_cons, List.length_nil] at hi
        by_cases hilt : i < d.uncheckedNodes.length
        · obtain ⟨pre', hnm', hvals', hch'⟩ := hInv.gstruct i hilt
          rw [getD_append_lt _ _ _ _ hilt]
          refine ⟨pre', ?_, by rw [e1]; exact hvals', hch'⟩
          rw [hnamesv _ (hpi_ne_n0 i hilt)]
          exact hnm'
        · have hieq : i = d.uncheckedNodes.length := by omega
          subst hieq
          rw [getD_append_ge _ _ _ _ le_rfl]
          simp only [Nat.sub_self, List.getD_cons_zero]
          refine ⟨alGetD d.names (chainEnd d.uncheckedNodes) [], hnamesn0, ?_, ?_⟩
          · intro e he
            rw [e1]
            exact (hInv.hend e he).1
          · intro e he
            have := hstrict e he
            rw [hx]
            exact this
      · intro e he
        rw [chainEnd_append_one] at he
        rw [show ((⟨chainEnd d.uncheckedNodes, letter, d.nextID⟩ :
            UncheckedNode)).child = d.nextID from rfl] at he
        rw [hnamesv _ (by omega)] at he
        rw [hnames_c] at he
        cases he
      · intro i hi
        simp only [List.length_append, List.length_cons, List.length_nil] at hi
        rw [e4]
        by_cases hilt : i < d.uncheckedNodes.length
        · rw [getD_append_lt _ _ _ _ hilt]
          unfold alGetD
          rw [alGet?_set_ne _ _ _ _ (by
            intro he
            injection he with he1 he2
            exact hpi_ne_n0 i hilt he1)]
          exact hInv.euc i hilt
        · have hieq : i = d.uncheckedNodes.length := by omega
          subst hieq
          rw [getD_append_ge _ _ _ _ le_rfl]
          simp only [Nat.sub_self, List.getD_cons_zero]
          unfold alGetD
          rw [alGet?_set_self]
          rfl
      · intro x hxm
        rw [e5]
        rcases List.mem_cons.mp hxm with hx0 | hx0
        · rw [hx0]
          have := hInv.fresh rootNode (by simp)
          omega
        · rcases List.mem_append.mp hx0 with hx1 | hx1
          · rw [List.map_append] at hx1
            rcases List.mem_append.mp hx1 with hx2 | hx2
            · have := hInv.fresh x (List.mem_cons_of_mem _ (List.mem_append_left _ hx2))
              omega
            · simp only [List.map_cons, List.map_nil, List.mem_singleton] at hx2
              omega
          · rw [e1] at hx1
            have := hInv.fresh x (List.mem_cons_of_mem _ (List.mem_append_right _ hx1))
            omega
      · intro k hk
        rw [e5]
        rw [e2] at hk
        rcases alSet_keys_subset _ _ _ _ hk with h2 | h2
        · have := hInv.nkeys k h2
          omega
        · omega
    have hstep : addSuffix d (chainEnd d.uncheckedNodes) (letter :: rest) =
        addSuffix
          { addChild { d with nextID := d.nextID + 1 }
              (chainEnd d.uncheckedNodes) letter d.nextID with
            uncheckedNodes := d.uncheckedNodes ++
              [⟨chainEnd d.uncheckedNodes, letter, d.nextID⟩] }
          d.nextID rest := rfl
    set d3 : Dawg := { addChild { d with nextID := d.nextID + 1 }
        (chainEnd d.uncheckedNodes) letter d.nextID with
      uncheckedNodes := d.uncheckedNodes ++
        [⟨chainEnd d.uncheckedNodes, letter, d.nextID⟩] } with hd3
    have h3uc : d3.uncheckedNodes = d.uncheckedNodes ++
        [⟨chainEnd d.uncheckedNodes, letter, d.nextID⟩] := rfl
    have hInv3 : BInv d3 d3.uncheckedNodes w := by
      rw [h3uc]
      exact hBInv3 d3 rfl rfl rfl rfl rfl
    have hce3 : chainEnd d3.uncheckedNodes = d.nextID := by
      rw [h3uc, chainEnd_append_one]
    have hih := ih d3 w hInv3 (by
        rw [h3uc]
        simp only [List.length_append, List.length_cons, List.length_nil]
        exact hr) (by
        intro e he
        rw [hce3] at he
        have hnames3c : alGetD d3.names d.nextID [] = [] := by
          show alGetD (alSet d.names (chainEnd d.uncheckedNodes)
            (alGetD d.names (chainEnd d.uncheckedNodes) [] ++
              [⟨d.nextID, letter⟩])) d.nextID [] = []
          unfold alGetD
          rw [alGet?_set_ne _ _ _ _ (by omega)]
          rw [alGet?_none_of_not_key _ _
            (fun hk => Nat.lt_irrefl _ (hInv.nkeys _ hk))]
          rfl
        rw [hnames3c] at he
        cases he)
    rw [hstep, ← hce3]
    refine ⟨hih.1, ?_, hih.2.2.1, hih.2.2.2⟩
    rw [hih.2.1, h3uc]
    simp only [List.length_append, List.length_cons, List.length_nil]
    omega

/-! ## `Add` preserves the invariant -/

theorem setFinal_fields (d : Dawg) (x : Nat) :
    (setFinal d x).names = d.names ∧ (setFinal d x).edges = d.edges ∧
    (setFinal d x).nextID = d.nextID ∧
    (setFinal d x).minimizedNodes = d.minimizedNodes ∧
    (setFinal d x).final = alSet d.final x true ∧
    (setFinal d x).uncheckedNodes = d.uncheckedNodes ∧
    (setFinal d x).numAdded = d.numAdded := by
  unfold setFinal
  dsimp only
  split
  · exact ⟨rfl, rfl, rfl, rfl, rfl, rfl, rfl⟩
  · exact ⟨rfl, rfl, rfl, rfl, rfl, rfl, rfl⟩

theorem setFinal_BInv (d : Dawg) (uc : List UncheckedNode) (w : Word) (x : Nat)
    (h : BInv d uc w) (hx : x ∉ d.minimizedNodes.map (fun p => p.2)) :
    BInv (setFinal d x) uc w := by
  obtain ⟨f1, f2, f3, f4, f5, f6, f7⟩ := setFinal_fields d x
  have hnames : ∀ v, alGetD (setFinal d x).names v [] = alGetD d.names v [] := by
    intro v
    rw [f1]
  refine ⟨h.chain, h.spell, h.uclen, ?_, ?_, ?_, ?_, ?_, ?_, ?_, ?_, ?_⟩
  · intro p hp
    rw [f4] at hp
    have hne : p.2 ≠ x := fun he => hx (he ▸ List.mem_map_of_mem _ hp)
    have : nameOf (setFinal d x) p.2 = nameOf d p.2 := by
      refine nameOf_congr _ _ _ (hnames p.2) ?_
      rw [f5]
      unfold alGetD
      rw [alGet?_set_ne _ _ _ _ hne]
    rw [this]
    exact h.reg p hp
  · rw [f4]; exact h.keysnd
  · rw [f4]; exact h.nodesnd
  · intro i hi e he
    rw [f4] at hi ⊢
    rw [f4, hnames] at he
    exact h.mclosed i hi e he
  · intro i hi
    obtain ⟨pre, h1, h2, h3⟩ := h.gstruct i hi
    exact ⟨pre, by rw [hnames]; exact h1, by rw [f4]; exact h2, h3⟩
  · intro e he
    rw [hnames] at he
    rw [f4]
    exact h.hend e he
  · intro i hi
    rw [f2]
    exact h.euc i hi
  · intro y hy
    rw [f4] at hy
    rw [f3]
    exact h.fresh y hy
  · intro k hk
    rw [f1] at hk
    rw [f3]
    exact h.nkeys k hk

theorem add_inv (d : Dawg) (w : Word) (d' : Dawg)
    (hInv : BInv d d.uncheckedNodes d.lastWord)
    (h0 : d.numAdded = 0 → d.lastWord = [] ∧ d.uncheckedNodes = [])
    (hfull : d.uncheckedNodes.length = d.lastWord.length)
    (hadd : add d w = .ok d') :
    BInv d' d'.uncheckedNodes d'.lastWord ∧
    (d'.numAdded = 0 → d'.lastWord = [] ∧ d'.uncheckedNodes = []) ∧
    d'.uncheckedNodes.length = d'.lastWord.length := by
  unfold add at hadd
  by_cases hg1 : (d.numAdded > 0 && wordLe w d.lastWord) = true
  · rw [if_pos hg1] at hadd; cases hadd
  rw [if_neg hg1] at hadd
  by_cases hg2 : d.finished = true
  · rw [if_pos hg2] at hadd; cases hadd
  rw [if_neg hg2] at hadd
  dsimp only at hadd
  -- abbreviations matching the code
  have hcple : commonPrefixLen w d.lastWord ≤ d.lastWord.length :=
    commonPrefixLen_le_right w d.lastWord
  have hcplew : commonPrefixLen w d.lastWord ≤ w.length :=
    commonPrefixLen_le_left w d.lastWord
  have htake_eq : w.take (commonPrefixLen w d.lastWord) =
      d.lastWord.take (commonPrefixLen w d.lastWord) :=
    take_commonPrefixLen w d.lastWord
  obtain ⟨hmB, hmUC, hmLW, hmNA, hmNID, hmFin⟩ :=
    minimize_inv d (commonPrefixLen w d.lastWord) d.lastWord hInv
  have htlen : (d.uncheckedNodes.take (commonPrefixLen w d.lastWord)).length =
      commonPrefixLen w d.lastWord := by
    rw [List.length_take]
    omega
  -- the strict branch bound at the junction node
  have hendw : ∀ e ∈ alGetD (minimize d (commonPrefixLen w d.lastWord)).names
      (chainEnd (d.uncheckedNodes.take (commonPrefixLen w d.lastWord))) [],
      e.node ∈ (minimize d (commonPrefixLen w d.lastWord)).minimizedNodes.map
        (fun p => p.2) ∧
      commonPrefixLen w d.lastWord < w.length ∧
      e.ch < w.getD (commonPrefixLen w d.lastWord) 0 := by
    intro e he
    have hold := hmB.hend e he
    rw [htlen] at hold
    by_cases hna : d.numAdded = 0
    · obtain ⟨hlw0, _⟩ := h0 hna
      rw [hlw0] at hold
      exact absurd hold.2.1 (by simp)
    · have hlt : wordLt d.lastWord w = true := by
        have : ¬ (d.numAdded > 0) ∨ wordLe w d.lastWord = false := by
          by_cases ha : d.numAdded > 0
          · right
            cases hb : wordLe w d.lastWord with
            | false => rfl
            | true => exact absurd (by simp [ha, hb]) hg1
          · left; exact ha
        rcases this with ha | hb
        · omega
        · unfold wordLe at hb
          simpa using hb
      obtain ⟨hb1, hb2⟩ := lex_branch d.lastWord w hlt
      refine ⟨hold.1, hb1, ?_⟩
      exact Nat.lt_of_le_of_lt hold.2.2 (hb2 hold.2.1)
  -- the minimize result, re-based to the new word
  have hmBw : BInv (minimize d (commonPrefixLen w d.lastWord))
      (minimize d (commonPrefixLen w d.lastWord)).uncheckedNodes w := by
    rw [hmUC]
    refine ⟨hmB.chain, ?_, ?_, hmB.reg, hmB.keysnd, hmB.nodesnd, hmB.mclosed,
      hmB.gstruct, ?_, hmB.euc, hmB.fresh, hmB.nkeys⟩
    · rw [hmB.spell, htlen, htake_eq]
    · rw [htlen]
      exact hcplew
    · intro e he
      obtain ⟨h1, h2, h3⟩ := hendw e he
      rw [htlen]
      exact ⟨h1, h2, Nat.le_of_lt h3⟩
  have hih := addSuffix_inv (w.drop (commonPrefixLen w d.lastWord))
    (minimize d (commonPrefixLen w d.lastWord)) w hmBw
    (by rw [hmUC, htlen]) (by
      rw [hmUC, htlen]
      intro e he
      exact (hendw e he).2.2)
  -- identify the code's `node` with `chainEnd`
  rw [show (match (minimize d (commonPrefixLen w d.lastWord)).uncheckedNodes.getLast? with
      | none => rootNode
      | some u => u.child) =
      chainEnd (minimize d (commonPrefixLen w d.lastWord)).uncheckedNodes from rfl]
    at hadd
  rcases hAS : addSuffix (minimize d (commonPrefixLen w d.lastWord))
      (chainEnd (minimize d (commonPrefixLen w d.lastWord)).uncheckedNodes)
      (w.drop (commonPrefixLen w d.lastWord)) with ⟨dS, nodeS⟩
  rw [hAS] at hadd
  dsimp only at hadd
  injection hadd with hadd
  rw [hAS] at hih
  dsimp only at hih
  obtain ⟨hSB, hSlen, hSnode, hSna⟩ := hih
  have hnodeS_nv : nodeS ∉ dS.minimizedNodes.map (fun p => p.2) := by
    rw [hSnode]
    have hnd := hSB.nodesnd
    have hmem := chainEnd_mem dS.uncheckedNodes
    rcases List.mem_cons.mp hmem with hx0 | hx0
    · rw [hx0]
      intro hv
      exact (List.nodup_cons.mp hnd).1 (List.mem_append_right _ hv)
    · intro hv
      have hnd2 := (List.nodup_cons.mp hnd).2
      rw [List.nodup_append] at hnd2
      exact hnd2.2.2 hx0 hv
  have hFB : BInv (setFinal dS nodeS) (setFinal dS nodeS).uncheckedNodes w := by
    rw [(setFinal_fields dS nodeS).2.2.2.2.2.1]
    exact setFinal_BInv dS dS.uncheckedNodes w nodeS hSB hnodeS_nv
  obtain ⟨g1, g2, g3, g4, g5, g6, g7⟩ := setFinal_fields dS nodeS
  refine ⟨?_, ?_, ?_⟩
  · rw [← hadd]
    refine BInv_congr (setFinal dS nodeS) _ _ _ ?_ rfl rfl rfl rfl rfl
    show BInv (setFinal dS nodeS) (setFinal dS nodeS).uncheckedNodes w
    exact hFB
  · rw [← hadd]
    intro hna
    dsimp only at hna
    omega
  · rw [← hadd]
    dsimp only
    rw [g6, hSlen, hmUC, htlen]
    simp only [List.length_drop]
    omega

/-! ## Every built state satisfies the invariant -/

theorem Built_inv (d : Dawg) (hb : Built d) :
    BInv d d.uncheckedNodes d.lastWord ∧
    (d.numAdded = 0 → d.lastWord = [] ∧ d.uncheckedNodes = []) ∧
    d.uncheckedNodes.length = d.lastWord.length := by
  induction hb with
  | base =>
    refine ⟨⟨trivial, rfl, le_rfl, ?_, ?_, ?_, ?_, ?_, ?_, ?_, ?_, ?_⟩,
      fun _ => ⟨rfl, rfl⟩, rfl⟩
    · intro p hp; cases hp
    · exact List.nodup_nil
    · exact List.nodup_singleton _
    · intro i hi; cases hi
    · intro i hi; cases hi
    · intro e he; cases he
    · intro i hi; cases hi
    · intro x hx
      rcases List.mem_cons.mp hx with h1 | h1
      · rw [h1]; exact Nat.zero_lt_one
      · cases h1
    · intro k hk; cases hk
  | step hb hadd ih =>
    exact add_inv _ _ _ ih.1 ih.2.1 ih.2.2 hadd

/-! ## Extraction: after a full minimize, reachable nodes have distinct names -/

theorem getD_map {α β : Type} (f : α → β) (l : List α) (j : Nat) (d : α)
    (db : β) (h : j < l.length) : (l.map f).getD j db = f (l.getD j d) := by
  rw [List.getD_eq_getElem?_getD, List.getElem?_map,
    List.getD_eq_getElem?_getD, List.getElem?_eq_getElem h]
  rfl

theorem reach_pos (dm : Dawg) (lw : Word) (h : BInv dm [] lw) :
    ∀ b n, Reach dm b n → ∀ j, j < dm.minimizedNodes.length →
    (dm.minimizedNodes.getD j (([], false), 0)).2 = b →
    ∃ i, i ≤ j ∧ i < dm.minimizedNodes.length ∧
      (dm.minimizedNodes.getD i (([], false), 0)).2 = n := by
  intro b n hr
  induction hr with
  | refl => exact fun j hj hv => ⟨j, le_rfl, hj, hv⟩
  | head hstep _ ih =>
    intro j hj hv
    obtain ⟨e, he, hen⟩ := hstep
    obtain ⟨k, hk, hkv⟩ := h.mclosed j hj e (by rw [hv]; exact he)
    obtain ⟨i, hi1, hi2, hi3⟩ := ih k (by omega) (by rw [hkv, hen])
    exact ⟨i, by omega, hi2, hi3⟩

theorem reach_root_covered (dm : Dawg) (lw : Word) (h : BInv dm [] lw) :
    ∀ n, Reach dm rootNode n → n = rootNode ∨
    ∃ j, j < dm.minimizedNodes.length ∧
      (dm.minimizedNodes.getD j (([], false), 0)).2 = n := by
  intro n hr
  cases hr with
  | refl => exact Or.inl rfl
  | head hstep hrest =>
    obtain ⟨e, he, hen⟩ := hstep
    have hend0 := h.hend e he
    obtain ⟨j, hj, hjv⟩ := mem_map_getD (fun p => p.2) (([], false), 0) _ _ hend0.1
    obtain ⟨i, _, hi2, hi3⟩ := reach_pos dm lw h _ n hrest j hj (by rw [hjv, hen])
    exact Or.inr ⟨i, hi2, hi3⟩

theorem names_injective_of_BInv (dm : Dawg) (lw : Word) (h : BInv dm [] lw) :
    ∀ m n, Reach dm rootNode m → Reach dm rootNode n →
    nameOf dm m = nameOf dm n → m = n := by
  have hvnd : (dm.minimizedNodes.map (fun p => p.2)).Nodup := by
    have h2 := h.nodesnd
    simp only [List.map_nil, List.nil_append] at h2
    exact (List.nodup_cons.mp h2).2
  have hmemtr : ∀ a b, nameOf dm a = nameOf dm b →
      ∀ e ∈ alGetD dm.names a [], e ∈ alGetD dm.names b [] := by
    intro a b hab e he
    unfold nameOf at hab
    rw [Prod.mk.injEq] at hab
    obtain ⟨h1, _⟩ := hab
    have hmm : (e.ch, e.node) ∈ (alGetD dm.names b []).map
        (fun e => (e.ch, e.node)) := by
      rw [← h1]
      exact List.mem_map_of_mem _ he
    obtain ⟨e', he', hee⟩ := List.mem_map.mp hmm
    rw [Prod.mk.injEq] at hee
    obtain ⟨hc, hn⟩ := hee
    have hee2 : e' = e := by
      cases e
      cases e'
      simp only at hc hn
      simp [hc, hn]
    rwa [hee2] at he'
  have hroot_case : ∀ m, Reach dm rootNode m → m ≠ rootNode →
      nameOf dm m = nameOf dm rootNode → False := by
    intro m hr hne hnm
    cases hr with
    | refl => exact hne rfl
    | head hstep hrest =>
      obtain ⟨e0, he0, hen⟩ := hstep
      have hend0 := h.hend e0 he0
      obtain ⟨j1, hj1, hj1v⟩ := mem_map_getD (fun p => p.2) (([], false), 0) _ _
        hend0.1
      obtain ⟨i, hij, hilen, hiv⟩ := reach_pos dm lw h _ m hrest j1 hj1
        (by rw [hj1v, hen])
      have he0m : e0 ∈ alGetD dm.names m [] := hmemtr rootNode m hnm.symm e0 he0
      obtain ⟨k, hk, hkv⟩ := h.mclosed i hilen e0 (by rw [hiv]; exact he0m)
      have hkj : k = j1 := by
        by_contra hne2
        exact nodup_getD_ne _ 0 hvnd k j1 (by simp; omega) (by simp; omega) hne2 (by
          rw [getD_map (fun p => p.2) _ k (([], false), 0) 0 (by omega),
            getD_map (fun p => p.2) _ j1 (([], false), 0) 0 hj1]
          rw [hkv, ← hj1v])
      omega
  intro m n hm hn hmn
  rcases reach_root_covered dm lw h m hm with hm0 | ⟨jm, hjm, hjmv⟩
  · rcases reach_root_covered dm lw h n hn with hn0 | ⟨jn, hjn, hjnv⟩
    · rw [hm0, hn0]
    · by_cases hne : n = rootNode
      · rw [hm0, hne]
      · exact (hroot_case n hn hne (by rw [← hm0]; exact hmn.symm)).elim
  · by_cases hme : m = rootNode
    · rcases reach_root_covered dm lw h n hn with hn0 | ⟨jn, hjn, hjnv⟩
      · rw [hme, hn0]
      · by_cases hne : n = rootNode
        · rw [hme, hne]
        · exact (hroot_case n hn hne (by rw [← hme]; exact hmn.symm)).elim
    · rcases reach_root_covered dm lw h n hn with hn0 | ⟨jn, hjn, hjnv⟩
      · exact (hroot_case m hm hme (by rw [← hn0]; exact hmn)).elim
      · have hregm := h.reg _ (getD_mem dm.minimizedNodes jm (([], false), 0) hjm)
        have hregn := h.reg _ (getD_mem dm.minimizedNodes jn (([], false), 0) hjn)
        rw [hjmv] at hregm
        rw [hjnv] at hregn
        have hkeq : (dm.minimizedNodes.getD jm (([], false), 0)).1 =
            (dm.minimizedNodes.getD jn (([], false), 0)).1 := by
          rw [← hregm, ← hregn, hmn]
        have hjeq : jm = jn := by
          by_contra hne2
          refine nodup_getD_ne (dm.minimizedNodes.map (fun p => p.1))
            ([], false) h.keysnd jm jn (by simp; omega) (by simp; omega) hne2 ?_
          rw [getD_map (fun p => p.1) _ jm (([], false), 0) ([], false) hjm,
            getD_map (fun p => p.1) _ jn (([], false), 0) ([], false) hjn]
          exact hkeq
        rw [← hjmv, ← hjnv, hjeq]

/-- **C5.**  After `finish()` has run `minimize(0)` (the first step of
`Finish` on a builder produced by any sequence of successful `Add` calls), no
two distinct surviving nodes of the graph have the same canonical name, where
a node's canonical name (`nameOf`) is its ordered `(ch, target)` edge
sequence plus its final flag, and the surviving nodes are those reachable
from the root along `names`: structurally equal nodes are the same node. -/
theorem C5_minimize_names_injective (d : Dawg) (hb : Built d) :
    ∀ m n,
    Reach (minimize { d with finished := true } 0) rootNode m →
    Reach (minimize { d with finished := true } 0) rootNode n →
    nameOf (minimize { d with finished := true } 0) m =
      nameOf (minimize { d with finished := true } 0) n → m = n := by
  obtain ⟨hInv, _, _⟩ := Built_inv d hb
  have hInv2 : BInv { d with finished := true }
      ({ d with finished := true } : Dawg).uncheckedNodes
      ({ d with finished := true } : Dawg).lastWord :=
    BInv_congr d _ _ _ hInv rfl rfl rfl rfl rfl
  obtain ⟨hmB, _, _, _, _, _⟩ :=
    minimize_inv { d with finished := true } 0 d.lastWord hInv2
  exact names_injective_of_BInv _ _ (by simpa using hmB)

/-- Witness for C5: the five-word example `["", "blip", "cat", "catnip",
"cats"]`, built by five `Add` calls; node 1 (the target of the root's
`'b'` edge) is reachable in the minimized graph, and the theorem applies
to it. -/
theorem C5_minimize_names_injective_witness :
    Built dawg5b ∧ (1 : Nat) = 1 := by
  have h1 : Built (addW newDawg []) :=
    @Built.step newDawg [] _ Built.base (by decide)
  have h2 : Built (addW (addW newDawg []) [98, 108, 105, 112]) :=
    @Built.step _ [98, 108, 105, 112] _ h1 (by decide)
  have h3 : Built (addW (addW (addW newDawg []) [98, 108, 105, 112])
      [99, 97, 116]) :=
    @Built.step _ [99, 97, 116] _ h2 (by decide)
  have h4 : Built (addW (addW (addW (addW newDawg []) [98, 108, 105, 112])
      [99, 97, 116]) [99, 97, 116, 110, 105, 112]) :=
    @Built.step _ [99, 97, 116, 110, 105, 112] _ h3 (by decide)
  have h5 : Built dawg5b := @Built.step _ [99, 97, 116, 115] _ h4 (by decide)
  have hr : Reach (minimize { dawg5b with finished := true } 0) rootNode 1 :=
    Reach.head (by decide) (Reach.refl 1)
  exact ⟨h5, C5_minimize_names_injective dawg5b h5 1 1 hr hr rfl⟩

/-! ## Value semantics of the bit stream

The serializer's writer and the finder's reader are related through the
value of the accumulated bit stream: `valW` is the number formed by all
bits a writer holds (most significant bit first), and `readBits` extracts
bit fields of that number.  Everything is plain `Nat` arithmetic. -/

/-- Big-endian value of a byte list. -/
def bytesVal (l : List Nat) : Nat := l.foldl (fun a b => a * 256 + b) 0

/-- Value of all bits a writer has accumulated: the emitted bytes followed
by the `used` pending bits of the cache (the cache's stale high bits, which
the Go code never clears, do not count). -/
def valW (w : BitWriter) : Nat :=
  bytesVal w.out * 2 ^ w.used + w.cache % 2 ^ w.used

/-- Well-formedness of a writer state: at most 7 pending bits and emitted
bytes in range.  Every state the serializer reaches satisfies it. -/
abbrev WOk (w : BitWriter) : Prop := w.used ≤ 7 ∧ ∀ b ∈ w.out, b < 256

/-- `w'` extends the bit stream of `w`: the first `bitLenW w` bits of the
stream of `w'` are exactly the stream of `w`. -/
abbrev streamExt (w w' : BitWriter) : Prop :=
  bitLenW w ≤ bitLenW w' ∧ valW w' / 2 ^ (bitLenW w' - bitLenW w) = valW w

/-- The `n`-bit field at bit position `p` of the stream of `w` holds `v`. -/
abbrev Written (w : BitWriter) (p n v : Nat) : Prop :=
  v < 2 ^ n ∧ p + n ≤ bitLenW w ∧
    valW w / 2 ^ (bitLenW w - (p + n)) % 2 ^ n = v

/-- The varint encoding of `u` sits at bit position `p` of the stream. -/
abbrev VarintWritten (w : BitWriter) (p u : Nat) : Prop :=
  ∃ cs, writeUnsignedChunks u = some cs ∧
    ∀ i, i < cs.length → Written w (p + 8 * i) 8 (cs.getD i 0)

theorem segSplit (x m k : Nat) :
    (x / 2 ^ k % 2 ^ m) * 2 ^ k + x % 2 ^ k = x % 2 ^ (m + k) := by
  have h : (2 : Nat) ^ (m + k) = 2 ^ k * 2 ^ m := by
    rw [pow_add, Nat.mul_comm]
  rw [h, Nat.mod_mul]
  ring

theorem div_pow_add (x r c m : Nat) (hr : r < 2 ^ m) :
    (x * 2 ^ m + r) / 2 ^ (c + m) = x / 2 ^ c := by
  have h1 : (x * 2 ^ m + r) / 2 ^ m = x := by
    rw [Nat.mul_comm, Nat.mul_add_div (Nat.two_pow_pos m),
      Nat.div_eq_of_lt hr, Nat.add_zero]
  rw [pow_add, Nat.mul_comm ((2:Nat) ^ c), ← Nat.div_div_eq_div_mul, h1]

theorem mod_div_pow (x a b : Nat) (h : b ≤ a) :
    x % 2 ^ a / 2 ^ b = x / 2 ^ b % 2 ^ (a - b) := by
  have h1 := segSplit x (a - b) b
  rw [Nat.sub_add_cancel h] at h1
  rw [← h1, Nat.mul_comm, Nat.mul_add_div (Nat.two_pow_pos b),
    Nat.div_eq_of_lt (Nat.mod_lt x (Nat.two_pow_pos b)), Nat.add_zero]

theorem mod_mod_pow (x a b : Nat) (h : b ≤ a) : x % 2 ^ a % 2 ^ b = x % 2 ^ b :=
  Nat.mod_mod_of_dvd x (pow_dvd_pow 2 h)

theorem or_two_pow_mul_add (i a b : Nat) (hb : b < 2 ^ i) :
    (2 ^ i * a) ||| b = 2 ^ i * a + b := (Nat.mul_add_lt_is_or hb a).symm

theorem pow256 (k : Nat) : (256 : Nat) ^ k = 2 ^ (8 * k) := by
  rw [show (256 : Nat) = 2 ^ 8 from rfl, ← pow_mul]

theorem bytesVal_append (l : List Nat) (b : Nat) :
    bytesVal (l ++ [b]) = bytesVal l * 256 + b := by
  unfold bytesVal
  rw [List.foldl_append]
  rfl

theorem bytesVal_foldl (l : List Nat) : ∀ a : Nat,
    l.foldl (fun x b => x * 256 + b) a = a * 256 ^ l.length + bytesVal l := by
  induction l with
  | nil => intro a; simp [bytesVal]
  | cons x xs ih =>
    intro a
    show xs.foldl _ (a * 256 + x) = a * 256 ^ (xs.length + 1) + bytesVal (x :: xs)
    rw [ih (a * 256 + x)]
    show _ = a * 256 ^ (xs.length + 1) + xs.foldl _ (0 * 256 + x)
    rw [ih (0 * 256 + x)]
    ring

theorem bytesVal_cons (x : Nat) (xs : List Nat) :
    bytesVal (x :: xs) = x * 256 ^ xs.length + bytesVal xs := by
  show xs.foldl _ (0 * 256 + x) = _
  rw [bytesVal_foldl]
  ring

theorem bytesVal_lt (l : List Nat) (hb : ∀ b ∈ l, b < 256) :
    bytesVal l < 256 ^ l.length := by
  induction l with
  | nil => simp [bytesVal]
  | cons x xs ih =>
    have hx : x < 256 := hb x (by simp)
    have hxs := ih (fun b h => hb b (by simp [h]))
    rw [bytesVal_cons, List.length_cons, pow_succ]
    calc x * 256 ^ xs.length + bytesVal xs
        < x * 256 ^ xs.length + 256 ^ xs.length := by omega
      _ = (x + 1) * 256 ^ xs.length := by ring
      _ ≤ 256 * 256 ^ xs.length := Nat.mul_le_mul_right _ (by omega)
      _ = 256 ^ xs.length * 256 := by ring

theorem byteAt (l : List Nat) (hb : ∀ b ∈ l, b < 256) :
    ∀ i, i < l.length →
    l.getD i 0 = bytesVal l / 256 ^ (l.length - 1 - i) % 256 := by
  induction l with
  | nil => intro i hi; simp at hi
  | cons x xs ih =>
    intro i hi
    match i with
    | 0 =>
      have hx : x < 256 := hb x (by simp)
      have hlt := bytesVal_lt xs (fun b h => hb b (by simp [h]))
      rw [List.getD_cons_zero, bytesVal_cons]
      rw [show (x :: xs).length - 1 - 0 = xs.length by simp]
      rw [Nat.mul_comm, Nat.mul_add_div (by positivity),
        Nat.div_eq_of_lt hlt, Nat.add_zero, Nat.mod_eq_of_lt hx]
    | j + 1 =>
      have hj : j < xs.length := by
        simp only [List.length_cons] at hi; omega
      have hxb : ∀ b ∈ xs, b < 256 := fun b h => hb b (by simp [h])
      rw [List.getD_cons_succ, ih hxb j hj, bytesVal_cons]
      rw [show (x :: xs).length - 1 - (j + 1) = xs.length - 1 - j by
        simp only [List.length_cons]; omega]
      have hsplit : (256 : Nat) ^ xs.length =
          256 ^ (xs.length - 1 - j) * 256 ^ (j + 1) := by
        rw [← pow_add]
        congr 1
        omega
      rw [hsplit,
        show x * (256 ^ (xs.length - 1 - j) * 256 ^ (j + 1)) + bytesVal xs =
          256 ^ (xs.length - 1 - j) * (x * 256 ^ (j + 1)) + bytesVal xs by ring,
        Nat.mul_add_div (by positivity),
        show x * 256 ^ (j + 1) = 256 * (x * 256 ^ j) by ring,
        Nat.add_comm, Nat.add_mul_mod_self_left]

theorem div_pow_div (x a b : Nat) : x / 2 ^ a / 2 ^ b = x / 2 ^ (a + b) := by
  rw [Nat.div_div_eq_div_mul, ← pow_add]

theorem readBitsLoop_add8 (bytes : List Nat) (p n result : Nat) :
    readBitsLoop bytes p (n + 8) result =
      readBitsLoop bytes (p + 8) n ((result <<< 8) ||| nextByte bytes p) := rfl

theorem readBitsLoop_lt8 (bytes : List Nat) (p n result : Nat) (h : n < 8) :
    readBitsLoop bytes p n result =
      if 0 < n then
        ((result <<< n) ||| (nextByte bytes (p + n) >>> (8 - n)), p + n)
      else (result, p) := by
  interval_cases n <;> rfl

theorem maskTop_eq (r : Nat) (h : r < 8) : maskTop r = 2 ^ (8 - r) - 1 := by
  revert h
  revert r
  decide

/-- The whole-byte read loop extracts whole bit ranges of `bytesVal` when it
starts byte-aligned. -/
theorem readBitsLoop_spec (bytes : List Nat) (hb : ∀ b ∈ bytes, b < 256) :
    ∀ n p result, p % 8 = 0 → p + n ≤ 8 * bytes.length →
    readBitsLoop bytes p n result =
      (result * 2 ^ n +
        bytesVal bytes / 2 ^ (8 * bytes.length - (p + n)) % 2 ^ n, p + n) := by
  intro n
  induction n using Nat.strong_induction_on with
  | _ n ih =>
    intro p result hp hle
    by_cases h8 : 8 ≤ n
    · obtain ⟨m, rfl⟩ : ∃ m, n = m + 8 := ⟨n - 8, by omega⟩
      rw [readBitsLoop_add8]
      have hq : p / 8 < bytes.length := by omega
      have hbyte : nextByte bytes p =
          bytesVal bytes / 2 ^ (8 * bytes.length - 8 - p) % 2 ^ 8 := by
        unfold nextByte
        rw [Nat.shiftRight_eq_div_pow,
          show (2 : Nat) ^ 3 = 8 from rfl,
          byteAt bytes hb (p / 8) hq, pow256,
          show 8 * (bytes.length - 1 - p / 8) = 8 * bytes.length - 8 - p by
            omega,
          show (256 : Nat) = 2 ^ 8 from rfl]
      have hres : (result <<< 8) ||| nextByte bytes p =
          2 ^ 8 * result + bytesVal bytes / 2 ^ (8 * bytes.length - 8 - p) % 2 ^ 8 := by
        rw [Nat.shiftLeft_eq, Nat.mul_comm result, hbyte]
        exact or_two_pow_mul_add 8 result _ (Nat.mod_lt _ (by norm_num))
      rw [hres, ih m (by omega) (p + 8) _ (by omega) (by omega)]
      have hsplit := segSplit (bytesVal bytes /
        2 ^ (8 * bytes.length - (p + (m + 8)))) 8 m
      rw [div_pow_div,
        show 8 * bytes.length - (p + (m + 8)) + m = 8 * bytes.length - 8 - p by
          omega, Nat.add_comm 8 m] at hsplit
      refine Prod.ext ?_ (by omega)
      show (2 ^ 8 * result +
          bytesVal bytes / 2 ^ (8 * bytes.length - 8 - p) % 2 ^ 8) * 2 ^ m +
          bytesVal bytes / 2 ^ (8 * bytes.length - (p + 8 + m)) % 2 ^ m =
        result * 2 ^ (m + 8) +
          bytesVal bytes / 2 ^ (8 * bytes.length - (p + (m + 8))) % 2 ^ (m + 8)
      rw [show p + 8 + m = p + (m + 8) by omega, ← hsplit]
      ring
    · rw [readBitsLoop_lt8 bytes p n result (by omega)]
      by_cases hn : 0 < n
      · rw [if_pos hn]
        have hq : p / 8 < bytes.length := by omega
        have hpq : (p + n) / 8 = p / 8 := by omega
        have hbyte : nextByte bytes (p + n) =
            bytesVal bytes / 2 ^ (8 * bytes.length - 8 - p) % 2 ^ 8 := by
          unfold nextByte
          rw [Nat.shiftRight_eq_div_pow,
            show (2 : Nat) ^ 3 = 8 from rfl, hpq,
            byteAt bytes hb (p / 8) hq, pow256,
            show 8 * (bytes.length - 1 - p / 8) = 8 * bytes.length - 8 - p by
              omega,
            show (256 : Nat) = 2 ^ 8 from rfl]
        have hy : nextByte bytes (p + n) >>> (8 - n) =
            bytesVal bytes / 2 ^ (8 * bytes.length - (p + n)) % 2 ^ n := by
          rw [hbyte, Nat.shiftRight_eq_div_pow,
            mod_div_pow _ 8 (8 - n) (by omega), div_pow_div,
            show 8 * bytes.length - 8 - p + (8 - n) =
              8 * bytes.length - (p + n) by omega,
            show 8 - (8 - n) = n by omega]
        refine Prod.ext ?_ rfl
        show (result <<< n) ||| (nextByte bytes (p + n) >>> (8 - n)) =
          result * 2 ^ n +
            bytesVal bytes / 2 ^ (8 * bytes.length - (p + n)) % 2 ^ n
        rw [hy, Nat.shiftLeft_eq, Nat.mul_comm result,
          or_two_pow_mul_add n result _ (Nat.mod_lt _ (Nat.two_pow_pos n)),
          Nat.mul_comm]
      · have hn0 : n = 0 := by omega
        subst hn0
        rw [if_neg (by omega)]
        refine Prod.ext ?_ (by simp)
        simp [Nat.mod_one]

/-- `ReadBits` extracts the `n`-bit field at position `p` of the byte
image's value. -/
theorem readBits_spec (bytes : List Nat) (hb : ∀ b ∈ bytes, b < 256)
    (p n : Nat) (h : p + n ≤ 8 * bytes.length) :
    readBits bytes p n =
      (bytesVal bytes / 2 ^ (8 * bytes.length - (p + n)) % 2 ^ n, p + n) := by
  unfold readBits
  have hr : p % 8 < 8 := Nat.mod_lt _ (by norm_num)
  by_cases hc : p % 8 + n ≤ 8
  · rw [if_pos hc]
    by_cases hn : 0 < n
    · have hq : p / 8 < bytes.length := by omega
      have hbyte : nextByte bytes p =
          bytesVal bytes / 2 ^ (8 * bytes.length - 8 - 8 * (p / 8)) % 2 ^ 8 := by
        unfold nextByte
        rw [Nat.shiftRight_eq_div_pow,
          show (2 : Nat) ^ 3 = 8 from rfl,
          byteAt bytes hb (p / 8) hq, pow256,
          show 8 * (bytes.length - 1 - p / 8) =
            8 * bytes.length - 8 - 8 * (p / 8) by omega,
          show (256 : Nat) = 2 ^ 8 from rfl]
      refine Prod.ext ?_ rfl
      show (nextByte bytes p &&& maskTop (p % 8)) >>> (8 - p % 8 - n) =
        bytesVal bytes / 2 ^ (8 * bytes.length - (p + n)) % 2 ^ n
      rw [hbyte, maskTop_eq _ hr, Nat.and_pow_two_sub_one_eq_mod,
        mod_mod_pow _ 8 (8 - p % 8) (by omega),
        Nat.shiftRight_eq_div_pow,
        mod_div_pow _ (8 - p % 8) (8 - p % 8 - n) (by omega), div_pow_div,
        show 8 * bytes.length - 8 - 8 * (p / 8) + (8 - p % 8 - n) =
          8 * bytes.length - (p + n) by omega,
        show 8 - p % 8 - (8 - p % 8 - n) = n by omega]
    · have hn0 : n = 0 := by omega
      subst hn0
      refine Prod.ext ?_ (by simp)
      show (nextByte bytes p &&& maskTop (p % 8)) >>> (8 - p % 8 - 0) = _
      rw [maskTop_eq _ hr, Nat.and_pow_two_sub_one_eq_mod,
        Nat.shiftRight_eq_div_pow, Nat.sub_zero,
        Nat.div_eq_of_lt (Nat.mod_lt _ (Nat.two_pow_pos _))]
      simp [Nat.mod_one]
  · rw [if_neg hc]
    have hq : p / 8 < bytes.length := by omega
    have hbyte : nextByte bytes p =
        bytesVal bytes / 2 ^ (8 * bytes.length - 8 - 8 * (p / 8)) % 2 ^ 8 := by
      unfold nextByte
      rw [Nat.shiftRight_eq_div_pow,
        show (2 : Nat) ^ 3 = 8 from rfl,
        byteAt bytes hb (p / 8) hq, pow256,
        show 8 * (bytes.length - 1 - p / 8) =
          8 * bytes.length - 8 - 8 * (p / 8) by omega,
        show (256 : Nat) = 2 ^ 8 from rfl]
    rw [readBitsLoop_spec bytes hb (n - (8 - p % 8)) (p + (8 - p % 8)) _
      (by omega) (by omega)]
    have hsplit := segSplit
      (bytesVal bytes / 2 ^ (8 * bytes.length - (p + n)))
      (8 - p % 8) (n - (8 - p % 8))
    rw [div_pow_div,
      show 8 * bytes.length - (p + n) + (n - (8 - p % 8)) =
        8 * bytes.length - 8 - 8 * (p / 8) by omega,
      show 8 - p % 8 + (n - (8 - p % 8)) = n by omega] at hsplit
    refine Prod.ext ?_ (by show p + (8 - p % 8) + (n - (8 - p % 8)) = p + n; omega)
    show (nextByte bytes p &&& maskTop (p % 8)) * 2 ^ (n - (8 - p % 8)) +
        bytesVal bytes /
          2 ^ (8 * bytes.length - (p + (8 - p % 8) + (n - (8 - p % 8)))) %
          2 ^ (n - (8 - p % 8)) =
      bytesVal bytes / 2 ^ (8 * bytes.length - (p + n)) % 2 ^ n
    rw [hbyte, maskTop_eq _ hr, Nat.and_pow_two_sub_one_eq_mod,
      mod_mod_pow _ 8 (8 - p % 8) (by omega),
      show p + (8 - p % 8) + (n - (8 - p % 8)) = p + n by omega, ← hsplit]

/-- The cache computation of one `WriteBits` iteration: value and range. -/
theorem cache_step (cache written n data : Nat) (hw : written ≤ 8) :
    ((cache <<< written) % 256) |||
        (((data >>> (n - written)) % 256) &&& ((1 <<< written) - 1)) =
      2 ^ written * (cache % 2 ^ (8 - written)) +
        (data >>> (n - written)) % 2 ^ written ∧
      2 ^ written * (cache % 2 ^ (8 - written)) +
        (data >>> (n - written)) % 2 ^ written < 256 := by
  have h1 : cache % 2 ^ (8 - written) < 2 ^ (8 - written) :=
    Nat.mod_lt _ (Nat.two_pow_pos _)
  have h2 : (data >>> (n - written)) % 2 ^ written < 2 ^ written :=
    Nat.mod_lt _ (Nat.two_pow_pos _)
  constructor
  · rw [Nat.shiftLeft_eq cache,
      show (1 <<< written) - 1 = 2 ^ written - 1 by
        rw [Nat.shiftLeft_eq, Nat.one_mul],
      Nat.and_pow_two_sub_one_eq_mod,
      show (256 : Nat) = 2 ^ 8 from rfl,
      mod_mod_pow _ 8 written hw,
      show (2 : Nat) ^ 8 = 2 ^ (8 - written) * 2 ^ written by
        rw [← pow_add]; congr 1; omega,
      Nat.mul_mod_mul_right, Nat.mul_comm (cache % 2 ^ (8 - written)),
      or_two_pow_mul_add written _ _ h2]
  · have hb3 : 2 ^ written * (cache % 2 ^ (8 - written)) + 2 ^ written =
        2 ^ written * (cache % 2 ^ (8 - written) + 1) := by ring
    have hb4 : 2 ^ written * (cache % 2 ^ (8 - written) + 1) ≤
        2 ^ written * 2 ^ (8 - written) :=
      Nat.mul_le_mul_left _ (by omega)
    have hb5 : (2 : Nat) ^ written * 2 ^ (8 - written) = 256 := by
      rw [← pow_add, show written + (8 - written) = 8 by omega]
      norm_num
    omega

/-- The `WriteBits` loop appends the low `n` bits of `data` to the stream. -/
theorem writeBitsF_val : ∀ fuel (w : BitWriter) data n, n ≤ fuel → WOk w →
    WOk (writeBitsF fuel w data n) ∧
    valW (writeBitsF fuel w data n) = valW w * 2 ^ n + data % 2 ^ n := by
  intro fuel
  induction fuel with
  | zero =>
    intro w data n hn hw
    have : n = 0 := by omega
    subst this
    exact ⟨hw, by show valW w = valW w * 2 ^ 0 + data % 2 ^ 0; simp [Nat.mod_one]⟩
  | succ fuel ih =>
    intro w data n hn hw
    by_cases h0 : n = 0
    · subst h0
      have he : writeBitsF (fuel + 1) w data 0 = w := by rw [writeBitsF]; simp
      rw [he]
      exact ⟨hw, by simp [Nat.mod_one]⟩
    · have hu7 : w.used ≤ 7 := hw.1
      have h8 : ¬ 8 ≤ w.used := by omega
      rw [writeBitsF, if_neg h0, if_neg h8]
      simp only
      set written := if 8 < n + w.used then 8 - w.used else n with hwr
      have hw1 : 1 ≤ written ∧ written ≤ n ∧ w.used + written ≤ 8 := by
        rw [hwr]; split <;> omega
      obtain ⟨hcv, hclt⟩ := cache_step w.cache written n data (by omega)
      have key : ∀ w' : BitWriter, WOk w' →
          valW w' = valW w * 2 ^ written +
            (data >>> (n - written)) % 2 ^ written →
          WOk (writeBitsF fuel w' data (n - written)) ∧
          valW (writeBitsF fuel w' data (n - written)) =
            valW w * 2 ^ n + data % 2 ^ n := by
        intro w' hko hval
        obtain ⟨h3, h4⟩ := ih w' data (n - written) (by omega) hko
        refine ⟨h3, ?_⟩
        rw [h4, hval, Nat.shiftRight_eq_div_pow]
        have hs := segSplit data written (n - written)
        rw [show written + (n - written) = n by omega] at hs
        rw [← hs,
          show (2 : Nat) ^ n = 2 ^ written * 2 ^ (n - written) by
            rw [← pow_add]; congr 1; omega]
        ring
      split
      · rename_i hfull
        refine key _ ⟨by norm_num, ?_⟩ ?_
        · intro b hmem
          simp only [List.mem_append, List.mem_singleton] at hmem
          rcases hmem with hold | hnew
          · exact hw.2 b hold
          · rw [hnew, hcv]; exact hclt
        · show bytesVal (w.out ++ [_]) * 2 ^ 0 + _ % 2 ^ 0 = _
          rw [pow_zero, Nat.mul_one, Nat.mod_one, Nat.add_zero,
            bytesVal_append, hcv,
            show 8 - written = w.used by omega]
          show _ = (bytesVal w.out * 2 ^ w.used + w.cache % 2 ^ w.used) *
            2 ^ written + _
          rw [show (256 : Nat) = 2 ^ w.used * 2 ^ written by
            rw [← pow_add, show w.used + written = 8 by omega]; norm_num]
          ring
      · rename_i hfull
        refine key _ ⟨by simp only; omega, hw.2⟩ ?_
        show bytesVal w.out * 2 ^ (w.used + written) + _ % 2 ^ (w.used + written) = _
        rw [hcv]
        have hmm : (2 ^ written * (w.cache % 2 ^ (8 - written)) +
              (data >>> (n - written)) % 2 ^ written) %
              2 ^ (w.used + written) =
            2 ^ written * (w.cache % 2 ^ w.used) +
              (data >>> (n - written)) % 2 ^ written := by
          rw [show (2 : Nat) ^ (w.used + written) = 2 ^ written * 2 ^ w.used by
            rw [← pow_add]; congr 1; omega]
          rw [Nat.mod_mul]
          rw [Nat.mul_add_mod, Nat.mod_eq_of_lt (Nat.mod_lt _ (Nat.two_pow_pos _)),
            Nat.mul_add_div (Nat.two_pow_pos written),
            Nat.div_eq_of_lt (Nat.mod_lt _ (Nat.two_pow_pos _)), Nat.add_zero,
            mod_mod_pow _ (8 - written) w.used (by omega)]
          ring
        rw [hmm]
        show _ = (bytesVal w.out * 2 ^ w.used + w.cache % 2 ^ w.used) *
          2 ^ written + _
        rw [show (2 : Nat) ^ (w.used + written) = 2 ^ w.used * 2 ^ written by
          rw [← pow_add]]
        ring

theorem writeBitsW_val (w : BitWriter) (data n : Nat) (hw : WOk w) :
    WOk (writeBitsW w data n) ∧
    valW (writeBitsW w data n) = valW w * 2 ^ n + data % 2 ^ n :=
  writeBitsF_val n w data n le_rfl hw

/-- `Flush` pads the pending bits with zeros up to a byte boundary. -/
theorem flushW_val (w : BitWriter) (hw : WOk w) :
    (∀ b ∈ (flushW w).out, b < 256) ∧
    bytesVal (flushW w).out = valW w * 2 ^ ((8 - w.used) % 8) ∧
    8 * (flushW w).out.length = bitLenW w + (8 - w.used) % 8 := by
  unfold flushW
  by_cases h : 0 < w.used
  · rw [if_pos h]
    have hu7 : w.used ≤ 7 := hw.1
    have hpad : (8 - w.used) % 8 = 8 - w.used := by omega
    have hlast : (w.cache <<< (8 - w.used)) % 256 =
        (w.cache % 2 ^ w.used) * 2 ^ (8 - w.used) := by
      rw [Nat.shiftLeft_eq,
        show (256 : Nat) = 2 ^ w.used * 2 ^ (8 - w.used) by
          rw [← pow_add, show w.used + (8 - w.used) = 8 by omega]; norm_num,
        Nat.mul_mod_mul_right]
    refine ⟨?_, ?_, ?_⟩
    · intro b hmem
      simp only [List.mem_append, List.mem_singleton] at hmem
      rcases hmem with hold | hnew
      · exact hw.2 b hold
      · rw [hnew, hlast]
        have h1 : w.cache % 2 ^ w.used < 2 ^ w.used :=
          Nat.mod_lt _ (Nat.two_pow_pos _)
        calc (w.cache % 2 ^ w.used) * 2 ^ (8 - w.used)
            ≤ (2 ^ w.used - 1) * 2 ^ (8 - w.used) :=
              Nat.mul_le_mul_right _ (by omega)
          _ < 2 ^ w.used * 2 ^ (8 - w.used) :=
              (Nat.mul_lt_mul_right (Nat.two_pow_pos _)).mpr (by
                have := Nat.two_pow_pos w.used; omega)
          _ = 256 := by
              rw [← pow_add, show w.used + (8 - w.used) = 8 by omega]
              norm_num
    · show bytesVal (w.out ++ [_]) = _
      rw [bytesVal_append, hlast, hpad]
      show _ = (bytesVal w.out * 2 ^ w.used + w.cache % 2 ^ w.used) * _
      rw [show (256 : Nat) = 2 ^ w.used * 2 ^ (8 - w.used) by
        rw [← pow_add, show w.used + (8 - w.used) = 8 by omega]; norm_num]
      ring
    · show 8 * (w.out ++ [_]).length = _
      simp only [List.length_append, List.length_cons, List.length_nil]
      unfold bitLenW
      omega
  · rw [if_neg h]
    have hu : w.used = 0 := by omega
    refine ⟨hw.2, ?_, ?_⟩
    · unfold valW
      rw [hu]
      norm_num [Nat.mod_one]
    · unfold bitLenW
      rw [hu]
      omega

theorem streamExt_refl (w : BitWriter) : streamExt w w :=
  ⟨le_rfl, by rw [Nat.sub_self, pow_zero, Nat.div_one]⟩

theorem streamExt_trans {w1 w2 w3 : BitWriter} (h12 : streamExt w1 w2)
    (h23 : streamExt w2 w3) : streamExt w1 w3 := by
  refine ⟨le_trans h12.1 h23.1, ?_⟩
  have h := h12.1
  have h' := h23.1
  rw [show bitLenW w3 - bitLenW w1 =
    (bitLenW w3 - bitLenW w2) + (bitLenW w2 - bitLenW w1) by omega,
    ← div_pow_div, h23.2, h12.2]

theorem writeBitsW_ext (w : BitWriter) (data n : Nat) (hw : WOk w) :
    streamExt w (writeBitsW w data n) := by
  obtain ⟨h1, h2⟩ := writeBitsW_val w data n hw
  have hl := writeBitsW_len w data n hw.1
  refine ⟨by omega, ?_⟩
  rw [hl.1, h2, Nat.add_sub_cancel_left,
    Nat.mul_comm, Nat.mul_add_div (Nat.two_pow_pos n),
    Nat.div_eq_of_lt (Nat.mod_lt _ (Nat.two_pow_pos n)), Nat.add_zero]

theorem written_ext {w w' : BitWriter} (hext : streamExt w w') {p n v : Nat}
    (h : Written w p n v) : Written w' p n v := by
  obtain ⟨hv, hle, hval⟩ := h
  have h1 := hext.1
  refine ⟨hv, by omega, ?_⟩
  rw [show bitLenW w' - (p + n) =
    (bitLenW w' - bitLenW w) + (bitLenW w - (p + n)) by omega,
    ← div_pow_div, hext.2, hval]

theorem written_new (w : BitWriter) (data n : Nat) (hw : WOk w)
    (hd : data < 2 ^ n) :
    Written (writeBitsW w data n) (bitLenW w) n data := by
  obtain ⟨h1, h2⟩ := writeBitsW_val w data n hw
  have hl := writeBitsW_len w data n hw.1
  refine ⟨hd, by omega, ?_⟩
  rw [hl.1, h2, Nat.sub_self, pow_zero, Nat.div_one, Nat.mul_comm,
    Nat.mul_add_mod, Nat.mod_eq_of_lt (Nat.mod_lt _ (Nat.two_pow_pos n)),
    Nat.mod_eq_of_lt hd]

/-- A field recorded in the stream is recovered verbatim by `ReadBits` on
the flushed buffer. -/
theorem readBits_of_written (wf : BitWriter) (hw : WOk wf) (p n v : Nat)
    (h : Written wf p n v) :
    readBits (flushW wf).out p n = (v, p + n) := by
  obtain ⟨hbs, hval, hlen⟩ := flushW_val wf hw
  obtain ⟨hv, hle, hfield⟩ := h
  rw [readBits_spec _ hbs p n (by omega)]
  refine Prod.ext ?_ rfl
  show bytesVal (flushW wf).out /
      2 ^ (8 * (flushW wf).out.length - (p + n)) % 2 ^ n = v
  rw [hval,
    show 8 * (flushW wf).out.length - (p + n) =
      (bitLenW wf - (p + n)) + (8 - wf.used) % 8 by omega,
    ← Nat.add_zero (valW wf * 2 ^ ((8 - wf.used) % 8)),
    div_pow_add _ 0 _ _ (Nat.two_pow_pos _), hfield]

/-- Structure of the emitted varint chunks: byte range, continuation bit set
on all chunks but the last, clear on the last. -/
theorem writeUnsignedChunks_bits (u : Nat) (cs : List Nat)
    (h : writeUnsignedChunks u = some cs) :
    (∀ c ∈ cs, c < 256) ∧
    (∀ i, i + 1 < cs.length → (cs.getD i 0) &&& 0x80 ≠ 0) ∧
    cs ≠ [] ∧ (cs.getD (cs.length - 1) 0) &&& 0x80 = 0 := by
  have hor : ∀ x : Nat, x < 128 → x ||| 0x80 < 256 := by
    intro x hx
    have := Nat.or_lt_two_pow (show x < 2 ^ 8 by omega)
      (show 0x80 < 2 ^ 8 by norm_num)
    simpa using this
  have hand : ∀ x : Nat, x &&& 0x7f < 128 := by
    intro x
    rw [and_127_eq_mod]
    omega
  unfold writeUnsignedChunks at h
  by_cases h1 : u < 0x7f
  · rw [if_pos h1] at h
    injection h with h
    subst h
    refine ⟨?_, ?_, by simp, ?_⟩
    · intro c hc
      simp only [List.mem_singleton] at hc
      omega
    · intro i hi
      simp only [List.length_singleton] at hi
      omega
    · exact (byte_lo_clear u (by omega)).1
  · rw [if_neg h1] at h
    by_cases h2 : u < 0x3fff
    · rw [if_pos h2] at h
      injection h with h
      subst h
      refine ⟨?_, ?_, by simp, ?_⟩
      · intro c hc
        simp only [List.mem_cons, List.mem_singleton, List.not_mem_nil,
          or_false] at hc
        rcases hc with hc | hc <;> rw [hc]
        · exact hor _ (hand _)
        · have := hand u; omega
      · intro i hi
        simp only [List.length_cons, List.length_singleton, List.length_nil] at hi
        have hi0 : i = 0 := by omega
        subst hi0
        exact (byte_hi_set _ (hand _)).1
      · exact (byte_lo_clear _ (hand u)).1
    · rw [if_neg h2] at h
      by_cases h3 : u < 0x1fffff
      · rw [if_pos h3] at h
        injection h with h
        subst h
        refine ⟨?_, ?_, by simp, ?_⟩
        · intro c hc
          simp only [List.mem_cons, List.mem_singleton, List.not_mem_nil,
            or_false] at hc
          rcases hc with hc | hc | hc <;> rw [hc]
          · exact hor _ (hand _)
          · exact hor _ (hand _)
          · have := hand u; omega
        · intro i hi
          simp only [List.length_cons, List.length_singleton, List.length_nil] at hi
          match i with
          | 0 => exact (byte_hi_set _ (hand _)).1
          | 1 => exact (byte_hi_set _ (hand _)).1
        · exact (byte_lo_clear _ (hand u)).1
      · rw [if_neg h3] at h
        cases h

theorem varint_ext {w w' : BitWriter} (hext : streamExt w w') {p u : Nat}
    (h : VarintWritten w p u) : VarintWritten w' p u := by
  obtain ⟨cs, hcs, hf⟩ := h
  exact ⟨cs, hcs, fun i hi => written_ext hext (hf i hi)⟩

/-- The chunk-emission fold writes each chunk as an 8-bit field at its
position. -/
theorem foldl_writeBits8_written (cs : List Nat) : ∀ (w : BitWriter), WOk w →
    (∀ c ∈ cs, c < 256) →
    WOk (cs.foldl (fun w c => writeBitsW w c 8) w) ∧
    streamExt w (cs.foldl (fun w c => writeBitsW w c 8) w) ∧
    (∀ i, i < cs.length →
      Written (cs.foldl (fun w c => writeBitsW w c 8) w)
        (bitLenW w + 8 * i) 8 (cs.getD i 0)) := by
  induction cs with
  | nil =>
    intro w hw _
    exact ⟨hw, streamExt_refl w, fun i hi => absurd hi (by simp)⟩
  | cons c rest ih =>
    intro w hw hbnd
    simp only [List.foldl_cons]
    have hc256 : c < 256 := hbnd c (by simp)
    have h1 := writeBitsW_val w c 8 hw
    have hl1 := writeBitsW_len w c 8 hw.1
    have hwr : Written (writeBitsW w c 8) (bitLenW w) 8 c :=
      written_new w c 8 hw (by simpa using hc256)
    have he1 := writeBitsW_ext w c 8 hw
    obtain ⟨hW, hE, hF⟩ := ih (writeBitsW w c 8) h1.1
      (fun x hx => hbnd x (by simp [hx]))
    refine ⟨hW, streamExt_trans he1 hE, ?_⟩
    intro i hi
    match i with
    | 0 =>
      have := written_ext hE hwr
      simpa using this
    | j + 1 =>
      have hj := hF j (by simp only [List.length_cons] at hi; omega)
      rw [hl1.1] at hj
      rw [show bitLenW w + 8 * (j + 1) = bitLenW w + 8 + 8 * j by ring,
        List.getD_cons_succ]
      exact hj

/-- `writeUnsigned` records the varint encoding in the stream. -/
theorem writeUnsignedW_written (w : BitWriter) (u : Nat) (w' : BitWriter)
    (hw : WOk w) (h : writeUnsignedW w u = some w') :
    WOk w' ∧ streamExt w w' ∧ VarintWritten w' (bitLenW w) u := by
  unfold writeUnsignedW at h
  cases hc : writeUnsignedChunks u with
  | none => rw [hc] at h; cases h
  | some cs =>
    rw [hc] at h
    simp only [Option.map_some'] at h
    injection h with h
    obtain ⟨hbnd, _, _, _⟩ := writeUnsignedChunks_bits u cs hc
    obtain ⟨hW, hE, hF⟩ := foldl_writeBits8_written cs w hw hbnd
    rw [h] at hW hE hF
    exact ⟨hW, hE, cs, hc, hF⟩

theorem readUnsignedSeek_succ (bytes : List Nat) (f p result : Nat) :
    readUnsignedSeek bytes (f + 1) p result =
      (let (d, p') := readBits bytes p 8
       let result' := (result <<< 7) ||| (d &&& 0x7f)
       if d &&& 0x80 = 0 then (result', p')
       else readUnsignedSeek bytes f p' result') := rfl

/-- The seek-based varint reader follows the chunk loop. -/
theorem readUnsignedSeek_chunks (bytes : List Nat) :
    ∀ (cs : List Nat) (fuel p acc : Nat), cs.length ≤ fuel →
    (∀ i, i < cs.length →
      readBits bytes (p + 8 * i) 8 = (cs.getD i 0, p + 8 * i + 8)) →
    (∀ i, i + 1 < cs.length → (cs.getD i 0) &&& 0x80 ≠ 0) →
    cs ≠ [] → (cs.getD (cs.length - 1) 0) &&& 0x80 = 0 →
    readUnsignedSeek bytes fuel p acc =
      (readUnsignedChunks cs acc, p + 8 * cs.length) := by
  intro cs
  induction cs with
  | nil => intro fuel p acc _ _ _ hne _; exact absurd rfl hne
  | cons c rest ih =>
    intro fuel p acc hfuel hread hbits _ hlast
    obtain ⟨f, rfl⟩ : ∃ f, fuel = f + 1 :=
      ⟨fuel - 1, by simp only [List.length_cons] at hfuel; omega⟩
    have h0 : readBits bytes p 8 = (c, p + 8) := by
      have := hread 0 (by simp)
      simpa using this
    rw [readUnsignedSeek_succ, h0]
    simp only
    by_cases hcbit : c &&& 0x80 = 0
    · rw [if_pos hcbit]
      match rest with
      | [] =>
        show _ = (readUnsignedChunks [c] acc, _)
        unfold readUnsignedChunks
        rw [if_pos hcbit]
        refine Prod.ext rfl (by show p + 8 = p + 8 * 1; omega)
      | r :: rest' =>
        exact absurd hcbit (hbits 0 (by simp))
    · rw [if_neg hcbit]
      match rest with
      | [] => exact absurd hlast hcbit
      | r :: rest' =>
        have hres := ih (f) (p + 8) ((acc <<< 7) ||| (c &&& 0x7f))
          (by simp only [List.length_cons] at hfuel ⊢; omega)
          (by
            intro i hi
            have := hread (i + 1) (by simp only [List.length_cons] at hi ⊢; omega)
            rw [show p + 8 * (i + 1) = p + 8 + 8 * i by ring] at this
            simpa using this)
          (by
            intro i hi
            have := hbits (i + 1) (by simp only [List.length_cons] at hi ⊢; omega)
            simpa using this)
          (by simp)
          (by
            have : (c :: r :: rest').getD ((c :: r :: rest').length - 1) 0 =
                (r :: rest').getD ((r :: rest').length - 1) 0 := by
              simp only [List.length_cons]
              rw [show rest'.length + 1 + 1 - 1 = (rest'.length + 1 - 1) + 1 by
                omega, List.getD_cons_succ]
            rw [this] at hlast
            exact hlast)
        rw [hres]
        show (readUnsignedChunks (r :: rest') _, _) =
          (readUnsignedChunks (c :: r :: rest') acc, _)
        refine Prod.ext ?_ ?_
        · show readUnsignedChunks (r :: rest') ((acc <<< 7) ||| (c &&& 0x7f)) =
            if c &&& 0x80 = 0 then _ else readUnsignedChunks (r :: rest') _
          rw [if_neg hcbit]
        · show p + 8 + 8 * (r :: rest').length = p + 8 * (c :: r :: rest').length
          simp only [List.length_cons]
          ring

/-- A varint recorded in the stream is recovered by `readUnsigned` on the
flushed buffer, together with its encoded length. -/
theorem readUnsignedSeek_of_varint (wf : BitWriter) (hw : WOk wf)
    (p u fuel : Nat) (h : VarintWritten wf p u)
    (hfuel : (flushW wf).out.length < fuel) :
    ∃ L, unsignedLength? u = some L ∧
      readUnsignedSeek (flushW wf).out fuel p 0 = (u, p + 8 * L) := by
  obtain ⟨cs, hcs, hf⟩ := h
  obtain ⟨hbnd, hbits, hne, hlast⟩ := writeUnsignedChunks_bits u cs hcs
  have hlen := writeUnsignedChunks_length u cs hcs
  have hcpos : 0 < cs.length := List.length_pos.mpr hne
  have hreads : ∀ i, i < cs.length →
      readBits (flushW wf).out (p + 8 * i) 8 = (cs.getD i 0, p + 8 * i + 8) := by
    intro i hi
    exact readBits_of_written wf hw _ _ _ (hf i hi)
  have hcl : cs.length ≤ (flushW wf).out.length := by
    have h1 := (hf (cs.length - 1) (by omega)).2.1
    have h2 := (flushW_val wf hw).2.2
    omega
  have hrun := readUnsignedSeek_chunks (flushW wf).out cs fuel p 0
    (by omega) hreads hbits hne hlast
  have hult : u < 0x1fffff := by
    by_contra hge
    unfold writeUnsignedChunks at hcs
    rw [if_neg (by omega), if_neg (by omega), if_neg (by omega)] at hcs
    cases hcs
  obtain ⟨bs, hbs, hval, _⟩ := readUnsigned_writeUnsigned u hult
  have hbscs : bs = cs := by
    rw [hcs] at hbs
    injection hbs.symm with h
  refine ⟨cs.length, hlen, ?_⟩
  rw [hrun, ← hbscs, hval]

/-! ## The emission loop records every field (read-back form of C6)

`HdrWritten d wf j A ec` says the node-record header of node `j` (final
bit, single-edge bit, and edge-count varint when present) sits at bit
position `A` of the stream of `wf`. -/

def HdrWritten (d : Dawg) (wf : BitWriter) (j A ec : Nat) : Prop :=
  Written wf A 1 (if alGetD d.final j false then 1 else 0) ∧
  Written wf (A + 1) 1 (if ec = 1 then 1 else 0) ∧
  (ec ≠ 1 → VarintWritten wf (A + 2) ec)

theorem hdrWritten_ext {d : Dawg} {w w' : BitWriter} (hext : streamExt w w')
    {j A ec : Nat} (h : HdrWritten d w j A ec) : HdrWritten d w' j A ec :=
  ⟨written_ext hext h.1, written_ext hext h.2.1,
    fun hne => varint_ext hext (h.2.2 hne)⟩

theorem nodeHeaderW_written (d : Dawg) (counts : List Nat) (j : Nat)
    (w w' : BitWriter) (hw : WOk w) (h : nodeHeaderW d counts w j = some w') :
    WOk w' ∧ streamExt w w' ∧
    HdrWritten d w' j (bitLenW w) (counts.getD j 0) ∧
    ∃ H, recHdrBits (counts.getD j 0) = some H ∧
      bitLenW w' = bitLenW w + 2 + H := by
  unfold nodeHeaderW at h
  have hfb : (if alGetD d.final j false then 1 else 0) < 2 ^ 1 := by
    split <;> norm_num
  have h1 := writeBitsW_val w (if alGetD d.final j false then 1 else 0) 1 hw
  have hl1 := writeBitsW_len w (if alGetD d.final j false then 1 else 0) 1 hw.1
  have he1 := writeBitsW_ext w (if alGetD d.final j false then 1 else 0) 1 hw
  have hwr1 := written_new w (if alGetD d.final j false then 1 else 0) 1 hw hfb
  by_cases hec : counts.getD j 0 = 1
  · rw [if_pos hec] at h
    injection h with h
    subst h
    set w1 := writeBitsW w (if alGetD d.final j false then 1 else 0) 1
    have h2 := writeBitsW_val w1 1 1 h1.1
    have he2 := writeBitsW_ext w1 1 1 h1.1
    have hwr2 := written_new w1 1 1 h1.1 (by norm_num)
    refine ⟨h2.1, streamExt_trans he1 he2, ⟨written_ext he2 hwr1, ?_, ?_⟩,
      0, by rw [hec]; rfl, ?_⟩
    · rw [if_pos hec, ← hl1.1]
      exact hwr2
    · intro hne
      exact absurd hec hne
    · have hl2' := writeBitsW_len w1 1 1 h1.1.1
      omega
  · rw [if_neg hec] at h
    set w1 := writeBitsW w (if alGetD d.final j false then 1 else 0) 1
    have h2 := writeBitsW_val w1 0 1 h1.1
    have hl2 := writeBitsW_len w1 0 1 h1.1.1
    have he2 := writeBitsW_ext w1 0 1 h1.1
    have hwr2 := written_new w1 0 1 h1.1 (by norm_num)
    set w2 := writeBitsW w1 0 1
    obtain ⟨hW3, hE3, hV3⟩ := writeUnsignedW_written w2 (counts.getD j 0) w' h2.1 h
    obtain ⟨L, hL, hlen3, _⟩ := writeUnsignedW_len w2 (counts.getD j 0) w' h2.1.1 h
    refine ⟨hW3, streamExt_trans he1 (streamExt_trans he2 hE3),
      ⟨written_ext (streamExt_trans he2 hE3) hwr1, ?_, ?_⟩,
      8 * L, ?_, by omega⟩
    · rw [if_neg hec, ← hl1.1]
      exact written_ext hE3 hwr2
    · intro _
      rw [show bitLenW w + 2 = bitLenW w2 by omega]
      exact hV3
    · unfold recHdrBits
      rw [if_neg hec, hL]
      rfl

/-- Emission of a run of `z` zero-count headers followed by the header of
node `lo + z`, with every header field recorded in the stream. -/
theorem emitHeaders_written (d : Dawg) (counts : List Nat) :
    ∀ (z : Nat) (lo : Nat) (w : BitWriter) (H : Nat), WOk w →
    (∀ i, lo ≤ i → i < lo + z → counts.getD i 0 = 0) →
    recHdrBits (counts.getD (lo + z) 0) = some H →
    ∃ w', emitHeaders d counts w lo (z + 1) = some w' ∧ WOk w' ∧
      streamExt w w' ∧
      bitLenW w' = bitLenW w + 10 * z + 2 + H ∧
      (∀ t, t < z → HdrWritten d w' (lo + t) (bitLenW w + 10 * t) 0) ∧
      HdrWritten d w' (lo + z) (bitLenW w + 10 * z) (counts.getD (lo + z) 0) := by
  intro z
  induction z with
  | zero =>
    intro lo w H hw hz hH
    rw [show lo + 0 = lo from rfl] at hH
    cases hnh : nodeHeaderW d counts w lo with
    | none =>
      exfalso
      unfold nodeHeaderW at hnh
      by_cases hec : counts.getD lo 0 = 1
      · rw [if_pos hec] at hnh; cases hnh
      · rw [if_neg hec] at hnh
        unfold recHdrBits at hH
        rw [if_neg hec] at hH
        cases hul : unsignedLength? (counts.getD lo 0) with
        | none => rw [hul] at hH; cases hH
        | some L =>
          obtain ⟨w', hw', _, _⟩ := writeUnsignedW_of_length
            (writeBitsW (writeBitsW w
              (if alGetD d.final lo false then 1 else 0) 1) 0 1)
            (counts.getD lo 0) L (by
              have ha := writeBitsW_len w
                (if alGetD d.final lo false then 1 else 0) 1 hw.1
              have hb := writeBitsW_len (writeBitsW w
                (if alGetD d.final lo false then 1 else 0) 1) 0 1 ha.2
              exact hb.2) hul
          rw [hw'] at hnh
          cases hnh
    | some w1 =>
      obtain ⟨hW1, hE1, hH1, H', hH', hlen1⟩ :=
        nodeHeaderW_written d counts lo w w1 hw hnh
      have hHH : H' = H := by rw [hH'] at hH; injection hH
      subst hHH
      refine ⟨w1, ?_, hW1, hE1, by omega, by omega, by simpa using hH1⟩
      show emitHeaders d counts w lo 1 = some w1
      unfold emitHeaders
      rw [hnh]
      rfl
  | succ z ih =>
    intro lo w H hw hz hH
    cases hnh : nodeHeaderW d counts w lo with
    | none =>
      exfalso
      unfold nodeHeaderW at hnh
      have hec : counts.getD lo 0 = 0 := hz lo le_rfl (by omega)
      rw [hec] at hnh
      rw [if_neg (by norm_num)] at hnh
      obtain ⟨w', hw', _, _⟩ := writeUnsignedW_of_length
        (writeBitsW (writeBitsW w
          (if alGetD d.final lo false then 1 else 0) 1) 0 1) 0 1 (by
          have ha := writeBitsW_len w
            (if alGetD d.final lo false then 1 else 0) 1 hw.1
          have hb := writeBitsW_len (writeBitsW w
            (if alGetD d.final lo false then 1 else 0) 1) 0 1 ha.2
          exact hb.2) (by norm_num [unsignedLength?])
      rw [hw'] at hnh
      cases hnh
    | some w1 =>
      obtain ⟨hW1, hE1, hH1, H', hH', hlen1⟩ :=
        nodeHeaderW_written d counts lo w w1 hw hnh
      have hec : counts.getD lo 0 = 0 := hz lo le_rfl (by omega)
      have hH8 : H' = 8 := by
        rw [hec] at hH'
        have := recHdrBits_zero
        rw [this] at hH'
        injection hH' with hinj
        omega
      subst hH8
      obtain ⟨w', hrun, hW', hE', hlen', hzf, hlast⟩ := ih (lo + 1) w1 H hW1
        (fun i h1 h2 => hz i (by omega) (by omega))
        (by rw [show lo + 1 + z = lo + (z + 1) from by ring]; exact hH)
      refine ⟨w', ?_, hW', streamExt_trans hE1 hE', by omega, ?_, ?_⟩
      · show emitHeaders d counts w lo (z + 1 + 1) = some w'
        unfold emitHeaders
        rw [hnh]
        exact hrun
      · intro t ht
        match t with
        | 0 =>
          have := hdrWritten_ext hE' (by rw [hec] at hH1; exact hH1)
          simpa using this
        | t + 1 =>
          have := hzf t (by omega)
          rw [show lo + 1 + t = lo + (t + 1) from by ring, hlen1] at this
          rw [show bitLenW w + 10 * (t + 1) = bitLenW w + 2 + 8 + 10 * t from by
            ring]
          exact this
      · rw [show lo + 1 + z = lo + (z + 1) from by ring, hlen1] at hlast
        rw [show bitLenW w + 10 * (z + 1) = bitLenW w + 2 + 8 + 10 * z from by
          ring]
        exact hlast

end DawgSpec
